import Mathlib

/-!
# Entity-component-system runtime (`src/entity/ecs.c`) and direction lookup

A shallow embedding of the ECS engine: the entity table, the occupancy bitmap, the
per-component-type storage tables, the lifecycle callbacks and the event dispatch,
followed by the properties of the engine that are established about it.  The lookup
`_ivec3s2dir` of `src/util/direction.c` is embedded as well.

Conventions of the embedding.

* The occupancy bitmap is the byte array the C code owns (`List Nat`, one byte per
  element); `ecs_new` reads it through a `u64 *`, which is embedded as a little-endian
  read of eight consecutive bytes.
* `EntityId` is `u64`: the post-increment of `next_entity_id` wraps modulo `2 ^ 64`.
* A component table is a sequence of slots; each slot carries its tag word and its
  payload bytes.  `ECSCL_GET (list, i)` is the slot `i`; the byte offsets of the layout
  are embedded separately.
* Function pointers (`ECSSubscriber`) are state transformers: a callback receives the
  component pointer and the entity handle, and may change the engine through
  `entity.ecs`.  The callbacks of all component types form a table that the operations
  take as their first argument, because `ecs.c` never writes `list->system` after
  registration.
* Allocation (`calloc`, `realloc`) always succeeds: the `assert`s on its result abort the
  program otherwise; `capacity` is therefore an unbounded natural number.
* A failing `assert` aborts: the operation returns `none`.  Successful operations return
  the engine together with the list of the callback invocations they made, each with the
  engine state it ran in.
* The functions that assert (`ecs_delete`, `_ecs_add_internal`, `ecs_remove`, `ecs_get`)
  are also given statement by statement (`ecs_delete_run` and so on), as runs that keep
  the engine and the invocations made up to a failing assertion; the two forms agree.
* An access beyond the end of an array is undefined in C.  Here such a read gives a clear
  bit, the identifier 0 or an empty slot with tag 0, and such a write changes nothing;
  for handles inside the arrays no such access occurs.
* `_ivec3s2dir` takes two flags for what the build decides: whether assertions are
  compiled out (`NDEBUG`) and whether the enumeration `Direction` is an unsigned type.
* The loops of `ecs_new` are bounded by the capacity and are embedded with that bound;
  the inner loop of `ecs_event` reads the capacity again after every callback and takes
  an explicit bound on its iterations.
-/

namespace EcsModel

/-! ## Entity identifiers and handles -/

/-- Entity identifiers are `u64` values. -/
abbrev EntityId := Nat

/-- Modelled from the spec: the constant `ENTITY_NONE` of `ecs.h`, the identifier value
`0` that never denotes a live entity. -/
def ENTITY_NONE : EntityId := 0

/-- Number of values of a `u64`. -/
def U64_MOD : Nat := 2 ^ 64

/-- The value `0xFFFFFFFFFFFFFFFF`. -/
def U64_MAX : Nat := 0xFFFFFFFFFFFFFFFF

/-- The handle `struct Entity`, without its back pointer to the engine: the engine is an
explicit argument of every operation. -/
structure Entity where
  id : EntityId
  index : Nat
deriving DecidableEq, Repr

/-! ## Raw memory helpers -/

/-- The call `memset (p + off, v, n)` on an array `p` of cells. -/
def memset {α : Type} (xs : List α) (off : Nat) (v : α) (n : Nat) : List α :=
  xs.take off ++ List.replicate (min n (xs.length - off)) v ++ xs.drop (off + n)

/-- The call `realloc (p, n)` on an array of cells: the first `min (old, n)` cells are
kept, the cells beyond the old size are indeterminate and hold `junk`. -/
def realloc {α : Type} (xs : List α) (n : Nat) (junk : α) : List α :=
  xs.take n ++ List.replicate (n - xs.length) junk

/-- The call `memcpy (dst, src, n)` on byte arrays: the first `n` bytes of `src` replace
the first `n` bytes of `dst`.  A source of fewer than `n` bytes (an out-of-bounds read in
C) supplies the bytes it has. -/
def memcpy (dst src : List Nat) (n : Nat) : List Nat :=
  src.take n ++ dst.drop (src.take n).length

/-- Content of a byte that `realloc` leaves indeterminate. -/
def JUNK_BYTE : Nat := 0xAA

/-! ## Occupancy bitmap -/

/-- Modelled from the spec: the type `Bitmap` of `util/bitmap.h` (not part of the sources
at hand), one bit per entity slot, packed eight to a byte. -/
abbrev Bitmap := List Nat

/-- Modelled from the spec: the macro `BITMAP_SIZE_TO_BYTES` of `util/bitmap.h`, the
number of bytes that hold `n` bits. -/
def BITMAP_SIZE_TO_BYTES (n : Nat) : Nat := (n + 7) / 8

/-- Modelled from the spec: `bitmap_calloc` of `util/bitmap.h`, a zeroed bitmap of `n`
bits. -/
def bitmap_calloc (n : Nat) : Bitmap := List.replicate (BITMAP_SIZE_TO_BYTES n) 0

/-- Modelled from the spec: `bitmap_realloc` of `util/bitmap.h`, resizing to `n` bits. -/
def bitmap_realloc (b : Bitmap) (n : Nat) : Bitmap :=
  realloc b (BITMAP_SIZE_TO_BYTES n) JUNK_BYTE

/-- Modelled from the spec: `bitmap_get` of `util/bitmap.h`, the occupancy bit `i`. -/
def bitmap_get (b : Bitmap) (i : Nat) : Bool := (b.getD (i / 8) 0).testBit (i % 8)

/-- Modelled from the spec: `bitmap_set` of `util/bitmap.h`, `b[i / 8] |= 1 << (i % 8)`. -/
def bitmap_set (b : Bitmap) (i : Nat) : Bitmap :=
  b.set (i / 8) (b.getD (i / 8) 0 ||| (1 <<< (i % 8)))

/-- Modelled from the spec: `bitmap_clr` of `util/bitmap.h`,
`b[i / 8] &= ~(1 << (i % 8))` on a `u8`. -/
def bitmap_clr (b : Bitmap) (i : Nat) : Bitmap :=
  b.set (i / 8) (b.getD (i / 8) 0 &&& (0xFF ^^^ (1 <<< (i % 8))))

/-- The read `((u64 *) used)[k]`: eight consecutive bytes, little endian. -/
def u64_at (b : Bitmap) (k : Nat) : Nat :=
  b.getD (8 * k) 0 + b.getD (8 * k + 1) 0 * 2 ^ 8 + b.getD (8 * k + 2) 0 * 2 ^ 16
    + b.getD (8 * k + 3) 0 * 2 ^ 24 + b.getD (8 * k + 4) 0 * 2 ^ 32
    + b.getD (8 * k + 5) 0 * 2 ^ 40 + b.getD (8 * k + 6) 0 * 2 ^ 48
    + b.getD (8 * k + 7) 0 * 2 ^ 56

/-! ## Component tables -/

/-- Modelled from the spec: the flag `ECS_TAG_USED` of `ecs.h`, the "used" bit of a
tag. -/
def ECS_TAG_USED : Nat := 1

/-- One element of `ComponentList.components`: the tag in front of the payload and the
`component_size` payload bytes. -/
structure Slot where
  tag : Nat
  payload : List Nat
deriving DecidableEq, Repr

instance : Inhabited Slot := ⟨⟨0, []⟩⟩

/-- An element as `calloc` and `memset (_, 0, _)` leave it. -/
def Slot.zero (component_size : Nat) : Slot := ⟨0, List.replicate component_size 0⟩

/-- An element whose bytes `realloc` left indeterminate. -/
def Slot.junk (component_size : Nat) : Slot :=
  ⟨JUNK_BYTE, List.replicate component_size JUNK_BYTE⟩

/-- The storage of `struct ComponentList`; its `system` field lives in the callback
table. -/
structure ComponentList where
  component_size : Nat
  components : List Slot
deriving DecidableEq, Repr

instance : Inhabited ComponentList := ⟨⟨0, []⟩⟩

/-- The engine `struct ECS`; `lists` has `ECSCOMPONENT_LAST + 1` entries. -/
structure ECS where
  capacity : Nat
  ids : List EntityId
  used : Bitmap
  lists : List ComponentList
  next_entity_id : EntityId
deriving DecidableEq, Repr

/-- A component pointer as `ECSCL_GET (&ecs->lists[list], index)` computes it. -/
structure ComponentPtr where
  list : Nat
  index : Nat
deriving DecidableEq, Repr

/-- The macro `ECSCL_GET`: the pointer to element `i` of table `c`. -/
def ECSCL_GET (c i : Nat) : ComponentPtr := ⟨c, i⟩

/-- The element a component pointer refers to. -/
def slot_at (s : ECS) (p : ComponentPtr) : Slot :=
  ((s.lists.getD p.list default).components).getD p.index default

/-- The `component_size` of table `c`. -/
def table_size (s : ECS) (c : Nat) : Nat := (s.lists.getD c default).component_size

/-- The number of elements allocated for table `c`. -/
def table_len (s : ECS) (c : Nat) : Nat := (s.lists.getD c default).components.length

/-- The macro `ECS_TAG`, read. -/
def ECS_TAG (s : ECS) (p : ComponentPtr) : Nat := (slot_at s p).tag

/-- The payload bytes a component pointer refers to. -/
def payload_at (s : ECS) (p : ComponentPtr) : List Nat := (slot_at s p).payload

/-- Store into the element a component pointer refers to. -/
def slot_update (s : ECS) (p : ComponentPtr) (f : Slot → Slot) : ECS :=
  let store := fun (l : ComponentList) =>
    { l with components := l.components.modify f p.index }
  { s with lists := s.lists.modify store p.list }

/-- The assignment `*ECS_PTAG (p) |= ECS_TAG_USED`. -/
def tag_set_used (s : ECS) (p : ComponentPtr) : ECS :=
  slot_update s p (fun x => { x with tag := x.tag ||| ECS_TAG_USED })

/-- The assignment `*ECS_PTAG (p) &= ~ECS_TAG_USED`. -/
def tag_clear_used (s : ECS) (p : ComponentPtr) : ECS :=
  slot_update s p (fun x => { x with tag := x.tag ^^^ (x.tag &&& ECS_TAG_USED) })

/-- The tag word after `&= ~ECS_TAG_USED`. -/
def tag_cleared (t : Nat) : Nat := t ^^^ (t &&& ECS_TAG_USED)

/-! ## Callbacks -/

/-- The function pointer type `ECSSubscriber`: called with the component pointer and
the entity handle, it may change the engine. -/
abbrev ECSSubscriber := ComponentPtr → Entity → ECS → ECS

/-- Modelled from the spec: `union ECSSystem` of `ecs.h`, the callbacks of one component
type, each optionally absent (`NULL`). -/
structure ECSSystem where
  init : Option ECSSubscriber
  destroy : Option ECSSubscriber
  subscribers : Nat → Option ECSSubscriber

/-- The callback table: the `system` field of every `lists[c]`. -/
abbrev Systems := Nat → ECSSystem

/-- A system without callbacks. -/
def ECSSystem.none : ECSSystem := ⟨Option.none, Option.none, fun _ => Option.none⟩

/-- One invocation of a callback: its arguments and the engine state it runs in. -/
structure Call where
  component : ComponentPtr
  entity : Entity
  state : ECS
deriving DecidableEq, Repr

/-- The statement `if (f != NULL) f (component, entity);`, recording the call. -/
def invoke (f : Option ECSSubscriber) (p : ComponentPtr) (e : Entity)
    (r : ECS × List Call) : ECS × List Call :=
  match f with
  | Option.none => r
  | some g => (g p e r.1, r.2 ++ [⟨p, e, r.1⟩])

/-! ## Registration and initialisation -/

/-- The function `_ecs_register_internal`: a zeroed table of `capacity` elements. -/
def _ecs_register_internal (component_size capacity : Nat) : ComponentList :=
  ⟨component_size, List.replicate capacity (Slot.zero component_size)⟩

/-- Modelled from the spec: `_ecs_init_internal` of `ecs.h`, which registers every
component type; `sizes` lists the `component_size` of the types `0 .. ECSCOMPONENT_LAST`. -/
def _ecs_init_internal (sizes : List Nat) (capacity : Nat) : List ComponentList :=
  sizes.map (fun sz => _ecs_register_internal sz capacity)

/-- The function `ecs_init`. -/
def ecs_init (sizes : List Nat) : ECS :=
  { capacity := 64
    ids := List.replicate 64 ENTITY_NONE
    used := bitmap_calloc 64
    next_entity_id := 1
    lists := _ecs_init_internal sizes 64 }

/-! ## Entity creation -/

/-- The first loop of `ecs_new`: `for (i = 0; i < capacity; i += 64)` leaving at the
first 64-bit word that is not all ones.  The loop runs at most `capacity` times. -/
def ecs_new_scan_words (used : Bitmap) (capacity : Nat) : Nat → Nat → Nat
  | 0, i => i
  | fuel + 1, i =>
    if i < capacity then
      if u64_at used (i / 64) ≠ U64_MAX then i
      else ecs_new_scan_words used capacity fuel (i + 64)
    else i

/-- The second loop of `ecs_new`: `for (; i < capacity; i++)` leaving at the first clear
bit. -/
def ecs_new_scan_bits (used : Bitmap) (capacity : Nat) : Nat → Nat → Nat
  | 0, i => i
  | fuel + 1, i =>
    if i < capacity then
      if !bitmap_get used i then i
      else ecs_new_scan_bits used capacity fuel (i + 1)
    else i

/-- The body of the loop over `lists` in the growth branch of `ecs_new`: the table is
reallocated to `capacity` elements and the elements from `old_capacity` on are zeroed. -/
def ComponentList.grow (old_capacity capacity : Nat) (list : ComponentList) :
    ComponentList :=
  { list with
    components :=
      memset (realloc list.components capacity (Slot.junk list.component_size))
        old_capacity (Slot.zero list.component_size) (capacity - old_capacity) }

/-- The growth branch of `ecs_new`: capacity doubles, every array is reallocated and its
new part zeroed. -/
def ecs_grow (s : ECS) : ECS :=
  let old_capacity := s.capacity
  let capacity := s.capacity * 2
  { s with
    capacity := capacity
    used := memset (bitmap_realloc s.used capacity) (BITMAP_SIZE_TO_BYTES old_capacity) 0
      (BITMAP_SIZE_TO_BYTES capacity - BITMAP_SIZE_TO_BYTES old_capacity)
    ids := memset (realloc s.ids capacity JUNK_BYTE) old_capacity 0 (capacity - old_capacity)
    lists := s.lists.map (ComponentList.grow old_capacity capacity) }

/-- The slot index `ecs_new` settles on, with the engine after the optional growth. -/
def ecs_new_slot (s : ECS) : ECS × Nat :=
  let i := ecs_new_scan_words s.used s.capacity s.capacity 0
  if i = s.capacity then (ecs_grow s, i)
  else (s, ecs_new_scan_bits s.used s.capacity s.capacity i)

/-- The function `ecs_new`: the engine after the call and the handle returned. -/
def ecs_new (s : ECS) : ECS × Entity :=
  let r := ecs_new_slot s
  let id := r.1.next_entity_id
  ({ r.1 with
      used := bitmap_set r.1.used r.2
      next_entity_id := (r.1.next_entity_id + 1) % U64_MOD
      ids := r.1.ids.set r.2 id },
   ⟨id, r.2⟩)

/-! ## Entity deletion, component attach and detach -/

/-- The loop body of `ecs_delete` for the component types in `js`. -/
def ecs_delete_loop (sys : Systems) (entity : Entity) :
    List Nat → ECS × List Call → ECS × List Call
  | [], r => r
  | j :: js, r =>
    let destroy := (sys j).destroy
    let component := ECSCL_GET j entity.index
    ecs_delete_loop sys entity js
      (invoke destroy component entity (tag_clear_used r.1 component, r.2))

/-- The function `ecs_delete`; `none` when its assertion fails. -/
def ecs_delete (sys : Systems) (s : ECS) (entity : Entity) : Option (ECS × List Call) :=
  if bitmap_get s.used entity.index then
    let r := ecs_delete_loop sys entity (List.range s.lists.length) (s, [])
    some ({ r.1 with
              used := bitmap_clr r.1.used entity.index
              ids := r.1.ids.set entity.index ENTITY_NONE },
          r.2)
  else Option.none

/-- The predicate `ECS_TAG (component) & ECS_TAG_USED`. -/
def tag_used (s : ECS) (p : ComponentPtr) : Bool := ECS_TAG s p &&& ECS_TAG_USED != 0

/-- The function `ecs_has`. -/
def ecs_has (s : ECS) (entity : Entity) (component : Nat) : Bool :=
  tag_used s (ECSCL_GET component entity.index)

/-- The function `ecs_get`; `none` when its assertion fails. -/
def ecs_get (s : ECS) (entity : Entity) (component : Nat) : Option ComponentPtr :=
  if ecs_has s entity component then some (ECSCL_GET component entity.index)
  else Option.none

/-- The statement `if (value != NULL) memcpy (component, value, list->component_size);`
of `_ecs_add_internal`. -/
def copy_value (s : ECS) (component : ComponentPtr) (value : Option (List Nat)) : ECS :=
  match value with
  | Option.none => s
  | some v => slot_update s component (fun x =>
      { x with payload := memcpy x.payload v (table_size s component.list) })

/-- The function `_ecs_add_internal`; `value` is `none` for a `NULL` pointer; `none` is
returned when the assertion fails. -/
def _ecs_add_internal (sys : Systems) (s : ECS) (entity : Entity) (component_id : Nat)
    (value : Option (List Nat)) : Option (ECS × List Call) :=
  let init := (sys component_id).init
  let component := ECSCL_GET component_id entity.index
  if !tag_used s component then
    let s1 := tag_set_used s component
    let s2 := copy_value s1 component value
    some (invoke init component entity (s2, []))
  else Option.none

/-- The function `ecs_remove`; `none` when its assertion fails. -/
def ecs_remove (sys : Systems) (s : ECS) (entity : Entity) (component_id : Nat) :
    Option (ECS × List Call) :=
  let destroy := (sys component_id).destroy
  let component := ECSCL_GET component_id entity.index
  if tag_used s component then
    some (invoke destroy component entity (tag_clear_used s component, []))
  else Option.none

/-! ## Statement-level execution with assertions -/

/-- How a run of statements ends.  Either it returns a value, leaving the engine and the
list of the callback invocations made; or an `assert` fails and the program aborts, and
the state kept is the engine and the invocations as the statements executed before the
failing assertion left them. -/
inductive Outcome (α : Type) where
  | returned (value : α) (state : ECS × List Call) : Outcome α
  | aborted (state : ECS × List Call) : Outcome α

/-- The engine and the callback invocations at the failing assertion, when the run
aborted. -/
def Outcome.abort_state {α : Type} : Outcome α → Option (ECS × List Call)
  | Outcome.returned _ _ => Option.none
  | Outcome.aborted st => some st

/-- The engine and the callback invocations after a run that returned. -/
def Outcome.final {α : Type} : Outcome α → Option (ECS × List Call)
  | Outcome.returned _ st => some st
  | Outcome.aborted _ => Option.none

/-- The value of a run that returned. -/
def Outcome.value {α : Type} : Outcome α → Option α
  | Outcome.returned a _ => some a
  | Outcome.aborted _ => Option.none

/-- A sequence of statements: run on an engine and the invocations made so far. -/
def Exec (α : Type) : Type := ECS × List Call → Outcome α

/-- The run of statements on a state. -/
def Exec.run {α : Type} (m : Exec α) (st : ECS × List Call) : Outcome α := m st

/-- The empty sequence of statements, returning `a`. -/
def Exec.ret {α : Type} (a : α) : Exec α := fun st => Outcome.returned a st

/-- Sequencing `m; f`: the statements `f` run in the state `m` left, unless `m` aborted. -/
def Exec.seq {α β : Type} (m : Exec α) (f : α → Exec β) : Exec β := fun st =>
  match m st with
  | Outcome.returned a st1 => f a st1
  | Outcome.aborted st1 => Outcome.aborted st1

instance : Monad Exec where
  pure := Exec.ret
  bind := Exec.seq

/-- The statement `assert (cond);`: the run aborts in the current state when the
condition is false there. -/
def c_assert (cond : ECS → Bool) : Exec Unit := fun st =>
  if cond st.1 then Outcome.returned () st else Outcome.aborted st

/-- A statement that writes the engine. -/
def c_store (f : ECS → ECS) : Exec Unit := fun st => Outcome.returned () (f st.1, st.2)

/-- The statement `if (f != NULL) f (component, entity);`. -/
def c_call (f : Option ECSSubscriber) (component : ComponentPtr) (entity : Entity) :
    Exec Unit := fun st => Outcome.returned () (invoke f component entity st)

/-- The statements of `ecs_delete`, in the order of the source. -/
def ecs_delete_run (sys : Systems) (entity : Entity) : Exec Unit := do
  c_assert (fun self => bitmap_get self.used entity.index)
  (fun st => Outcome.returned ()
    (ecs_delete_loop sys entity (List.range st.1.lists.length) st))
  c_store (fun self => { self with used := bitmap_clr self.used entity.index })
  c_store (fun self => { self with ids := self.ids.set entity.index ENTITY_NONE })

/-- The statements of `_ecs_add_internal`, in the order of the source. -/
def _ecs_add_internal_run (sys : Systems) (entity : Entity) (component_id : Nat)
    (value : Option (List Nat)) : Exec Unit := do
  let init := (sys component_id).init
  let component := ECSCL_GET component_id entity.index
  c_assert (fun self => !tag_used self component)
  c_store (fun self => tag_set_used self component)
  c_store (fun self => copy_value self component value)
  c_call init component entity

/-- The statements of `ecs_remove`, in the order of the source. -/
def ecs_remove_run (sys : Systems) (entity : Entity) (component_id : Nat) : Exec Unit := do
  let destroy := (sys component_id).destroy
  let component := ECSCL_GET component_id entity.index
  c_assert (fun self => tag_used self component)
  c_store (fun self => tag_clear_used self component)
  c_call destroy component entity

/-- The statements of `ecs_get`, in the order of the source. -/
def ecs_get_run (entity : Entity) (component : Nat) : Exec ComponentPtr := do
  c_assert (fun self => ecs_has self entity component)
  pure (ECSCL_GET component entity.index)

/-! ## Event dispatch -/

/-- The inner loop of `ecs_event` for the component type `i`:
`for (j; j < self->capacity; j++)` calling the subscriber on every slot tagged used.  The
capacity is read again in every iteration, as a subscriber may change the engine; the
result is `none` when `fuel` iterations do not end the loop. -/
def ecs_event_slots (subscriber : ECSSubscriber) (i : Nat) :
    Nat → Nat → ECS × List Call → Option (ECS × List Call)
  | 0, j, r => if j < r.1.capacity then Option.none else some r
  | fuel + 1, j, r =>
    if j < r.1.capacity then
      let component := ECSCL_GET i j
      if tag_used r.1 component then
        let entity : Entity := ⟨r.1.ids.getD j ENTITY_NONE, j⟩
        ecs_event_slots subscriber i fuel (j + 1)
          (invoke (some subscriber) component entity r)
      else ecs_event_slots subscriber i fuel (j + 1) r
    else some r

/-- The outer loop of `ecs_event` over the component types `js`: a type without a
subscriber for the event is skipped. -/
def ecs_event_lists (sys : Systems) (event fuel : Nat) :
    List Nat → ECS × List Call → Option (ECS × List Call)
  | [], r => some r
  | i :: js, r =>
    match (sys i).subscribers event with
    | Option.none => ecs_event_lists sys event fuel js r
    | some subscriber =>
      match ecs_event_slots subscriber i fuel 0 r with
      | Option.none => Option.none
      | some r1 => ecs_event_lists sys event fuel js r1

/-- The function `ecs_event`; every inner loop may run `fuel` iterations, and the result
is `none` when one of them needs more. -/
def ecs_event (fuel : Nat) (sys : Systems) (s : ECS) (event : Nat) :
    Option (ECS × List Call) :=
  ecs_event_lists sys event fuel (List.range s.lists.length) (s, [])

/-! ## Memory layout of a component table -/

/-- The macro `ECSCL_ELEMENT_SIZE`, in bytes; `align` stands for `alignof (max_align_t)`
and `tag_size` for `sizeof (ECSTag)`, which `ecs.c` takes from the platform and from
`ecs.h`. -/
def ECSCL_ELEMENT_SIZE (align tag_size component_size : Nat) : Nat :=
  align + component_size + tag_size

/-- The byte offset from `list->components` of the pointer `ECSCL_GET (list, i)`. -/
def ECSCL_GET_offset (align tag_size component_size i : Nat) : Nat :=
  i * ECSCL_ELEMENT_SIZE align tag_size component_size + align

/-- The macro `ECS_PTAG` on byte offsets: the tag starts `sizeof (ECSTag)` bytes before
the payload. -/
def ECS_PTAG_offset (tag_size : Nat) (p : Int) : Int := p - tag_size

/-- The byte ranges `[a, a + la)` and `[b, b + lb)` do not overlap. -/
def ranges_disjoint (a : Int) (la : Nat) (b : Int) (lb : Nat) : Prop :=
  a + la ≤ b ∨ b + lb ≤ a

/-! ## Directions (`src/util/direction.c`) -/

/-- The vector type `ivec3s`: three `int` components. -/
structure ivec3s where
  x : Int
  y : Int
  z : Int
deriving DecidableEq, Repr

/-- The table `DIRECTION_IVEC`, indexed by direction: north, south, east, west, up,
down. -/
def DIRECTION_IVEC : List ivec3s :=
  [⟨0, 0, -1⟩, ⟨0, 0, 1⟩, ⟨1, 0, 0⟩, ⟨-1, 0, 0⟩, ⟨0, 1, 0⟩, ⟨0, -1, 0⟩]

/-- The loop of `_ivec3s2dir` over the rest `table` of `DIRECTION_IVEC`, which starts at
index `i`: the index of the first entry equal to `v` in all three components. -/
def _ivec3s2dir_loop (v : ivec3s) : List ivec3s → Nat → Option Nat
  | [], _ => Option.none
  | d :: table, i =>
    if d.x = v.x ∧ d.y = v.y ∧ d.z = v.z then some i
    else _ivec3s2dir_loop v table (i + 1)

/-- The conversion `(enum Direction) x` of an `int`.  The integer type of the enumeration
is chosen by the compiler: gcc and clang give `Direction`, which has no negative
enumerator, the type `unsigned int` (`enum_unsigned = true`), and the value is taken
modulo `2 ^ 32`; with a signed type the value is kept. -/
def enum_Direction (enum_unsigned : Bool) (x : Int) : Int :=
  if enum_unsigned then x % 2 ^ 32 else x

/-- The function `_ivec3s2dir`.  When no entry matches, `assert (0 && ...)` fails and the
result is `none`; compiled with `NDEBUG` (`ndebug = true`) the assertion is absent and
the function returns `(enum Direction) -1`. -/
def _ivec3s2dir (ndebug enum_unsigned : Bool) (v : ivec3s) : Option Int :=
  match _ivec3s2dir_loop v DIRECTION_IVEC 0 with
  | some i => some (enum_Direction enum_unsigned (i : Int))
  | Option.none => if ndebug then some (enum_Direction enum_unsigned (-1)) else Option.none

/-! ## Well-formed engines and reachable states -/

/-- All bytes of a bitmap are below 256. -/
def Bitmap.Bytes (b : Bitmap) : Prop := ∀ x ∈ b, x < 256

/-- What a lifecycle callback leaves alone (section 5 of the specification): it may
write component payloads, but not the capacity, the entity table, the bitmap, the
identifier counter, the table sizes or any tag. -/
structure Frame (s t : ECS) : Prop where
  capacity : t.capacity = s.capacity
  ids : t.ids = s.ids
  used : t.used = s.used
  next_entity_id : t.next_entity_id = s.next_entity_id
  lists_length : t.lists.length = s.lists.length
  table_size : ∀ c, table_size t c = table_size s c
  table_len : ∀ c, table_len t c = table_len s c
  tag : ∀ p, ECS_TAG t p = ECS_TAG s p
  payload_length : ∀ p, (payload_at t p).length = (payload_at s p).length

/-- The part of the frame that the engine operations on components keep as well: all
but the tags. -/
structure Shape (s t : ECS) : Prop where
  capacity : t.capacity = s.capacity
  ids : t.ids = s.ids
  used : t.used = s.used
  next_entity_id : t.next_entity_id = s.next_entity_id
  lists_length : t.lists.length = s.lists.length
  table_size : ∀ c, table_size t c = table_size s c
  table_len : ∀ c, table_len t c = table_len s c
  payload_length : ∀ p, (payload_at t p).length = (payload_at s p).length

/-- A callback that respects the frame whatever its arguments. -/
def SafeCallback (f : ECSSubscriber) : Prop := ∀ p e s, Frame s (f p e s)

/-- Every bound callback (`init`, `destroy`, event subscribers) respects the frame. -/
def Systems.Safe (sys : Systems) : Prop :=
  ∀ c f, ((sys c).init = some f ∨ (sys c).destroy = some f ∨
    ∃ event, (sys c).subscribers event = some f) → SafeCallback f

/-- Structural invariant of the engine. -/
structure WF (s : ECS) : Prop where
  capacity_pos : 0 < s.capacity
  capacity_words : 64 ∣ s.capacity
  used_bytes : Bitmap.Bytes s.used
  used_length : 8 * s.used.length = s.capacity
  ids_length : s.ids.length = s.capacity
  table_len : ∀ c, c < s.lists.length → table_len s c = s.capacity
  payload_length : ∀ c i, c < s.lists.length → i < s.capacity →
    (payload_at s ⟨c, i⟩).length = table_size s c
  free_untagged : ∀ c i, bitmap_get s.used i = false → tag_used s ⟨c, i⟩ = false

/-- The engine states reachable from `ecs_init sizes` by calls of `ecs_new`, `ecs_delete`
(assertion satisfied), `_ecs_add_internal` and `ecs_remove` (assertion satisfied, on a
handle whose slot is occupied) and `ecs_event` (terminating), together with the handles
that the calls of `ecs_new` returned, in order. -/
inductive Trace (sys : Systems) (sizes : List Nat) : ECS → List Entity → Prop
  | init : Trace sys sizes (ecs_init sizes) []
  | new {s : ECS} {hs : List Entity} :
      Trace sys sizes s hs → Trace sys sizes (ecs_new s).1 (hs ++ [(ecs_new s).2])
  | delete {s : ECS} {hs : List Entity} {e : Entity} {r : ECS × List Call} :
      Trace sys sizes s hs → ecs_delete sys s e = some r → Trace sys sizes r.1 hs
  | add {s : ECS} {hs : List Entity} {e : Entity} {c : Nat} {v : Option (List Nat)}
      {r : ECS × List Call} :
      Trace sys sizes s hs → bitmap_get s.used e.index = true →
      _ecs_add_internal sys s e c v = some r → Trace sys sizes r.1 hs
  | remove {s : ECS} {hs : List Entity} {e : Entity} {c : Nat} {r : ECS × List Call} :
      Trace sys sizes s hs → bitmap_get s.used e.index = true →
      ecs_remove sys s e c = some r → Trace sys sizes r.1 hs
  | event {s : ECS} {hs : List Entity} {event fuel : Nat} {r : ECS × List Call} :
      Trace sys sizes s hs → ecs_event fuel sys s event = some r → Trace sys sizes r.1 hs

/-- Invariant that ties the entity table to the handles `hs` returned so far: the
counter is the number of creations plus one (as a `u64`), the `k`-th creation returned
identifier `k` (as a `u64`), an occupied slot holds the identifier returned by the last
creation that allocated it, and a free slot holds `ENTITY_NONE`. -/
structure IdInv (s : ECS) (hs : List Entity) : Prop where
  next : s.next_entity_id = (hs.length + 1) % U64_MOD
  returned : ∀ (k : Nat) (e : Entity), hs[k]? = some e → e.id = (k + 1) % U64_MOD
  occupied : ∀ i, bitmap_get s.used i = true →
    ∃ k : Nat, hs[k]? = some (Entity.mk (s.ids.getD i 0) i) ∧
      ∀ (k' : Nat) (e' : Entity), k < k' → hs[k']? = some e' → e'.index ≠ i
  free : ∀ i, bitmap_get s.used i = false → s.ids.getD i 0 = ENTITY_NONE

/-- An engine state reachable from `ecs_init sizes`. -/
def Reachable (sys : Systems) (sizes : List Nat) (s : ECS) : Prop :=
  ∃ hs, Trace sys sizes s hs

/-- The engine after `k` consecutive calls of `ecs_new`. -/
def ecs_new_n : Nat → ECS → ECS
  | 0, s => s
  | k + 1, s => (ecs_new (ecs_new_n k s)).1

/-- The handles returned by `k` consecutive calls of `ecs_new`, in order. -/
def ecs_new_n_handles : Nat → ECS → List Entity
  | 0, _ => []
  | k + 1, s => ecs_new_n_handles k s ++ [(ecs_new (ecs_new_n k s)).2]

/-- A callback table without any callback. -/
def no_systems : Systems := fun _ => ECSSystem.none

/-- The engine with one component type of two bytes after three creations and the
deletion of the entity in slot 1. -/
def demo_hole : ECS :=
  ((ecs_delete no_systems (ecs_new_n 3 (ecs_init [2])) ⟨2, 1⟩).get (by decide)).1

/-- The engine with one component type of two bytes after 64 creations: every slot is
occupied. -/
def demo_full : ECS := ecs_new_n 64 (ecs_init [2])

/-- The engine after three creations and the attachment of a component to the entity in
slot 1. -/
def demo_tagged : ECS :=
  ((_ecs_add_internal no_systems (ecs_new_n 3 (ecs_init [2])) ⟨2, 1⟩ 0 (some [7, 9])).get
    (by decide)).1

/-- The engine `demo_tagged` after the deletion of the entity in slot 1. -/
def demo_reused : ECS := ((ecs_delete no_systems demo_tagged ⟨2, 1⟩).get (by decide)).1

/-- The engine without component types after `n` rounds of creating an entity and
deleting it again: the initial state with an advanced identifier counter. -/
def churn_state (n : Nat) : ECS :=
  { ecs_init [] with next_entity_id := (n + 1) % U64_MOD }

/-- The handles returned by the `n` creations of `churn_state n`. -/
def churn_handles (n : Nat) : List Entity :=
  (List.range n).map (fun k => ⟨(k + 1) % U64_MOD, 0⟩)

/-- A callback table in which component type 0 has a `destroy` callback (one that leaves
the engine alone) and no other callback is bound. -/
def demo_destroy_systems : Systems := fun c =>
  if c = 0 then ⟨Option.none, some (fun _ _ s => s), fun _ => Option.none⟩
  else ECSSystem.none

/-- The engine with one component type of two bytes after one creation; the entity has
no component. -/
def demo_one : ECS := ecs_new_n 1 (ecs_init [2])

/-- The engine with a 16-byte component type (a position of two `double`s) after one
creation. -/
def demo_position : ECS := ecs_new_n 1 (ecs_init [16])

/-- The bytes of `Position{1.0, 2.0}`: the IEEE 754 doubles `0x3FF0000000000000` and
`0x4000000000000000`, little endian. -/
def position_1_2 : List Nat := [0, 0, 0, 0, 0, 0, 0xF0, 0x3F, 0, 0, 0, 0, 0, 0, 0, 0x40]

/-- A callback table in which component type 0 has an `init` callback (one that leaves
the engine alone) and no other callback is bound. -/
def demo_init_systems : Systems := fun c =>
  if c = 0 then ⟨some (fun _ _ s => s), Option.none, fun _ => Option.none⟩
  else ECSSystem.none

/-- The result of attaching a component of type 0 without a value to the entity in slot 0
of `demo_position`. -/
def demo_attached : ECS × List Call :=
  (_ecs_add_internal no_systems demo_position ⟨1, 0⟩ 0 Option.none).get (by decide)

/-- The engine `demo_hole` after one more creation: slot 1, which held the entity with
identifier 2, now holds the entity with identifier 4. -/
def demo_refilled : ECS := (ecs_new demo_hole).1

/-- The engine `t` has the capacity and the tags of `s`. -/
def SameTags (s t : ECS) : Prop :=
  t.capacity = s.capacity ∧ ∀ q, ECS_TAG t q = ECS_TAG s q

/-- The handle passed in a call is the one `ecs_event` builds from the entity table. -/
def EventHandle (call : Call) : Prop :=
  call.entity = ⟨call.state.ids.getD call.component.index ENTITY_NONE, call.component.index⟩

/-- The component pointers that `ecs_event` is to visit for the component type `i`: the
slots below the capacity that are tagged used, in ascending order. -/
def dispatch_slots (s : ECS) (i : Nat) : List ComponentPtr :=
  ((List.range s.capacity).filter (fun j => tag_used s ⟨i, j⟩)).map (fun j => ECSCL_GET i j)

/-- The component pointers that `ecs_event` is to visit: for every component type with a
subscriber bound to the event, in ascending order of the type, its used slots. -/
def dispatch_order (sys : Systems) (s : ECS) (event : Nat) : List ComponentPtr :=
  (List.range s.lists.length).flatMap
    (fun i => if ((sys i).subscribers event).isSome then dispatch_slots s i else [])

/-- A callback table in which component type 0 subscribes to event 3 with a subscriber
that increments every byte of the payload it is handed. -/
def demo_event_systems : Systems := fun c =>
  if c = 0 then
    ⟨Option.none, Option.none, fun event =>
      if event = 3 then
        some (fun p _ s => slot_update s p (fun x => ⟨x.tag, x.payload.map (· + 1)⟩))
      else Option.none⟩
  else ECSSystem.none

/-! # Properties -/

/-! ## Bitmap lemmas -/



theorem Bitmap.Bytes.bytes_getD {b : Bitmap} (h : Bitmap.Bytes b) (k : Nat) : b.getD k 0 < 256 := by
  rw [List.getD_eq_getElem?_getD]
  cases hk : b[k]? with
  | none => simp
  | some x => simpa using h x (List.getElem?_mem hk)

theorem byte_full_iff {x : Nat} (hx : x < 256) :
    x = 255 ↔ ∀ j < 8, x.testBit j = true := by
  constructor
  · rintro rfl j hj
    have := Nat.testBit_two_pow_sub_one 8 j
    simpa [hj] using this
  · intro h
    apply Nat.eq_of_testBit_eq
    intro i
    by_cases hi : i < 8
    · rw [h i hi]
      have := Nat.testBit_two_pow_sub_one 8 i
      simpa [hi] using this.symm
    · have h1 : (2:Nat) ^ 8 ≤ 2 ^ i := Nat.pow_le_pow_right (by decide) (by omega)
      rw [Nat.testBit_lt_two_pow (lt_of_lt_of_le hx h1),
        Nat.testBit_lt_two_pow (lt_of_lt_of_le (by decide : 255 < 2 ^ 8) h1)]

theorem u64_at_full_iff {b : Bitmap} (h : Bitmap.Bytes b) (k : Nat) :
    u64_at b k = U64_MAX ↔ ∀ j < 8, b.getD (8 * k + j) 0 = 255 := by
  have h0 := h.bytes_getD (8 * k)
  have h1 := h.bytes_getD (8 * k + 1)
  have h2 := h.bytes_getD (8 * k + 2)
  have h3 := h.bytes_getD (8 * k + 3)
  have h4 := h.bytes_getD (8 * k + 4)
  have h5 := h.bytes_getD (8 * k + 5)
  have h6 := h.bytes_getD (8 * k + 6)
  have h7 := h.bytes_getD (8 * k + 7)
  unfold u64_at U64_MAX
  constructor
  · intro e j hj
    have : j = 0 ∨ j = 1 ∨ j = 2 ∨ j = 3 ∨ j = 4 ∨ j = 5 ∨ j = 6 ∨ j = 7 := by omega
    rcases this with rfl | rfl | rfl | rfl | rfl | rfl | rfl | rfl
    · show b.getD (8 * k) 0 = 255
      omega
    all_goals omega
  · intro e
    have e0 : b.getD (8 * k) 0 = 255 := e 0 (by decide)
    have e1 := e 1 (by decide)
    have e2 := e 2 (by decide)
    have e3 := e 3 (by decide)
    have e4 := e 4 (by decide)
    have e5 := e 5 (by decide)
    have e6 := e 6 (by decide)
    have e7 := e 7 (by decide)
    omega

theorem word_full_iff_bits {b : Bitmap} (h : Bitmap.Bytes b) (k : Nat) :
    u64_at b k = U64_MAX ↔ ∀ j < 64, bitmap_get b (64 * k + j) = true := by
  rw [u64_at_full_iff h]
  constructor
  · intro e j hj
    unfold bitmap_get
    have hd : (64 * k + j) / 8 = 8 * k + j / 8 := by omega
    have hm : (64 * k + j) % 8 = j % 8 := by omega
    rw [hd, hm, e (j / 8) (by omega)]
    exact (byte_full_iff (by decide)).1 rfl _ (Nat.mod_lt _ (by decide))
  · intro e a ha
    rw [byte_full_iff (h.bytes_getD _)]
    intro c hc
    have := e (8 * a + c) (by omega)
    unfold bitmap_get at this
    have hd : (64 * k + (8 * a + c)) / 8 = 8 * k + a := by omega
    have hm : (64 * k + (8 * a + c)) % 8 = c := by omega
    rwa [hd, hm] at this

theorem bitmap_get_set {b : Bitmap} {i : Nat} (hi : i < 8 * b.length) (j : Nat) :
    bitmap_get (bitmap_set b i) j = if j = i then true else bitmap_get b j := by
  unfold bitmap_get bitmap_set
  simp only [List.getD_eq_getElem?_getD, List.getElem?_set]
  have hlen : i / 8 < b.length := by omega
  by_cases hji : j = i
  · subst hji
    simp [hlen, Nat.testBit_or, Nat.one_shiftLeft, Nat.testBit_two_pow]
  · simp only [hji, if_false]
    by_cases hd : i / 8 = j / 8
    · have hm : i % 8 ≠ j % 8 := by omega
      simp [hd, hlen, hd ▸ hlen, Nat.testBit_or, Nat.one_shiftLeft, Nat.testBit_two_pow, hm]
    · simp [hd]

theorem bitmap_get_clr {b : Bitmap} {i : Nat} (hi : i < 8 * b.length) (j : Nat) :
    bitmap_get (bitmap_clr b i) j = if j = i then false else bitmap_get b j := by
  unfold bitmap_get bitmap_clr
  simp only [List.getD_eq_getElem?_getD, List.getElem?_set]
  have hlen : i / 8 < b.length := by omega
  have h255 : ∀ c, c < 8 → Nat.testBit 255 c = true := fun c hc => by
    have := Nat.testBit_two_pow_sub_one 8 c
    simpa [hc] using this
  by_cases hji : j = i
  · subst hji
    simp [hlen, Nat.testBit_and, Nat.testBit_xor, Nat.one_shiftLeft, Nat.testBit_two_pow,
      h255 _ (Nat.mod_lt j (by decide : 8 > 0))]
  · simp only [hji, if_false]
    by_cases hd : i / 8 = j / 8
    · have hm : i % 8 ≠ j % 8 := by omega
      simp [hd, hlen, hd ▸ hlen, Nat.testBit_and, Nat.testBit_xor, Nat.one_shiftLeft,
        Nat.testBit_two_pow, hm, h255 _ (Nat.mod_lt j (by decide : 8 > 0))]
    · simp [hd]

theorem bitmap_set_length (b : Bitmap) (i : Nat) : (bitmap_set b i).length = b.length := by
  simp [bitmap_set]

theorem bitmap_clr_length (b : Bitmap) (i : Nat) : (bitmap_clr b i).length = b.length := by
  simp [bitmap_clr]

theorem Bitmap.Bytes.bytes_set {b : Bitmap} (h : Bitmap.Bytes b) (i : Nat) :
    Bitmap.Bytes (bitmap_set b i) := by
  intro x hx
  unfold bitmap_set at hx
  rcases List.mem_or_eq_of_mem_set hx with hx | rfl
  · exact h x hx
  · have h1 := h.bytes_getD (i / 8)
    have h2 : 1 <<< (i % 8) < 2 ^ 8 := by
      rw [Nat.one_shiftLeft]
      exact Nat.pow_lt_pow_right (by decide) (Nat.mod_lt _ (by decide))
    exact Nat.or_lt_two_pow (n := 8) h1 h2

theorem Bitmap.Bytes.bytes_clr {b : Bitmap} (h : Bitmap.Bytes b) (i : Nat) :
    Bitmap.Bytes (bitmap_clr b i) := by
  intro x hx
  unfold bitmap_clr at hx
  rcases List.mem_or_eq_of_mem_set hx with hx | rfl
  · exact h x hx
  · exact lt_of_le_of_lt Nat.and_le_left (h.bytes_getD (i / 8))


/-! ## The two scanning loops of `ecs_new` -/

theorem ecs_new_scan_words_spec {used : Bitmap} (hb : Bitmap.Bytes used) {capacity : Nat}
    (hcap : 64 ∣ capacity) :
    ∀ (fuel i : Nat), 64 ∣ i → i ≤ capacity → capacity ≤ i + 64 * fuel →
      i ≤ ecs_new_scan_words used capacity fuel i ∧
      ecs_new_scan_words used capacity fuel i ≤ capacity ∧
      (∀ j, i ≤ j → j < ecs_new_scan_words used capacity fuel i → bitmap_get used j = true) ∧
      (ecs_new_scan_words used capacity fuel i < capacity →
        ∃ j < 64, bitmap_get used (ecs_new_scan_words used capacity fuel i + j) = false ∧
          ecs_new_scan_words used capacity fuel i + j < capacity) := by
  intro fuel
  induction fuel with
  | zero =>
    intro i _ hi hf
    simp only [ecs_new_scan_words]
    refine ⟨le_refl _, hi, fun j h1 h2 => absurd h2 (by omega), fun h => absurd h (by omega)⟩
  | succ fuel ih =>
    intro i h64 hi hf
    obtain ⟨k, rfl⟩ := h64
    obtain ⟨c, rfl⟩ := hcap
    simp only [ecs_new_scan_words]
    by_cases hlt : 64 * k < 64 * c
    · simp only [hlt, if_true]
      have hk : 64 * k / 64 = k := by omega
      rw [hk]
      by_cases hw : u64_at used k = U64_MAX
      · simp only [hw, ne_eq, not_true_eq_false, if_false]
        have := ih (64 * k + 64) ⟨k + 1, by ring⟩ (by omega) (by omega)
        obtain ⟨h1, h2, h3, h4⟩ := this
        refine ⟨by omega, h2, ?_, h4⟩
        intro j hj1 hj2
        by_cases hj : j < 64 * k + 64
        · have := (word_full_iff_bits hb k).1 hw (j - 64 * k) (by omega)
          rwa [show 64 * k + (j - 64 * k) = j by omega] at this
        · exact h3 j (by omega) hj2
      · simp only [hw, ne_eq, not_false_eq_true, if_true]
        refine ⟨le_refl _, le_of_lt hlt, fun j h1 h2 => absurd h2 (by omega), fun _ => ?_⟩
        have := mt (word_full_iff_bits hb k).2 hw
        push_neg at this
        obtain ⟨j, hj, hbit⟩ := this
        exact ⟨j, hj, by simpa using hbit, by omega⟩
    · simp only [hlt, if_false]
      refine ⟨le_refl _, hi, fun j h1 h2 => absurd h2 (by omega), fun h => by simp at h⟩

theorem ecs_new_scan_bits_spec (used : Bitmap) (capacity : Nat) :
    ∀ (fuel i : Nat), i ≤ capacity → capacity ≤ i + fuel →
      i ≤ ecs_new_scan_bits used capacity fuel i ∧
      ecs_new_scan_bits used capacity fuel i ≤ capacity ∧
      (∀ j, i ≤ j → j < ecs_new_scan_bits used capacity fuel i → bitmap_get used j = true) ∧
      (ecs_new_scan_bits used capacity fuel i < capacity →
        bitmap_get used (ecs_new_scan_bits used capacity fuel i) = false) := by
  intro fuel
  induction fuel with
  | zero =>
    intro i hi hf
    simp only [ecs_new_scan_bits]
    refine ⟨le_refl _, hi, fun j h1 h2 => absurd h2 (by omega), fun h => absurd h (by omega)⟩
  | succ fuel ih =>
    intro i hi hf
    simp only [ecs_new_scan_bits]
    by_cases hlt : i < capacity
    · simp only [hlt, if_true]
      by_cases hbit : bitmap_get used i = true
      · simp only [hbit, Bool.not_true, Bool.false_eq_true, if_false]
        obtain ⟨h1, h2, h3, h4⟩ := ih (i + 1) (by omega) (by omega)
        refine ⟨by omega, h2, ?_, h4⟩
        intro j hj1 hj2
        by_cases hj : j = i
        · rw [hj]; exact hbit
        · exact h3 j (by omega) hj2
      · have hbit : bitmap_get used i = false := by simpa using hbit
        simp only [hbit, Bool.not_false, if_true]
        exact ⟨le_refl _, hi, fun j h1 h2 => absurd h2 (by omega), fun _ => by simp⟩
    · simp only [hlt, if_false]
      exact ⟨le_refl _, hi, fun j h1 h2 => absurd h2 (by omega), fun h => by simp at h⟩

/-- When some slot below capacity is free, `ecs_new` settles on the lowest free slot
without growing. -/
theorem ecs_new_slot_free {s : ECS} (hb : Bitmap.Bytes s.used) (hcap : 64 ∣ s.capacity)
    (hfree : ∃ i < s.capacity, bitmap_get s.used i = false) :
    (ecs_new_slot s).1 = s ∧ (ecs_new_slot s).2 < s.capacity ∧
      bitmap_get s.used (ecs_new_slot s).2 = false ∧
      ∀ j < (ecs_new_slot s).2, bitmap_get s.used j = true := by
  obtain ⟨i0, hi0, hclear⟩ := hfree
  obtain ⟨w1, w2, w3, w4⟩ :=
    ecs_new_scan_words_spec hb hcap s.capacity 0 ⟨0, rfl⟩ (Nat.zero_le _) (by omega)
  have hne : ecs_new_scan_words s.used s.capacity s.capacity 0 ≠ s.capacity := by
    intro e
    have := w3 i0 (Nat.zero_le _) (by omega)
    rw [this] at hclear
    exact Bool.noConfusion hclear
  have hlt : ecs_new_scan_words s.used s.capacity s.capacity 0 < s.capacity := by omega
  obtain ⟨j, hj, hjbit, hjcap⟩ := w4 hlt
  obtain ⟨b1, b2, b3, b4⟩ := ecs_new_scan_bits_spec s.used s.capacity s.capacity
    (ecs_new_scan_words s.used s.capacity s.capacity 0) w2 (by omega)
  have hblt : ecs_new_scan_bits s.used s.capacity s.capacity
      (ecs_new_scan_words s.used s.capacity s.capacity 0) < s.capacity := by
    by_contra hge
    have := b3 (ecs_new_scan_words s.used s.capacity s.capacity 0 + j) (by omega) (by omega)
    rw [this] at hjbit
    exact Bool.noConfusion hjbit
  unfold ecs_new_slot
  simp only [hne, if_false]
  refine ⟨trivial, hblt, b4 hblt, ?_⟩
  intro k hk
  by_cases hkw : k < ecs_new_scan_words s.used s.capacity s.capacity 0
  · exact w3 k (Nat.zero_le _) hkw
  · exact b3 k (by omega) hk

/-- When every slot below capacity is occupied, `ecs_new` grows the engine and settles on
the slot `capacity`. -/
theorem ecs_new_slot_full {s : ECS} (hb : Bitmap.Bytes s.used) (hcap : 64 ∣ s.capacity)
    (hfull : ∀ i < s.capacity, bitmap_get s.used i = true) :
    ecs_new_slot s = (ecs_grow s, s.capacity) := by
  obtain ⟨w1, w2, w3, w4⟩ :=
    ecs_new_scan_words_spec hb hcap s.capacity 0 ⟨0, rfl⟩ (Nat.zero_le _) (by omega)
  have he : ecs_new_scan_words s.used s.capacity s.capacity 0 = s.capacity := by
    by_contra hne
    obtain ⟨j, _, hjbit, hjcap⟩ := w4 (by omega)
    rw [hfull _ hjcap] at hjbit
    exact Bool.noConfusion hjbit
  unfold ecs_new_slot
  simp only [he, if_true]

/-! ## Stores into component tables -/


theorem slot_update_capacity (s : ECS) (p : ComponentPtr) (f : Slot → Slot) :
    (slot_update s p f).capacity = s.capacity := rfl

theorem slot_update_ids (s : ECS) (p : ComponentPtr) (f : Slot → Slot) :
    (slot_update s p f).ids = s.ids := rfl

theorem slot_update_used (s : ECS) (p : ComponentPtr) (f : Slot → Slot) :
    (slot_update s p f).used = s.used := rfl

theorem slot_update_next (s : ECS) (p : ComponentPtr) (f : Slot → Slot) :
    (slot_update s p f).next_entity_id = s.next_entity_id := rfl

theorem slot_update_lists_length (s : ECS) (p : ComponentPtr) (f : Slot → Slot) :
    (slot_update s p f).lists.length = s.lists.length := by
  simp [slot_update]

theorem slot_update_table (s : ECS) (p : ComponentPtr) (f : Slot → Slot) (c : Nat) :
    (slot_update s p f).lists.getD c default =
      if p.list = c then
        { s.lists.getD c default with
          components := (s.lists.getD c default).components.modify f p.index }
      else s.lists.getD c default := by
  simp only [slot_update, List.getD_eq_getElem?_getD, List.getElem?_modify]
  cases h : s.lists[c]? with
  | none => 
    by_cases hc : p.list = c
    · simp only [hc, if_true, Option.map_none', Option.getD_none, Functor.map]
      show (⟨0, []⟩ : ComponentList) = ⟨0, List.modify f p.index []⟩
      cases p.index <;> rfl
    · simp [hc]
  | some l =>
    by_cases hc : p.list = c
    · simp [hc]
    · simp [hc]

theorem table_size_slot_update (s : ECS) (p : ComponentPtr) (f : Slot → Slot) (c : Nat) :
    table_size (slot_update s p f) c = table_size s c := by
  unfold table_size
  rw [slot_update_table]
  split <;> rfl

theorem table_len_slot_update (s : ECS) (p : ComponentPtr) (f : Slot → Slot) (c : Nat) :
    table_len (slot_update s p f) c = table_len s c := by
  unfold table_len
  rw [slot_update_table]
  split
  · simp
  · rfl

theorem slot_at_slot_update (s : ECS) (p q : ComponentPtr) (f : Slot → Slot) :
    slot_at (slot_update s p f) q =
      if p = q ∧ q.index < table_len s q.list then f (slot_at s q) else slot_at s q := by
  unfold slot_at table_len
  rw [slot_update_table]
  by_cases hl : p.list = q.list
  · simp only [hl, if_true, List.getD_eq_getElem?_getD, List.getElem?_modify]
    by_cases hi : p.index = q.index
    · have hpq : p = q := by
        cases p; cases q; simp_all
      by_cases hb : q.index < (s.lists[q.list]?.getD default).components.length
      · simp [hpq, hb, List.getElem?_eq_getElem hb]
      · have hn : (s.lists[q.list]?.getD default).components[q.index]? = none :=
          List.getElem?_eq_none (by omega)
        simp [hpq, hb, hn]
    · have hpq : p ≠ q := fun e => hi (by rw [e])
      cases h : (s.lists[q.list]?.getD default).components[q.index]? <;> simp [hpq, hi]
  · have hpq : p ≠ q := fun e => hl (by rw [e])
    simp [hl, hpq]

/-! ## Frames and tags -/


theorem Frame.frame_refl (s : ECS) : Frame s s :=
  ⟨rfl, rfl, rfl, rfl, rfl, fun _ => rfl, fun _ => rfl, fun _ => rfl, fun _ => rfl⟩

theorem Frame.frame_trans {s t u : ECS} (h1 : Frame s t) (h2 : Frame t u) : Frame s u :=
  ⟨h2.capacity.trans h1.capacity, h2.ids.trans h1.ids, h2.used.trans h1.used,
    h2.next_entity_id.trans h1.next_entity_id, h2.lists_length.trans h1.lists_length,
    fun c => (h2.table_size c).trans (h1.table_size c),
    fun c => (h2.table_len c).trans (h1.table_len c),
    fun p => (h2.tag p).trans (h1.tag p),
    fun p => (h2.payload_length p).trans (h1.payload_length p)⟩

theorem Frame.frame_tag_used {s t : ECS} (h : Frame s t) (p : ComponentPtr) :
    tag_used t p = tag_used s p := by
  unfold EcsModel.tag_used
  rw [h.tag]

theorem Frame.frame_wf {s t : ECS} (h : Frame s t) (hs : WF s) : WF t where
  capacity_pos := h.capacity ▸ hs.capacity_pos
  capacity_words := h.capacity ▸ hs.capacity_words
  used_bytes := h.used ▸ hs.used_bytes
  used_length := by rw [h.used, h.capacity]; exact hs.used_length
  ids_length := by rw [h.ids, h.capacity]; exact hs.ids_length
  table_len := fun c hc => by
    rw [h.table_len, h.capacity]; exact hs.table_len c (h.lists_length ▸ hc)
  payload_length := fun c i hc hi => by
    rw [h.payload_length, h.table_size]
    exact hs.payload_length c i (h.lists_length ▸ hc) (h.capacity ▸ hi)
  free_untagged := fun c i hbit => by
    rw [h.frame_tag_used]; exact hs.free_untagged c i (h.used ▸ hbit)

theorem invoke_frame {sys : Systems} (hsys : sys.Safe) {c : Nat} {f : Option ECSSubscriber}
    (hf : f = (sys c).init ∨ f = (sys c).destroy) (p : ComponentPtr) (e : Entity)
    (r : ECS × List Call) : Frame r.1 (invoke f p e r).1 := by
  cases f with
  | none => exact Frame.frame_refl _
  | some g =>
    have : SafeCallback g := by
      rcases hf with h | h
      · exact hsys c g (Or.inl h.symm)
      · exact hsys c g (Or.inr (Or.inl h.symm))
    exact this p e r.1

theorem ECS_TAG_tag_clear_used (s : ECS) (p q : ComponentPtr) :
    ECS_TAG (tag_clear_used s p) q =
      if p = q then ECS_TAG s q ^^^ (ECS_TAG s q &&& ECS_TAG_USED) else ECS_TAG s q := by
  unfold ECS_TAG tag_clear_used
  rw [slot_at_slot_update]
  by_cases hpq : p = q
  · by_cases hb : q.index < table_len s q.list
    · simp [hpq, hb]
    · have : slot_at s q = default := by
        unfold slot_at
        rw [List.getD_eq_getElem?_getD (s.lists.getD q.list default).components,
          List.getElem?_eq_none (by unfold table_len at hb; omega)]
        rfl
      simp only [hpq, hb, and_false, if_false, if_true, this]
      rfl
  · simp [hpq]

theorem payload_at_tag_clear_used (s : ECS) (p q : ComponentPtr) :
    payload_at (tag_clear_used s p) q = payload_at s q := by
  unfold payload_at tag_clear_used
  rw [slot_at_slot_update]
  split <;> rfl

theorem ECS_TAG_tag_set_used (s : ECS) (p q : ComponentPtr) :
    ECS_TAG (tag_set_used s p) q =
      if p = q ∧ q.index < table_len s q.list then ECS_TAG s q ||| ECS_TAG_USED
      else ECS_TAG s q := by
  unfold ECS_TAG tag_set_used
  rw [slot_at_slot_update]
  split <;> rfl

theorem payload_at_tag_set_used (s : ECS) (p q : ComponentPtr) :
    payload_at (tag_set_used s p) q = payload_at s q := by
  unfold payload_at tag_set_used
  rw [slot_at_slot_update]
  split <;> rfl

theorem tag_clear_idem (t : Nat) : (t ^^^ (t &&& ECS_TAG_USED)) &&& ECS_TAG_USED = 0 := by
  apply Nat.eq_of_testBit_eq
  intro i
  simp only [Nat.testBit_and, Nat.testBit_xor, Nat.zero_testBit, ECS_TAG_USED]
  cases h1 : t.testBit i <;> cases h2 : Nat.testBit 1 i <;> simp

theorem tag_set_used_bit (t : Nat) : (t ||| ECS_TAG_USED) &&& ECS_TAG_USED ≠ 0 := by
  intro h
  have := congrArg (fun x => Nat.testBit x 0) h
  simp [Nat.testBit_and, Nat.testBit_or, ECS_TAG_USED] at this

theorem tag_used_tag_clear_used (s : ECS) (p : ComponentPtr) :
    tag_used (tag_clear_used s p) p = false := by
  unfold tag_used
  rw [ECS_TAG_tag_clear_used]
  simp [tag_clear_idem]

theorem tag_used_tag_clear_used_ne (s : ECS) {p q : ComponentPtr} (h : p ≠ q) :
    tag_used (tag_clear_used s p) q = tag_used s q := by
  unfold tag_used
  rw [ECS_TAG_tag_clear_used]
  simp [h]


/-! ## Growth -/

theorem memset_realloc_grow {α : Type} (xs : List α) (n : Nat) (junk z : α)
    (h : xs.length = n) :
    memset (realloc xs (n * 2) junk) n z (n * 2 - n) = xs ++ List.replicate n z := by
  unfold memset realloc
  have h1 : List.take (n * 2) xs = xs := List.take_of_length_le (by omega)
  have h2 : n * 2 - xs.length = n := by omega
  have h3 : n * 2 - n = n := by omega
  rw [h1, h2, h3]
  have h4 : List.take n (xs ++ List.replicate n junk) = xs := by
    rw [List.take_append_of_le_length (by omega), List.take_of_length_le (by omega)]
  have h5 : List.drop (n + n) (xs ++ List.replicate n junk) = [] := by
    apply List.drop_of_length_le
    simp [h]
  have h6 : (xs ++ List.replicate n junk).length - n = n := by simp [h]
  rw [h4, h5, h6]
  simp

theorem ecs_grow_used {s : ECS} (h : WF s) :
    (ecs_grow s).used = s.used ++ List.replicate s.used.length 0 := by
  have hl := h.used_length
  have h1 : BITMAP_SIZE_TO_BYTES s.capacity = s.used.length := by
    unfold BITMAP_SIZE_TO_BYTES; omega
  have h2 : BITMAP_SIZE_TO_BYTES (s.capacity * 2) = s.used.length * 2 := by
    unfold BITMAP_SIZE_TO_BYTES; omega
  show memset (bitmap_realloc s.used (s.capacity * 2)) (BITMAP_SIZE_TO_BYTES s.capacity) 0
    (BITMAP_SIZE_TO_BYTES (s.capacity * 2) - BITMAP_SIZE_TO_BYTES s.capacity) = _
  unfold bitmap_realloc
  rw [h1, h2]
  exact memset_realloc_grow s.used s.used.length JUNK_BYTE 0 rfl

theorem ecs_grow_ids {s : ECS} (h : WF s) :
    (ecs_grow s).ids = s.ids ++ List.replicate s.capacity 0 :=
  memset_realloc_grow s.ids s.capacity JUNK_BYTE 0 h.ids_length

theorem ecs_grow_capacity (s : ECS) : (ecs_grow s).capacity = s.capacity * 2 := rfl

theorem ecs_grow_next (s : ECS) : (ecs_grow s).next_entity_id = s.next_entity_id := rfl

theorem ecs_grow_lists_length (s : ECS) : (ecs_grow s).lists.length = s.lists.length := by
  simp [ecs_grow]

theorem ecs_grow_table {s : ECS} (h : WF s) {c : Nat} (hc : c < s.lists.length) :
    (ecs_grow s).lists.getD c default =
      { s.lists.getD c default with
        components := (s.lists.getD c default).components ++
          List.replicate s.capacity (Slot.zero (table_size s c)) } := by
  have hlen := h.table_len c hc
  unfold table_len at hlen
  unfold table_size
  simp only [ecs_grow, List.getD_eq_getElem?_getD, List.getElem?_map] at hlen ⊢
  rw [List.getElem?_eq_getElem hc] at hlen ⊢
  simp only [Option.map_some', Option.getD_some] at hlen ⊢
  unfold ComponentList.grow
  rw [memset_realloc_grow _ _ _ _ hlen]

theorem ecs_grow_table_out (s : ECS) {c : Nat} (hc : ¬ c < s.lists.length) :
    (ecs_grow s).lists.getD c default = default := by
  simp only [ecs_grow, List.getD_eq_getElem?_getD, List.getElem?_map]
  rw [List.getElem?_eq_none (by omega)]
  rfl

theorem table_out (s : ECS) {c : Nat} (hc : ¬ c < s.lists.length) :
    s.lists.getD c default = default := by
  rw [List.getD_eq_getElem?_getD, List.getElem?_eq_none (by omega)]
  rfl

theorem table_size_ecs_grow {s : ECS} (h : WF s) (c : Nat) :
    table_size (ecs_grow s) c = table_size s c := by
  unfold table_size
  by_cases hc : c < s.lists.length
  · rw [ecs_grow_table h hc]
  · rw [ecs_grow_table_out s hc, table_out s hc]

theorem table_len_ecs_grow {s : ECS} (h : WF s) {c : Nat} (hc : c < s.lists.length) :
    table_len (ecs_grow s) c = s.capacity * 2 := by
  have hlen := h.table_len c hc
  unfold table_len at hlen ⊢
  rw [ecs_grow_table h hc]
  show ((s.lists.getD c default).components ++ _).length = _
  rw [List.length_append, hlen, List.length_replicate]
  omega

/-- Elements of a table after growth: the old ones are kept, the new ones are zero. -/
theorem slot_at_ecs_grow {s : ECS} (h : WF s) (p : ComponentPtr) :
    slot_at (ecs_grow s) p =
      if p.list < s.lists.length ∧ s.capacity ≤ p.index ∧ p.index < s.capacity * 2 then
        Slot.zero (table_size s p.list)
      else slot_at s p := by
  unfold slot_at
  by_cases hc : p.list < s.lists.length
  · have hlen := h.table_len p.list hc
    unfold table_len at hlen
    rw [ecs_grow_table h hc]
    show ((s.lists.getD p.list default).components ++ _).getD p.index default = _
    generalize (s.lists.getD p.list default).components = T at hlen
    simp only [List.getD_eq_getElem?_getD, List.getElem?_append, hlen,
      List.getElem?_replicate]
    by_cases h1 : p.index < s.capacity
    · have : ¬ (s.capacity ≤ p.index) := by omega
      simp [h1, this]
    · by_cases h2 : p.index < s.capacity * 2
      · have h3 : p.index - s.capacity < s.capacity := by omega
        have h4 : s.capacity ≤ p.index := by omega
        simp [h1, h2, h3, h4, hc]
      · have h3 : ¬ p.index - s.capacity < s.capacity := by omega
        have h5 : T[p.index]? = none := List.getElem?_eq_none (by omega)
        simp [h1, h2, h3, h5]
  · rw [ecs_grow_table_out s hc, table_out s hc]
    simp [hc]

theorem bitmap_get_append_zero (b : Bitmap) (n i : Nat) :
    bitmap_get (b ++ List.replicate n 0) i = bitmap_get b i := by
  unfold bitmap_get
  simp only [List.getD_eq_getElem?_getD, List.getElem?_append, List.getElem?_replicate]
  by_cases h : i / 8 < b.length
  · simp [h]
  · rw [List.getElem?_eq_none (by omega)]
    simp only [h, if_false]
    split <;> simp

theorem bitmap_get_ecs_grow {s : ECS} (h : WF s) (i : Nat) :
    bitmap_get (ecs_grow s).used i = bitmap_get s.used i := by
  rw [ecs_grow_used h, bitmap_get_append_zero]

theorem ids_getD_ecs_grow {s : ECS} (h : WF s) (i : Nat) :
    (ecs_grow s).ids.getD i 0 = s.ids.getD i 0 := by
  rw [ecs_grow_ids h]
  simp only [List.getD_eq_getElem?_getD, List.getElem?_append, List.getElem?_replicate]
  by_cases hi : i < s.ids.length
  · simp [hi]
  · rw [List.getElem?_eq_none (by omega)]
    simp only [hi, if_false]
    split <;> simp

theorem bitmap_get_out {b : Bitmap} {i : Nat} (h : 8 * b.length ≤ i) :
    bitmap_get b i = false := by
  unfold bitmap_get
  rw [List.getD_eq_getElem?_getD, List.getElem?_eq_none (by omega)]
  simp

theorem Bitmap.Bytes.bytes_append_zero {b : Bitmap} (h : Bitmap.Bytes b) (n : Nat) :
    Bitmap.Bytes (b ++ List.replicate n 0) := by
  intro x hx
  rcases List.mem_append.1 hx with hx | hx
  · exact h x hx
  · rw [(List.mem_replicate.1 hx).2]; decide

theorem ecs_grow_wf {s : ECS} (h : WF s) : WF (ecs_grow s) where
  capacity_pos := by rw [ecs_grow_capacity]; have := h.capacity_pos; omega
  capacity_words := by rw [ecs_grow_capacity]; exact Dvd.dvd.mul_right h.capacity_words 2
  used_bytes := by rw [ecs_grow_used h]; exact h.used_bytes.bytes_append_zero _
  used_length := by
    rw [ecs_grow_used h, ecs_grow_capacity]
    have := h.used_length
    simp
    omega
  ids_length := by
    rw [ecs_grow_ids h, ecs_grow_capacity]
    have := h.ids_length
    simp
    omega
  table_len := fun c hc => by
    rw [ecs_grow_lists_length] at hc
    rw [table_len_ecs_grow h hc, ecs_grow_capacity]
  payload_length := fun c i hc hi => by
    rw [ecs_grow_lists_length] at hc
    rw [ecs_grow_capacity] at hi
    unfold payload_at
    rw [slot_at_ecs_grow h, table_size_ecs_grow h]
    by_cases h1 : s.capacity ≤ i
    · simp [hc, h1, hi, Slot.zero]
    · have := h.payload_length c i hc (by omega)
      unfold payload_at at this
      simp [h1, this]
  free_untagged := fun c i hbit => by
    rw [bitmap_get_ecs_grow h] at hbit
    have := h.free_untagged c i hbit
    unfold tag_used ECS_TAG at this ⊢
    rw [slot_at_ecs_grow h]
    split
    · simp [Slot.zero]
    · exact this


/-! ## Entity creation -/

/-- The slot `ecs_new` settles on: the engine is the old one or the grown one, the slot is
free and below the capacity, and every lower slot is occupied. -/
theorem ecs_new_slot_spec {s : ECS} (h : WF s) :
    WF (ecs_new_slot s).1 ∧
    (ecs_new_slot s).2 < (ecs_new_slot s).1.capacity ∧
    bitmap_get s.used (ecs_new_slot s).2 = false ∧
    (∀ j < (ecs_new_slot s).2, bitmap_get s.used j = true) ∧
    (∀ i, bitmap_get (ecs_new_slot s).1.used i = bitmap_get s.used i) ∧
    (∀ i, (ecs_new_slot s).1.ids.getD i 0 = s.ids.getD i 0) ∧
    (ecs_new_slot s).1.next_entity_id = s.next_entity_id ∧
    (ecs_new_slot s).1.lists.length = s.lists.length := by
  by_cases hfree : ∃ i < s.capacity, bitmap_get s.used i = false
  · obtain ⟨h1, h2, h3, h4⟩ := ecs_new_slot_free h.used_bytes h.capacity_words hfree
    rw [h1]
    exact ⟨h, h2, h3, h4, fun _ => rfl, fun _ => rfl, rfl, rfl⟩
  · have hfull : ∀ i < s.capacity, bitmap_get s.used i = true := by
      intro i hi
      by_contra hne
      exact hfree ⟨i, hi, by simpa using hne⟩
    rw [ecs_new_slot_full h.used_bytes h.capacity_words hfull]
    refine ⟨ecs_grow_wf h, ?_, ?_, hfull, bitmap_get_ecs_grow h, ids_getD_ecs_grow h,
      rfl, ecs_grow_lists_length s⟩
    · show s.capacity < s.capacity * 2
      have := h.capacity_pos
      omega
    · exact bitmap_get_out (by have := h.used_length; omega)

theorem ecs_new_capacity (s : ECS) : (ecs_new s).1.capacity = (ecs_new_slot s).1.capacity :=
  rfl

theorem ecs_new_lists (s : ECS) : (ecs_new s).1.lists = (ecs_new_slot s).1.lists := rfl

theorem ecs_new_index (s : ECS) : (ecs_new s).2.index = (ecs_new_slot s).2 := rfl

theorem ecs_new_next {s : ECS} (h : WF s) :
    (ecs_new s).1.next_entity_id = (s.next_entity_id + 1) % U64_MOD := by
  show ((ecs_new_slot s).1.next_entity_id + 1) % U64_MOD = _
  rw [(ecs_new_slot_spec h).2.2.2.2.2.2.1]

theorem ecs_new_id {s : ECS} (h : WF s) : (ecs_new s).2.id = s.next_entity_id :=
  (ecs_new_slot_spec h).2.2.2.2.2.2.1

theorem bitmap_get_ecs_new {s : ECS} (h : WF s) (j : Nat) :
    bitmap_get (ecs_new s).1.used j =
      if j = (ecs_new s).2.index then true else bitmap_get s.used j := by
  obtain ⟨h1, h2, -, -, h5, -⟩ := ecs_new_slot_spec h
  show bitmap_get (bitmap_set (ecs_new_slot s).1.used (ecs_new_slot s).2) j = _
  rw [bitmap_get_set (by have := h1.used_length; omega), h5, ecs_new_index]

theorem ids_getD_ecs_new {s : ECS} (h : WF s) (j : Nat) :
    (ecs_new s).1.ids.getD j 0 =
      if j = (ecs_new s).2.index then s.next_entity_id else s.ids.getD j 0 := by
  obtain ⟨h1, h2, -, -, -, h6, h7, -⟩ := ecs_new_slot_spec h
  show ((ecs_new_slot s).1.ids.set (ecs_new_slot s).2 (ecs_new_slot s).1.next_entity_id).getD
    j 0 = _
  rw [ecs_new_index, List.getD_eq_getElem?_getD, List.getElem?_set, h7]
  have hlen : (ecs_new_slot s).2 < (ecs_new_slot s).1.ids.length := by
    rw [h1.ids_length]; exact h2
  by_cases hj : j = (ecs_new_slot s).2
  · simp [hj, hlen]
  · have hj2 : ¬ (ecs_new_slot s).2 = j := fun e => hj e.symm
    simp only [hj, hj2, if_false]
    rw [← List.getD_eq_getElem?_getD, h6]

theorem slot_at_ecs_new (s : ECS) (p : ComponentPtr) :
    slot_at (ecs_new s).1 p = slot_at (ecs_new_slot s).1 p := rfl

theorem ecs_new_wf {s : ECS} (h : WF s) : WF (ecs_new s).1 := by
  obtain ⟨h1, h2, h3, h4, h5, h6, h7, h8⟩ := ecs_new_slot_spec h
  exact
  { capacity_pos := h1.capacity_pos
    capacity_words := h1.capacity_words
    used_bytes := h1.used_bytes.bytes_set _
    used_length := by
      show 8 * (bitmap_set _ _).length = _
      rw [bitmap_set_length]; exact h1.used_length
    ids_length := by
      show (List.set _ _ _).length = _
      rw [List.length_set]; exact h1.ids_length
    table_len := h1.table_len
    payload_length := h1.payload_length
    free_untagged := fun c i hbit => by
      rw [bitmap_get_ecs_new h] at hbit
      by_cases hi : i = (ecs_new s).2.index
      · simp [hi] at hbit
      · simp only [hi, if_false] at hbit
        exact h1.free_untagged c i (by rw [h5]; exact hbit) }


/-! ## Deletion, attach and detach keep the shape of the engine -/

theorem Shape.shape_refl (s : ECS) : Shape s s :=
  ⟨rfl, rfl, rfl, rfl, rfl, fun _ => rfl, fun _ => rfl, fun _ => rfl⟩

theorem Shape.shape_trans {s t u : ECS} (h1 : Shape s t) (h2 : Shape t u) : Shape s u :=
  ⟨h2.capacity.trans h1.capacity, h2.ids.trans h1.ids, h2.used.trans h1.used,
    h2.next_entity_id.trans h1.next_entity_id, h2.lists_length.trans h1.lists_length,
    fun c => (h2.table_size c).trans (h1.table_size c),
    fun c => (h2.table_len c).trans (h1.table_len c),
    fun p => (h2.payload_length p).trans (h1.payload_length p)⟩

theorem Frame.to_shape {s t : ECS} (h : Frame s t) : Shape s t :=
  ⟨h.capacity, h.ids, h.used, h.next_entity_id, h.lists_length, h.table_size, h.table_len,
    h.payload_length⟩

theorem Shape.shape_wf {s t : ECS} (h : Shape s t) (hs : WF s)
    (htag : ∀ c i, bitmap_get s.used i = false → tag_used t ⟨c, i⟩ = false) : WF t where
  capacity_pos := h.capacity ▸ hs.capacity_pos
  capacity_words := h.capacity ▸ hs.capacity_words
  used_bytes := h.used ▸ hs.used_bytes
  used_length := by rw [h.used, h.capacity]; exact hs.used_length
  ids_length := by rw [h.ids, h.capacity]; exact hs.ids_length
  table_len := fun c hc => by
    rw [h.table_len, h.capacity]; exact hs.table_len c (h.lists_length ▸ hc)
  payload_length := fun c i hc hi => by
    rw [h.payload_length, h.table_size]
    exact hs.payload_length c i (h.lists_length ▸ hc) (h.capacity ▸ hi)
  free_untagged := fun c i hbit => htag c i (h.used ▸ hbit)

theorem tag_clear_used_shape (s : ECS) (p : ComponentPtr) : Shape s (tag_clear_used s p) :=
  ⟨rfl, rfl, rfl, rfl, slot_update_lists_length _ _ _, table_size_slot_update _ _ _,
    table_len_slot_update _ _ _, fun q => by rw [payload_at_tag_clear_used]⟩

theorem tag_set_used_shape (s : ECS) (p : ComponentPtr) : Shape s (tag_set_used s p) :=
  ⟨rfl, rfl, rfl, rfl, slot_update_lists_length _ _ _, table_size_slot_update _ _ _,
    table_len_slot_update _ _ _, fun q => by rw [payload_at_tag_set_used]⟩

theorem tag_cleared_idem (t : Nat) : tag_cleared (tag_cleared t) = tag_cleared t := by
  show tag_cleared t ^^^ (tag_cleared t &&& ECS_TAG_USED) = tag_cleared t
  have : tag_cleared t &&& ECS_TAG_USED = 0 := tag_clear_idem t
  rw [this]
  simp

/-- The loop of `ecs_delete` over the component types `js`: with callbacks that respect
the frame, it clears the tags of the entity's slot in the tables `js` and keeps the
shape of the engine. -/
theorem ecs_delete_loop_spec {sys : Systems} (hsys : sys.Safe) (e : Entity) :
    ∀ (js : List Nat) (r : ECS × List Call),
      Shape r.1 (ecs_delete_loop sys e js r).1 ∧
      ∀ p, ECS_TAG (ecs_delete_loop sys e js r).1 p =
        if p.index = e.index ∧ p.list ∈ js then tag_cleared (ECS_TAG r.1 p)
        else ECS_TAG r.1 p := by
  intro js
  induction js with
  | nil => intro r; exact ⟨Shape.shape_refl _, fun p => by simp [ecs_delete_loop]⟩
  | cons j js ih =>
    intro r
    simp only [ecs_delete_loop]
    have hf := invoke_frame hsys (c := j) (f := (sys j).destroy) (Or.inr rfl)
      (ECSCL_GET j e.index) e (tag_clear_used r.1 (ECSCL_GET j e.index), r.2)
    obtain ⟨ih1, ih2⟩ := ih (invoke (sys j).destroy (ECSCL_GET j e.index) e
      (tag_clear_used r.1 (ECSCL_GET j e.index), r.2))
    refine ⟨((tag_clear_used_shape _ _).shape_trans hf.to_shape).shape_trans ih1, fun p => ?_⟩
    rw [ih2, hf.tag, ECS_TAG_tag_clear_used]
    by_cases hp : ECSCL_GET j e.index = p
    · have h1 : p.index = e.index := by rw [← hp]; rfl
      have h2 : p.list = j := by rw [← hp]; rfl
      simp only [hp, if_true, h1, true_and, List.mem_cons, h2, true_or]
      show (if j ∈ js then tag_cleared (tag_cleared _) else tag_cleared _) = _
      rw [tag_cleared_idem]
      simp
    · have h3 : ¬ (p.index = e.index ∧ p.list = j) := by
        rintro ⟨h1, h2⟩
        apply hp
        cases p
        simp only [ECSCL_GET] at *
        simp [h1, h2]
      simp only [hp, if_false, List.mem_cons]
      by_cases h4 : p.index = e.index ∧ p.list ∈ js
      · have : p.index = e.index ∧ (p.list = j ∨ p.list ∈ js) := ⟨h4.1, Or.inr h4.2⟩
        simp [h4, this]
      · have : ¬ (p.index = e.index ∧ (p.list = j ∨ p.list ∈ js)) := by
          rintro ⟨h1, h2 | h2⟩
          · exact h3 ⟨h1, h2⟩
          · exact h4 ⟨h1, h2⟩
        simp [h4, this]

theorem tag_used_of_cleared (s : ECS) (p : ComponentPtr) (t : Nat)
    (h : ECS_TAG s p = tag_cleared t) : tag_used s p = false := by
  unfold tag_used
  rw [h]
  simp [tag_cleared, tag_clear_idem]

theorem tag_used_cleared_of (t : Nat) :
    (tag_cleared t &&& ECS_TAG_USED != 0) = false := by
  simp [tag_cleared, tag_clear_idem]

theorem tag_used_out (s : ECS) {p : ComponentPtr} (h : ¬ p.list < s.lists.length) :
    tag_used s p = false := by
  unfold tag_used ECS_TAG slot_at
  rw [table_out s h]
  show ((([] : List Slot).getD p.index default).tag &&& ECS_TAG_USED != 0) = false
  simp
  rfl

/-- Facts about the engine after `ecs_delete`. -/
theorem ecs_delete_spec {sys : Systems} (hsys : sys.Safe) {s : ECS} (h : WF s) {e : Entity}
    {r : ECS × List Call} (hr : ecs_delete sys s e = some r) :
    bitmap_get s.used e.index = true ∧ e.index < s.capacity ∧
    r.1.capacity = s.capacity ∧ r.1.next_entity_id = s.next_entity_id ∧
    r.1.lists.length = s.lists.length ∧
    (∀ j, bitmap_get r.1.used j = if j = e.index then false else bitmap_get s.used j) ∧
    (∀ j, r.1.ids.getD j 0 = if j = e.index then ENTITY_NONE else s.ids.getD j 0) ∧
    (∀ c, tag_used r.1 ⟨c, e.index⟩ = false) ∧
    WF r.1 := by
  unfold ecs_delete at hr
  by_cases hbit : bitmap_get s.used e.index = true
  · simp only [hbit, if_true, Option.some.injEq] at hr
    obtain ⟨hshape, htag⟩ :=
      ecs_delete_loop_spec hsys e (List.range s.lists.length) (s, [])
    generalize ecs_delete_loop sys e (List.range s.lists.length) (s, []) = t at hr hshape htag
    change Shape s t.1 at hshape
    change ∀ p, ECS_TAG t.1 p = if p.index = e.index ∧ p.list ∈ List.range s.lists.length
      then tag_cleared (ECS_TAG s p) else ECS_TAG s p at htag
    have hidx : e.index < s.capacity := by
      by_contra hge
      rw [bitmap_get_out (by have := h.used_length; omega)] at hbit
      exact Bool.noConfusion hbit
    have hbits : ∀ j, bitmap_get r.1.used j =
        if j = e.index then false else bitmap_get s.used j := by
      intro j
      rw [← hr]
      show bitmap_get (bitmap_clr t.1.used e.index) j = _
      rw [hshape.used, bitmap_get_clr (by have := h.used_length; omega)]
    have htags : ∀ c, tag_used r.1 ⟨c, e.index⟩ = false := by
      intro c
      rw [← hr]
      show tag_used t.1 ⟨c, e.index⟩ = false
      by_cases hc : c < s.lists.length
      · exact tag_used_of_cleared _ _ (ECS_TAG s ⟨c, e.index⟩) (by rw [htag]; simp [hc])
      · exact tag_used_out _ (by rw [hshape.lists_length]; exact hc)
    refine ⟨hbit, hidx, ?_, ?_, ?_, hbits, ?_, htags, ?_⟩
    · rw [← hr]; exact hshape.capacity
    · rw [← hr]; exact hshape.next_entity_id
    · rw [← hr]; exact hshape.lists_length
    · intro j
      rw [← hr]
      show (t.1.ids.set e.index ENTITY_NONE).getD j 0 = _
      rw [hshape.ids, List.getD_eq_getElem?_getD, List.getElem?_set]
      have hlen : e.index < s.ids.length := by rw [h.ids_length]; exact hidx
      by_cases hj : j = e.index
      · simp [hj, hlen]
      · have hj2 : ¬ e.index = j := fun x => hj x.symm
        simp only [hj, hj2, if_false]
        rw [← List.getD_eq_getElem?_getD]
    · have hwf : WF { t.1 with used := s.used, ids := s.ids } := by
        refine Shape.shape_wf ⟨hshape.capacity, rfl, rfl, hshape.next_entity_id,
          hshape.lists_length, hshape.table_size, hshape.table_len,
          hshape.payload_length⟩ h ?_
        intro c i hfree
        show tag_used t.1 ⟨c, i⟩ = false
        have := h.free_untagged c i hfree
        unfold tag_used at this ⊢
        rw [htag]
        split
        · exact tag_used_cleared_of _
        · exact this
      rw [← hr]
      exact
      { capacity_pos := hwf.capacity_pos
        capacity_words := hwf.capacity_words
        used_bytes := by
          show Bitmap.Bytes (bitmap_clr t.1.used e.index)
          rw [hshape.used]; exact h.used_bytes.bytes_clr _
        used_length := by
          show 8 * (bitmap_clr t.1.used e.index).length = t.1.capacity
          rw [bitmap_clr_length, hshape.used, hshape.capacity]; exact h.used_length
        ids_length := by
          show (t.1.ids.set e.index ENTITY_NONE).length = t.1.capacity
          rw [List.length_set, hshape.ids, hshape.capacity]; exact h.ids_length
        table_len := hwf.table_len
        payload_length := hwf.payload_length
        free_untagged := fun c i hfree => by
          by_cases hi : i = e.index
          · rw [hi, hr]; exact htags c
          · have hb := hbits i
            rw [← hr] at hb
            simp only [hi, if_false] at hb
            exact hwf.free_untagged c i (by rw [← hb]; exact hfree) }
  · simp [hbit] at hr


/-! ## Attach and detach -/

theorem table_len_out (s : ECS) {c : Nat} (hc : ¬ c < s.lists.length) : table_len s c = 0 := by
  unfold table_len
  rw [table_out s hc]
  rfl

theorem memcpy_length (dst src : List Nat) (n : Nat) (h : n ≤ dst.length) :
    (memcpy dst src n).length = dst.length := by
  unfold memcpy
  simp only [List.length_append, List.length_take, List.length_drop]
  omega

/-- The copy of the initial value in `_ecs_add_internal` keeps the shape and the tags. -/
theorem payload_store_frame {s : ECS} (p : ComponentPtr) (v : List Nat) (n : Nat)
    (hn : p.index < table_len s p.list → n ≤ (payload_at s p).length) :
    Frame s (slot_update s p (fun x => { x with payload := memcpy x.payload v n })) := by
  refine ⟨rfl, rfl, rfl, rfl, slot_update_lists_length _ _ _, table_size_slot_update _ _ _,
    table_len_slot_update _ _ _, fun q => ?_, fun q => ?_⟩
  · unfold ECS_TAG
    rw [slot_at_slot_update]
    split <;> rfl
  · unfold payload_at
    rw [slot_at_slot_update]
    split
    · rename_i h
      have hpq : p = q := h.1
      subst hpq
      exact memcpy_length _ _ _ (hn h.2)
    · rfl

/-- Facts about the engine after `_ecs_add_internal`. -/
theorem ecs_add_internal_spec {sys : Systems} (hsys : sys.Safe) {s : ECS} (h : WF s)
    {e : Entity} {c : Nat} {v : Option (List Nat)} {r : ECS × List Call}
    (hr : _ecs_add_internal sys s e c v = some r) :
    tag_used s ⟨c, e.index⟩ = false ∧ Shape s r.1 ∧
    ∀ q, ECS_TAG r.1 q =
      if (⟨c, e.index⟩ : ComponentPtr) = q ∧ q.index < table_len s q.list then
        ECS_TAG s q ||| ECS_TAG_USED
      else ECS_TAG s q := by
  unfold _ecs_add_internal at hr
  simp only [ECSCL_GET] at hr
  by_cases ht : tag_used s ⟨c, e.index⟩ = true
  · simp [ht] at hr
  · have ht : tag_used s ⟨c, e.index⟩ = false := by simpa using ht
    simp only [ht, Bool.not_false, if_true, Option.some.injEq] at hr
    have h1 := tag_set_used_shape s ⟨c, e.index⟩
    have h2 : Frame (tag_set_used s ⟨c, e.index⟩)
        (copy_value (tag_set_used s ⟨c, e.index⟩) ⟨c, e.index⟩ v) := by
      cases v with
      | none => exact Frame.frame_refl _
      | some v =>
        apply payload_store_frame
        intro hin
        rw [h1.table_len] at hin
        have hc : c < s.lists.length := by
          by_contra hc
          rw [show (⟨c, e.index⟩ : ComponentPtr).list = c from rfl, table_len_out s hc] at hin
          omega
        have hi : e.index < s.capacity := by
          rw [← h.table_len c hc]; exact hin
        rw [h1.payload_length, h.payload_length c e.index hc hi]
        exact le_of_eq (h1.table_size c)
    generalize copy_value (tag_set_used s ⟨c, e.index⟩) ⟨c, e.index⟩ v = s2 at hr h2
    have h3 := invoke_frame hsys (c := c) (f := (sys c).init) (Or.inl rfl) ⟨c, e.index⟩ e
      (s2, [])
    rw [hr] at h3
    change Frame s2 r.1 at h3
    refine ⟨ht, (h1.shape_trans h2.to_shape).shape_trans h3.to_shape, fun q => ?_⟩
    rw [h3.tag, h2.tag, ECS_TAG_tag_set_used]

/-- Facts about the engine after `ecs_remove`. -/
theorem ecs_remove_spec {sys : Systems} (hsys : sys.Safe) {s : ECS}
    {e : Entity} {c : Nat} {r : ECS × List Call}
    (hr : ecs_remove sys s e c = some r) :
    tag_used s ⟨c, e.index⟩ = true ∧ Shape s r.1 ∧
    ∀ q, ECS_TAG r.1 q =
      if (⟨c, e.index⟩ : ComponentPtr) = q then tag_cleared (ECS_TAG s q) else ECS_TAG s q := by
  unfold ecs_remove at hr
  simp only [ECSCL_GET] at hr
  by_cases ht : tag_used s ⟨c, e.index⟩ = true
  · simp only [ht, if_true, Option.some.injEq] at hr
    have h3 := invoke_frame hsys (c := c) (f := (sys c).destroy) (Or.inr rfl) ⟨c, e.index⟩ e
      (tag_clear_used s ⟨c, e.index⟩, [])
    rw [hr] at h3
    change Frame (tag_clear_used s ⟨c, e.index⟩) r.1 at h3
    refine ⟨ht, (tag_clear_used_shape _ _).shape_trans h3.to_shape, fun q => ?_⟩
    rw [h3.tag, ECS_TAG_tag_clear_used]
    rfl
  · simp [ht] at hr

theorem ecs_add_internal_wf {sys : Systems} (hsys : sys.Safe) {s : ECS} (h : WF s)
    {e : Entity} {c : Nat} {v : Option (List Nat)} {r : ECS × List Call}
    (hlive : bitmap_get s.used e.index = true)
    (hr : _ecs_add_internal sys s e c v = some r) : WF r.1 := by
  obtain ⟨-, hshape, htag⟩ := ecs_add_internal_spec hsys h hr
  refine hshape.shape_wf h (fun c' i hfree => ?_)
  have hne : ¬ ((⟨c, e.index⟩ : ComponentPtr) = ⟨c', i⟩ ∧
      (⟨c', i⟩ : ComponentPtr).index < table_len s (⟨c', i⟩ : ComponentPtr).list) := by
    rintro ⟨heq, -⟩
    have : e.index = i := by injection heq
    rw [this, hfree] at hlive
    exact Bool.noConfusion hlive
  have := h.free_untagged c' i hfree
  unfold tag_used at this ⊢
  rw [htag, if_neg hne]
  exact this

theorem ecs_remove_wf {sys : Systems} (hsys : sys.Safe) {s : ECS} (h : WF s)
    {e : Entity} {c : Nat} {r : ECS × List Call}
    (hr : ecs_remove sys s e c = some r) : WF r.1 := by
  obtain ⟨-, hshape, htag⟩ := ecs_remove_spec hsys hr
  refine hshape.shape_wf h (fun c' i hfree => ?_)
  have := h.free_untagged c' i hfree
  unfold tag_used at this ⊢
  rw [htag]
  split
  · exact tag_used_cleared_of _
  · exact this

/-! ## Event dispatch keeps the frame -/

/-- The inner loop of `ecs_event` with a subscriber that respects the frame: it ends
within `capacity - j` iterations and the resulting engine is in the frame. -/
theorem ecs_event_slots_frame {f : ECSSubscriber} (hf : SafeCallback f) (i : Nat) :
    ∀ (fuel j : Nat) (r : ECS × List Call), r.1.capacity ≤ j + fuel →
      ∃ r1, ecs_event_slots f i fuel j r = some r1 ∧ Frame r.1 r1.1 := by
  intro fuel
  induction fuel with
  | zero =>
    intro j r hfuel
    refine ⟨r, ?_, Frame.frame_refl _⟩
    simp only [ecs_event_slots]
    rw [if_neg (by omega)]
  | succ fuel ih =>
    intro j r hfuel
    simp only [ecs_event_slots]
    by_cases hj : j < r.1.capacity
    · rw [if_pos hj]
      by_cases ht : tag_used r.1 (ECSCL_GET i j) = true
      · rw [if_pos ht]
        have hfr : Frame r.1 (invoke (some f) (ECSCL_GET i j)
            ⟨r.1.ids.getD j ENTITY_NONE, j⟩ r).1 := hf _ _ _
        obtain ⟨r1, h1, h2⟩ := ih (j + 1)
          (invoke (some f) (ECSCL_GET i j) ⟨r.1.ids.getD j ENTITY_NONE, j⟩ r)
          (by rw [hfr.capacity]; omega)
        exact ⟨r1, h1, hfr.frame_trans h2⟩
      · rw [if_neg ht]
        exact ih (j + 1) r (by omega)
    · rw [if_neg hj]
      exact ⟨r, rfl, Frame.frame_refl _⟩

/-- A terminating inner loop of `ecs_event` leaves the engine in the frame. -/
theorem ecs_event_slots_frame_of_some {f : ECSSubscriber} (hf : SafeCallback f) (i : Nat) :
    ∀ (fuel j : Nat) (r r1 : ECS × List Call),
      ecs_event_slots f i fuel j r = some r1 → Frame r.1 r1.1 := by
  intro fuel
  induction fuel with
  | zero =>
    intro j r r1 h
    simp only [ecs_event_slots] at h
    split at h
    · exact Option.noConfusion h
    · rw [← Option.some.inj h]
      exact Frame.frame_refl _
  | succ fuel ih =>
    intro j r r1 h
    simp only [ecs_event_slots] at h
    split at h
    · split at h
      · have hfr : Frame r.1 (invoke (some f) (ECSCL_GET i j)
            ⟨r.1.ids.getD j ENTITY_NONE, j⟩ r).1 := hf _ _ _
        exact hfr.frame_trans (ih _ _ _ h)
      · exact ih _ _ _ h
    · rw [← Option.some.inj h]
      exact Frame.frame_refl _

/-- A terminating `ecs_event` whose subscribers respect the frame leaves the engine in
the frame. -/
theorem ecs_event_lists_frame {sys : Systems} (hsys : sys.Safe) (event fuel : Nat) :
    ∀ (js : List Nat) (r r1 : ECS × List Call),
      ecs_event_lists sys event fuel js r = some r1 → Frame r.1 r1.1 := by
  intro js
  induction js with
  | nil =>
    intro r r1 h
    simp only [ecs_event_lists] at h
    rw [← Option.some.inj h]
    exact Frame.frame_refl _
  | cons i js ih =>
    intro r r1 h
    simp only [ecs_event_lists] at h
    cases hsub : (sys i).subscribers event with
    | none =>
      rw [hsub] at h
      exact ih r r1 h
    | some f =>
      rw [hsub] at h
      simp only at h
      cases hslots : ecs_event_slots f i fuel 0 r with
      | none =>
        rw [hslots] at h
        exact Option.noConfusion h
      | some r2 =>
        rw [hslots] at h
        simp only at h
        have hf : SafeCallback f := hsys i f (Or.inr (Or.inr ⟨event, hsub⟩))
        exact (ecs_event_slots_frame_of_some hf i fuel 0 r r2 hslots).frame_trans (ih r2 r1 h)

theorem ecs_event_frame {sys : Systems} (hsys : sys.Safe) {fuel : Nat} {s : ECS}
    {event : Nat} {r : ECS × List Call} (h : ecs_event fuel sys s event = some r) :
    Frame s r.1 :=
  ecs_event_lists_frame hsys event fuel _ (s, []) r h

/-! ## Initial state and reachable states -/

theorem ecs_init_table (sizes : List Nat) {c : Nat} (hc : c < sizes.length) :
    (ecs_init sizes).lists.getD c default = _ecs_register_internal (sizes.getD c 0) 64 := by
  simp only [ecs_init, _ecs_init_internal, List.getD_eq_getElem?_getD, List.getElem?_map,
    List.getElem?_eq_getElem hc, Option.map_some', Option.getD_some]

theorem ecs_init_lists_length (sizes : List Nat) :
    (ecs_init sizes).lists.length = sizes.length := by
  simp [ecs_init, _ecs_init_internal]

theorem slot_at_ecs_init (sizes : List Nat) {p : ComponentPtr} (hc : p.list < sizes.length)
    (hi : p.index < 64) : slot_at (ecs_init sizes) p = Slot.zero (sizes.getD p.list 0) := by
  unfold slot_at
  rw [ecs_init_table sizes hc]
  simp only [_ecs_register_internal, List.getD_eq_getElem?_getD, List.getElem?_replicate, hi,
    if_true, Option.getD_some]

theorem tag_used_ecs_init (sizes : List Nat) (p : ComponentPtr) :
    tag_used (ecs_init sizes) p = false := by
  by_cases hc : p.list < sizes.length
  · unfold tag_used ECS_TAG slot_at
    rw [ecs_init_table sizes hc]
    simp only [_ecs_register_internal, List.getD_eq_getElem?_getD, List.getElem?_replicate]
    split
    · simp [Slot.zero]
    · simp; rfl
  · exact tag_used_out _ (by rw [ecs_init_lists_length]; exact hc)

theorem ecs_init_wf (sizes : List Nat) : WF (ecs_init sizes) where
  capacity_pos := by show 0 < 64; decide
  capacity_words := ⟨1, rfl⟩
  used_bytes := by
    intro x hx
    have : x = 0 := by
      simp only [ecs_init, bitmap_calloc] at hx
      exact (List.mem_replicate.1 hx).2
    omega
  used_length := by simp [ecs_init, bitmap_calloc, BITMAP_SIZE_TO_BYTES]
  ids_length := by simp [ecs_init]
  table_len := fun c hc => by
    rw [ecs_init_lists_length] at hc
    unfold table_len
    rw [ecs_init_table sizes hc]
    simp [_ecs_register_internal, ecs_init]
  payload_length := fun c i hc hi => by
    rw [ecs_init_lists_length] at hc
    unfold payload_at table_size
    rw [slot_at_ecs_init sizes hc hi, ecs_init_table sizes hc]
    simp [Slot.zero, _ecs_register_internal]
  free_untagged := fun c i _ => tag_used_ecs_init sizes _

/-- Every reachable engine state is well formed. -/
theorem Trace.trace_wf {sys : Systems} (hsys : sys.Safe) {sizes : List Nat} {s : ECS}
    {hs : List Entity} (h : Trace sys sizes s hs) : WF s := by
  induction h with
  | init => exact ecs_init_wf sizes
  | new _ ih => exact ecs_new_wf ih
  | delete _ hr ih => exact (ecs_delete_spec hsys ih hr).2.2.2.2.2.2.2.2
  | add _ hlive hr ih => exact ecs_add_internal_wf hsys ih hlive hr
  | remove _ _ hr ih => exact ecs_remove_wf hsys ih hr
  | event _ hr ih => exact (ecs_event_frame hsys hr).frame_wf ih


theorem no_systems_safe : no_systems.Safe := by
  intro c f h
  simp [no_systems, ECSSystem.none] at h

theorem Reachable.reach_init (sys : Systems) (sizes : List Nat) :
    Reachable sys sizes (ecs_init sizes) := ⟨[], Trace.init⟩

theorem Reachable.reach_new {sys : Systems} {sizes : List Nat} {s : ECS}
    (h : Reachable sys sizes s) : Reachable sys sizes (ecs_new s).1 :=
  h.elim fun _ ht => ⟨_, Trace.new ht⟩

theorem Reachable.reach_new_n {sys : Systems} {sizes : List Nat} {s : ECS}
    (h : Reachable sys sizes s) : ∀ k, Reachable sys sizes (ecs_new_n k s)
  | 0 => h
  | k + 1 => (Reachable.reach_new_n h k).reach_new

theorem Reachable.reach_delete {sys : Systems} {sizes : List Nat} {s : ECS} {e : Entity}
    (h : Reachable sys sizes s) (hd : (ecs_delete sys s e).isSome = true) :
    Reachable sys sizes ((ecs_delete sys s e).get hd).1 :=
  h.elim fun _ ht => ⟨_, Trace.delete ht (Option.some_get hd).symm⟩

theorem Reachable.reach_add {sys : Systems} {sizes : List Nat} {s : ECS} {e : Entity} {c : Nat}
    {v : Option (List Nat)} (h : Reachable sys sizes s)
    (hlive : bitmap_get s.used e.index = true)
    (hd : (_ecs_add_internal sys s e c v).isSome = true) :
    Reachable sys sizes ((_ecs_add_internal sys s e c v).get hd).1 :=
  h.elim fun _ ht => ⟨_, Trace.add ht hlive (Option.some_get hd).symm⟩

theorem Reachable.reach_remove {sys : Systems} {sizes : List Nat} {s : ECS} {e : Entity} {c : Nat}
    (h : Reachable sys sizes s) (hlive : bitmap_get s.used e.index = true)
    (hd : (ecs_remove sys s e c).isSome = true) :
    Reachable sys sizes ((ecs_remove sys s e c).get hd).1 :=
  h.elim fun _ ht => ⟨_, Trace.remove ht hlive (Option.some_get hd).symm⟩

theorem Reachable.reach_wf {sys : Systems} (hsys : sys.Safe) {sizes : List Nat} {s : ECS}
    (h : Reachable sys sizes s) : WF s :=
  h.elim fun _ ht => ht.trace_wf hsys

/-! ## Allocation of slots -/

/-- C1 (first-fit allocation): in a reachable engine state with a free slot below the
capacity, `ecs_new` returns a handle whose index is the lowest free slot index, sets the
occupancy bit of that slot and leaves the capacity unchanged. -/
theorem ecs_new_first_fit {sys : Systems} (hsys : sys.Safe) {sizes : List Nat} {s : ECS}
    (h : Reachable sys sizes s)
    (hfree : ∃ i < s.capacity, bitmap_get s.used i = false) :
    (ecs_new s).2.index < s.capacity ∧
    bitmap_get s.used (ecs_new s).2.index = false ∧
    (∀ j < (ecs_new s).2.index, bitmap_get s.used j = true) ∧
    bitmap_get (ecs_new s).1.used (ecs_new s).2.index = true ∧
    (ecs_new s).1.capacity = s.capacity := by
  have hwf := h.reach_wf hsys
  obtain ⟨h1, h2, h3, h4⟩ := ecs_new_slot_free hwf.used_bytes hwf.capacity_words hfree
  refine ⟨h2, h3, h4, ?_, ?_⟩
  · rw [bitmap_get_ecs_new hwf]; simp
  · rw [ecs_new_capacity, h1]

/-- Witness of C1: after three creations and the deletion of the entity in slot 1, slot 1
is the lowest free slot and `ecs_new` returns it. -/
theorem ecs_new_first_fit_witness :
    bitmap_get demo_hole.used 1 = false ∧
    ((ecs_new demo_hole).2.index < demo_hole.capacity ∧
     bitmap_get demo_hole.used (ecs_new demo_hole).2.index = false ∧
     (∀ j < (ecs_new demo_hole).2.index, bitmap_get demo_hole.used j = true) ∧
     bitmap_get (ecs_new demo_hole).1.used (ecs_new demo_hole).2.index = true ∧
     (ecs_new demo_hole).1.capacity = demo_hole.capacity) :=
  ⟨by decide,
   ecs_new_first_fit no_systems_safe
     (((Reachable.reach_init no_systems [2]).reach_new_n 3).reach_delete (e := ⟨2, 1⟩) (by decide))
     ⟨1, by decide, by decide⟩⟩

theorem bitmap_get_calloc (n i : Nat) : bitmap_get (bitmap_calloc n) i = false := by
  unfold bitmap_get bitmap_calloc
  rw [List.getD_eq_getElem?_getD, List.getElem?_replicate]
  split <;> simp

theorem u64_mod_eq : U64_MOD = 18446744073709551616 := by
  unfold U64_MOD
  norm_num

theorem ecs_new_n_succ (k : Nat) (s : ECS) :
    ecs_new_n (k + 1) s = (ecs_new (ecs_new_n k s)).1 := rfl

/-- The engine after `k ≤ 64` creations from the initial state: the capacity is still 64,
exactly the slots below `k` are occupied, and slot 0 holds identifier 1. -/
theorem ecs_new_n_init (sizes : List Nat) :
    ∀ k, k ≤ 64 →
      WF (ecs_new_n k (ecs_init sizes)) ∧
      (ecs_new_n k (ecs_init sizes)).capacity = 64 ∧
      (∀ i, bitmap_get (ecs_new_n k (ecs_init sizes)).used i = decide (i < k)) ∧
      (ecs_new_n k (ecs_init sizes)).next_entity_id = k + 1 ∧
      (0 < k → (ecs_new_n k (ecs_init sizes)).ids.getD 0 0 = 1) := by
  intro k
  induction k with
  | zero =>
    intro _
    refine ⟨ecs_init_wf sizes, rfl, fun i => ?_, rfl, fun h => absurd h (by decide)⟩
    simp only [ecs_new_n, Nat.not_lt_zero, decide_False]
    exact bitmap_get_calloc 64 i
  | succ k ih =>
    intro hk
    obtain ⟨hwf, hcap, hbits, hnext, hid⟩ := ih (by omega)
    simp only [ecs_new_n]
    generalize ecs_new_n k (ecs_init sizes) = s at hwf hcap hbits hnext hid
    have hfree : ∃ i < s.capacity, bitmap_get s.used i = false :=
      ⟨k, by omega, by rw [hbits]; simp⟩
    obtain ⟨h1, h2, h3, h4⟩ := ecs_new_slot_free hwf.used_bytes hwf.capacity_words hfree
    have hidx : (ecs_new s).2.index = k := by
      rw [ecs_new_index]
      rw [hbits] at h3
      have h3 : ¬ (ecs_new_slot s).2 < k := by simpa using h3
      by_contra hne
      have := h4 k (Nat.lt_of_le_of_ne (Nat.not_lt.1 h3) (Ne.symm hne))
      rw [hbits] at this
      simp at this
    refine ⟨ecs_new_wf hwf, by rw [ecs_new_capacity, h1, hcap], fun i => ?_, ?_, fun _ => ?_⟩
    · rw [bitmap_get_ecs_new hwf, hidx, hbits]
      by_cases hi : i = k
      · simp [hi]
      · have : (i < k + 1) = (i < k) := by
          apply propext; constructor <;> intro <;> omega
        simp [hi, this]
    · rw [ecs_new_next hwf, hnext, u64_mod_eq]
      exact Nat.mod_eq_of_lt (by omega)
    · rw [ids_getD_ecs_new hwf, hidx, hnext]
      by_cases hk0 : 0 = k
      · simp [← hk0]
      · simp only [hk0, if_false]
        exact hid (by omega)


theorem ecs_new_n_65 (s : ECS) : ecs_new_n 65 s = (ecs_new (ecs_new_n 64 s)).1 :=
  ecs_new_n_succ 64 s

/-- The engine after 64 creations from the initial state is full: the next creation
grows it to capacity 128, allocates slot 64 and leaves identifier 1 in slot 0. -/
theorem ecs_new_n_init_full (sizes : List Nat) :
    WF (ecs_new_n 64 (ecs_init sizes)) ∧
    (ecs_new_n 64 (ecs_init sizes)).capacity = 64 ∧
    (∀ i < (ecs_new_n 64 (ecs_init sizes)).capacity,
      bitmap_get (ecs_new_n 64 (ecs_init sizes)).used i = true) ∧
    (ecs_new_n 64 (ecs_init sizes)).ids.getD 0 0 = 1 := by
  obtain ⟨hwf64, hcap, hbits, -, hid⟩ := ecs_new_n_init sizes 64 (le_refl _)
  refine ⟨hwf64, hcap, fun i hi => ?_, hid (by decide)⟩
  rw [hbits]
  rw [hcap] at hi
  exact decide_eq_true hi


theorem ids_zero_of_getD {t : ECS} (hwf : WF t) {x : Nat} (h : t.ids.getD 0 0 = x) :
    t.ids[0]? = some x := by
  have hlen : 0 < t.ids.length := by
    rw [hwf.ids_length]
    exact hwf.capacity_pos
  rw [List.getD_eq_getElem?_getD, List.getElem?_eq_getElem hlen, Option.getD_some] at h
  rw [List.getElem?_eq_getElem hlen, h]

/-- The creation that grows a full engine: the capacity doubles, the slot `capacity` is
allocated and the entity-table entries of the other slots are kept. -/
theorem ecs_new_full {t : ECS} (hwf : WF t)
    (hfull : ∀ i < t.capacity, bitmap_get t.used i = true) :
    (ecs_new t).1.capacity = 2 * t.capacity ∧ (ecs_new t).2.index = t.capacity ∧
    ∀ x, t.ids[0]? = some x → (ecs_new t).1.ids[0]? = some x := by
  have hslot := ecs_new_slot_full hwf.used_bytes hwf.capacity_words hfull
  have hidx : (ecs_new t).2.index = t.capacity := by
    rw [ecs_new_index, hslot]
  refine ⟨?_, hidx, fun x hx => ?_⟩
  · rw [ecs_new_capacity, hslot]
    exact Nat.mul_comm _ _
  · have hget := ids_getD_ecs_new hwf 0
    have hpos := hwf.capacity_pos
    rw [hidx, if_neg (by omega)] at hget
    have h1 : t.ids.getD 0 0 = x := by
      rw [List.getD_eq_getElem?_getD, hx]
      rfl
    rw [h1] at hget
    exact ids_zero_of_getD (ecs_new_wf hwf) hget

/-- C2 (growth on exhaustion): in a reachable engine state whose slots below the capacity
are all occupied, `ecs_new` doubles the capacity and returns the handle whose index is the
old capacity; in a reachable state with a free slot the capacity is unchanged.  Hence,
from `ecs_init`, the capacity is 64 after each of the first 64 consecutive creations and
128 after the 65th, and slot 0 then still holds the identifier of the first entity. -/
theorem ecs_new_growth {sys : Systems} (hsys : sys.Safe) {sizes : List Nat} {s : ECS}
    (h : Reachable sys sizes s) :
    ((∀ i < s.capacity, bitmap_get s.used i = true) →
      (ecs_new s).1.capacity = 2 * s.capacity ∧ (ecs_new s).2.index = s.capacity) ∧
    ((∃ i < s.capacity, bitmap_get s.used i = false) →
      (ecs_new s).1.capacity = s.capacity) ∧
    (∀ k, 1 ≤ k → k ≤ 64 → (ecs_new_n k (ecs_init sizes)).capacity = 64) ∧
    (ecs_new_n 65 (ecs_init sizes)).capacity = 128 ∧
    (ecs_new_n 65 (ecs_init sizes)).ids[0]? = some (ecs_new (ecs_init sizes)).2.id := by
  have hwf := h.reach_wf hsys
  obtain ⟨hwf64, hcap, hfull, hid⟩ := ecs_new_n_init_full sizes
  obtain ⟨g1, -, g3⟩ := ecs_new_full hwf64 hfull
  refine ⟨fun hfull => ?_, fun hfree => ?_, fun k _ hk => (ecs_new_n_init sizes k hk).2.1, ?_, ?_⟩
  · exact ⟨(ecs_new_full hwf hfull).1, (ecs_new_full hwf hfull).2.1⟩
  · rw [ecs_new_capacity, (ecs_new_slot_free hwf.used_bytes hwf.capacity_words hfree).1]
  · rw [ecs_new_n_65, g1, hcap]
  · rw [ecs_new_n_65, ecs_new_id (ecs_init_wf sizes)]
    exact g3 1 (ids_zero_of_getD hwf64 hid)


theorem demo_full_reachable : Reachable no_systems [2] demo_full :=
  (Reachable.reach_init no_systems [2]).reach_new_n 64

theorem demo_full_wf : WF demo_full := (ecs_new_n_init_full [2]).1

theorem demo_full_is_full : ∀ i < demo_full.capacity, bitmap_get demo_full.used i = true :=
  (ecs_new_n_init_full [2]).2.2.1

/-- Witness of C2: the engine after 64 creations, whose slots are all occupied. -/
theorem ecs_new_growth_witness :
    (∀ i < demo_full.capacity, bitmap_get demo_full.used i = true) ∧
    (ecs_new demo_full).1.capacity = 2 * demo_full.capacity ∧
    (ecs_new demo_full).2.index = demo_full.capacity :=
  ⟨demo_full_is_full,
   (ecs_new_growth no_systems_safe demo_full_reachable).1 demo_full_is_full⟩


/-- In a well-formed engine `ecs_new` grows the capacity exactly when every slot is
occupied. -/
theorem ecs_new_grows_iff {s : ECS} (hwf : WF s) :
    (ecs_new s).1.capacity = 2 * s.capacity ↔ ∀ i < s.capacity, bitmap_get s.used i = true := by
  constructor
  · intro hgrow i hi
    by_contra hne
    have hfree : ∃ i < s.capacity, bitmap_get s.used i = false := ⟨i, hi, by simpa using hne⟩
    rw [ecs_new_capacity, (ecs_new_slot_free hwf.used_bytes hwf.capacity_words hfree).1]
      at hgrow
    have := hwf.capacity_pos
    omega
  · intro hfull
    rw [ecs_new_capacity, ecs_new_slot_full hwf.used_bytes hwf.capacity_words hfull]
    exact Nat.mul_comm _ _

theorem demo_full_grows : (ecs_new demo_full).1.capacity = 2 * demo_full.capacity :=
  (ecs_new_grows_iff demo_full_wf).2 demo_full_is_full

/-- C3 (growth preserves and zero-initialises): when `ecs_new` doubles the capacity of a
reachable engine from `C` to `2 * C`, every slot below `C` keeps its entity-table entry,
its occupancy bit and, in every component table, its tag and payload; every slot from `C`
to `2 * C - 1` has, in every component table, a clear tag and an all-zero payload and,
apart from the allocated slot `C`, a clear occupancy bit and the entity-table entry
`ENTITY_NONE`. -/
theorem ecs_new_growth_preserves {sys : Systems} (hsys : sys.Safe) {sizes : List Nat}
    {s : ECS} (h : Reachable sys sizes s)
    (hgrow : (ecs_new s).1.capacity = 2 * s.capacity) :
    (∀ i < s.capacity,
      (ecs_new s).1.ids[i]? = s.ids[i]? ∧
      bitmap_get (ecs_new s).1.used i = bitmap_get s.used i ∧
      ∀ c, ECS_TAG (ecs_new s).1 ⟨c, i⟩ = ECS_TAG s ⟨c, i⟩ ∧
        payload_at (ecs_new s).1 ⟨c, i⟩ = payload_at s ⟨c, i⟩) ∧
    (∀ i, s.capacity ≤ i → i < 2 * s.capacity →
      (∀ c < s.lists.length,
        ECS_TAG (ecs_new s).1 ⟨c, i⟩ = 0 ∧
        payload_at (ecs_new s).1 ⟨c, i⟩ = List.replicate (table_size s c) 0) ∧
      (i ≠ s.capacity →
        bitmap_get (ecs_new s).1.used i = false ∧
        (ecs_new s).1.ids[i]? = some ENTITY_NONE)) := by
  have hwf := h.reach_wf hsys
  have hfull := (ecs_new_grows_iff hwf).1 hgrow
  have hslot := ecs_new_slot_full hwf.used_bytes hwf.capacity_words hfull
  have hidx : (ecs_new s).2.index = s.capacity := by rw [ecs_new_index, hslot]
  have hids : (ecs_new s).1.ids =
      (s.ids ++ List.replicate s.capacity 0).set s.capacity s.next_entity_id := by
    show ((ecs_new_slot s).1.ids.set (ecs_new_slot s).2 (ecs_new_slot s).1.next_entity_id) = _
    rw [hslot]
    show (ecs_grow s).ids.set s.capacity s.next_entity_id = _
    rw [ecs_grow_ids hwf]
  have hslots : ∀ p, slot_at (ecs_new s).1 p = slot_at (ecs_grow s) p := by
    intro p
    rw [slot_at_ecs_new, hslot]
  have hlen := hwf.ids_length
  constructor
  · intro i hi
    refine ⟨?_, ?_, fun c => ?_⟩
    · rw [hids, List.getElem?_set, List.getElem?_append]
      have h1 : ¬ s.capacity = i := by omega
      simp [h1, hlen, hi]
    · rw [bitmap_get_ecs_new hwf, hidx]
      have h1 : ¬ i = s.capacity := by omega
      simp [h1]
    · unfold ECS_TAG payload_at
      rw [hslots, slot_at_ecs_grow hwf]
      have h1 : ¬ s.capacity ≤ i := by omega
      simp [h1]
  · intro i hlo hhi
    refine ⟨fun c hc => ?_, fun hne => ⟨?_, ?_⟩⟩
    · unfold ECS_TAG payload_at
      rw [hslots, slot_at_ecs_grow hwf]
      have h1 : i < s.capacity * 2 := by omega
      simp [hc, hlo, h1, Slot.zero]
    · rw [bitmap_get_ecs_new hwf, hidx]
      simp only [hne, if_false]
      exact bitmap_get_out (by have := hwf.used_length; omega)
    · rw [hids, List.getElem?_set, List.getElem?_append, List.getElem?_replicate]
      have h1 : ¬ s.capacity = i := fun e => hne e.symm
      have h2 : ¬ i < s.ids.length := by omega
      have h3 : i - s.ids.length < s.capacity := by omega
      simp [h1, h2, h3, ENTITY_NONE]

/-- Witness of C3: the engine whose 64 slots are all occupied. -/
theorem ecs_new_growth_preserves_witness :
    (∀ i < demo_full.capacity,
      (ecs_new demo_full).1.ids[i]? = demo_full.ids[i]? ∧
      bitmap_get (ecs_new demo_full).1.used i = bitmap_get demo_full.used i ∧
      ∀ c, ECS_TAG (ecs_new demo_full).1 ⟨c, i⟩ = ECS_TAG demo_full ⟨c, i⟩ ∧
        payload_at (ecs_new demo_full).1 ⟨c, i⟩ = payload_at demo_full ⟨c, i⟩) ∧
    (∀ i, demo_full.capacity ≤ i → i < 2 * demo_full.capacity →
      (∀ c < demo_full.lists.length,
        ECS_TAG (ecs_new demo_full).1 ⟨c, i⟩ = 0 ∧
        payload_at (ecs_new demo_full).1 ⟨c, i⟩ =
          List.replicate (table_size demo_full c) 0) ∧
      (i ≠ demo_full.capacity →
        bitmap_get (ecs_new demo_full).1.used i = false ∧
        (ecs_new demo_full).1.ids[i]? = some ENTITY_NONE)) :=
  ecs_new_growth_preserves no_systems_safe demo_full_reachable demo_full_grows

/-- C7 (created entities have no components): in every reachable engine state the handle
returned by `ecs_new` has no component of any type, also when it reuses the slot of a
deleted entity that had components. -/
theorem ecs_new_has_no_component {sys : Systems} (hsys : sys.Safe) {sizes : List Nat}
    {s : ECS} (h : Reachable sys sizes s) (c : Nat) :
    ecs_has (ecs_new s).1 (ecs_new s).2 c = false := by
  have hwf := h.reach_wf hsys
  obtain ⟨h1, -, h3, -, h5, -⟩ := ecs_new_slot_spec hwf
  have := h1.free_untagged c (ecs_new_slot s).2 (by rw [h5]; exact h3)
  exact this

theorem demo_tagged_reachable : Reachable no_systems [2] demo_tagged :=
  ((Reachable.reach_init no_systems [2]).reach_new_n 3).reach_add (e := ⟨2, 1⟩) (c := 0)
    (v := some [7, 9]) (by decide) (by decide)

theorem demo_reused_reachable : Reachable no_systems [2] demo_reused :=
  demo_tagged_reachable.reach_delete (e := ⟨2, 1⟩) (by decide)

/-- Witness of C7: the entity in slot 1 had a component and was deleted; the next
creation reuses slot 1 and the new entity has no component. -/
theorem ecs_new_has_no_component_witness :
    ecs_has demo_tagged ⟨2, 1⟩ 0 = true ∧ (ecs_new demo_reused).2.index = 1 ∧
    ecs_has (ecs_new demo_reused).1 (ecs_new demo_reused).2 0 = false :=
  ⟨by decide, by decide, ecs_new_has_no_component no_systems_safe demo_reused_reachable 0⟩

/-! ## Identifiers -/


theorem mod_succ_mod (a m : Nat) : (a % m + 1) % m = (a + 1) % m := by
  rw [Nat.add_mod, Nat.mod_mod, ← Nat.add_mod]


theorem ids_getD_ecs_init (sizes : List Nat) (i : Nat) :
    (ecs_init sizes).ids.getD i 0 = ENTITY_NONE := by
  simp only [ecs_init, List.getD_eq_getElem?_getD, List.getElem?_replicate]
  split <;> rfl

theorem IdInv.id_init (sizes : List Nat) : IdInv (ecs_init sizes) [] where
  next := rfl
  returned := fun k e h => by simp at h
  occupied := fun i h => by
    have : bitmap_get (ecs_init sizes).used i = false := bitmap_get_calloc 64 i
    rw [this] at h
    exact Bool.noConfusion h
  free := fun i _ => ids_getD_ecs_init sizes i

theorem IdInv.id_new {s : ECS} {hs : List Entity} (hwf : WF s) (h : IdInv s hs) :
    IdInv (ecs_new s).1 (hs ++ [(ecs_new s).2]) where
  next := by
    rw [ecs_new_next hwf, h.next, List.length_append, List.length_singleton]
    exact mod_succ_mod _ _
  returned := fun k e hk => by
    rw [List.getElem?_append] at hk
    by_cases hlt : k < hs.length
    · simp only [hlt, if_true] at hk
      exact h.returned k e hk
    · simp only [hlt, if_false] at hk
      have hk0 : k - hs.length = 0 := by
        by_contra hne
        rw [List.getElem?_eq_none (by simp; omega)] at hk
        exact Option.noConfusion hk
      rw [hk0] at hk
      simp only [List.getElem?_cons_zero, Option.some.injEq] at hk
      rw [← hk, ecs_new_id hwf, h.next]
      have : k = hs.length := by omega
      rw [this]
  occupied := fun i hi => by
    rw [bitmap_get_ecs_new hwf] at hi
    rw [ids_getD_ecs_new hwf]
    by_cases hidx : i = (ecs_new s).2.index
    · refine ⟨hs.length, ?_, fun k' e' hlt hk' => ?_⟩
      · simp only [hidx, if_true]
        rw [List.getElem?_append]
        simp only [Nat.lt_irrefl, if_false, Nat.sub_self, List.getElem?_cons_zero]
        rw [← ecs_new_id hwf]
      · rw [List.getElem?_eq_none (by simp; omega)] at hk'
        exact Option.noConfusion hk'
    · simp only [hidx, if_false] at hi ⊢
      obtain ⟨k, hk, hlast⟩ := h.occupied i hi
      have hklt : k < hs.length := by
        by_contra hge
        rw [List.getElem?_eq_none (by omega)] at hk
        exact Option.noConfusion hk
      refine ⟨k, ?_, fun k' e' hlt hk' => ?_⟩
      · rw [List.getElem?_append]
        simp only [hklt, if_true]
        exact hk
      · rw [List.getElem?_append] at hk'
        by_cases hlt' : k' < hs.length
        · simp only [hlt', if_true] at hk'
          exact hlast k' e' hlt hk'
        · simp only [hlt', if_false] at hk'
          have hk0 : k' - hs.length = 0 := by
            by_contra hne
            rw [List.getElem?_eq_none (by simp; omega)] at hk'
            exact Option.noConfusion hk'
          rw [hk0] at hk'
          simp only [List.getElem?_cons_zero, Option.some.injEq] at hk'
          rw [← hk']
          exact fun e => hidx e.symm
  free := fun i hi => by
    rw [bitmap_get_ecs_new hwf] at hi
    rw [ids_getD_ecs_new hwf]
    by_cases hidx : i = (ecs_new s).2.index
    · simp [hidx] at hi
    · simp only [hidx, if_false] at hi ⊢
      exact h.free i hi

theorem IdInv.id_delete {sys : Systems} (hsys : sys.Safe) {s : ECS} {hs : List Entity}
    (hwf : WF s) (h : IdInv s hs) {e : Entity} {r : ECS × List Call}
    (hr : ecs_delete sys s e = some r) : IdInv r.1 hs := by
  obtain ⟨-, -, -, hnext, -, hbits, hids, -, -⟩ := ecs_delete_spec hsys hwf hr
  exact
  { next := by rw [hnext]; exact h.next
    returned := h.returned
    occupied := fun i hi => by
      rw [hbits] at hi
      rw [hids]
      by_cases hidx : i = e.index
      · simp [hidx] at hi
      · simp only [hidx, if_false] at hi ⊢
        exact h.occupied i hi
    free := fun i hi => by
      rw [hbits] at hi
      rw [hids]
      by_cases hidx : i = e.index
      · simp [hidx]
      · simp only [hidx, if_false] at hi ⊢
        exact h.free i hi }

theorem IdInv.id_shape {s t : ECS} {hs : List Entity} (h : IdInv s hs) (hst : Shape s t) :
    IdInv t hs where
  next := by rw [hst.next_entity_id]; exact h.next
  returned := h.returned
  occupied := fun i hi => by
    rw [hst.used] at hi
    rw [hst.ids]
    exact h.occupied i hi
  free := fun i hi => by
    rw [hst.used] at hi
    rw [hst.ids]
    exact h.free i hi

/-- Every reachable engine state satisfies the identifier invariant. -/
theorem Trace.trace_ids {sys : Systems} (hsys : sys.Safe) {sizes : List Nat} {s : ECS}
    {hs : List Entity} (h : Trace sys sizes s hs) : IdInv s hs := by
  induction h with
  | init => exact IdInv.id_init sizes
  | new ht ih => exact ih.id_new (ht.trace_wf hsys)
  | delete ht hr ih => exact ih.id_delete hsys (ht.trace_wf hsys) hr
  | add ht _ hr ih => exact ih.id_shape (ecs_add_internal_spec hsys (ht.trace_wf hsys) hr).2.1
  | remove ht _ hr ih => exact ih.id_shape (ecs_remove_spec hsys hr).2.1
  | event _ hr ih => exact ih.id_shape (ecs_event_frame hsys hr).to_shape

/-! ## Wrap-around of the identifier counter -/

theorem ecs_new_churn_state (n : Nat) :
    ecs_new (churn_state n) =
      ({ churn_state n with
          used := bitmap_set (bitmap_calloc 64) 0
          next_entity_id := ((n + 1) % U64_MOD + 1) % U64_MOD
          ids := (List.replicate 64 ENTITY_NONE).set 0 ((n + 1) % U64_MOD) },
       ⟨(n + 1) % U64_MOD, 0⟩) := by
  have hslot : ecs_new_slot (churn_state n) = (churn_state n, 0) := by
    unfold ecs_new_slot
    have h0 : ecs_new_scan_words (churn_state n).used (churn_state n).capacity
        (churn_state n).capacity 0 = 0 := by
      show ecs_new_scan_words (bitmap_calloc 64) 64 64 0 = 0
      decide
    have h1 : ecs_new_scan_bits (churn_state n).used (churn_state n).capacity
        (churn_state n).capacity 0 = 0 := by
      show ecs_new_scan_bits (bitmap_calloc 64) 64 64 0 = 0
      decide
    have h2 : (0 : Nat) ≠ (churn_state n).capacity := by
      show (0 : Nat) ≠ 64
      decide
    simp only [h0, h1, h2, if_false]
  unfold ecs_new
  rw [hslot]
  rfl

theorem ecs_delete_churn (n : Nat) :
    ecs_delete no_systems (ecs_new (churn_state n)).1 (ecs_new (churn_state n)).2 =
      some (churn_state (n + 1), []) := by
  rw [ecs_new_churn_state]
  unfold ecs_delete
  have hbit : bitmap_get (bitmap_set (bitmap_calloc 64) 0) 0 = true := by decide
  simp only [hbit, if_true]
  have hloop : ecs_delete_loop no_systems ⟨(n + 1) % U64_MOD, 0⟩ (List.range 0)
      ({ churn_state n with
          used := bitmap_set (bitmap_calloc 64) 0
          next_entity_id := ((n + 1) % U64_MOD + 1) % U64_MOD
          ids := (List.replicate 64 ENTITY_NONE).set 0 ((n + 1) % U64_MOD) }, []) =
      ({ churn_state n with
          used := bitmap_set (bitmap_calloc 64) 0
          next_entity_id := ((n + 1) % U64_MOD + 1) % U64_MOD
          ids := (List.replicate 64 ENTITY_NONE).set 0 ((n + 1) % U64_MOD) }, []) := rfl
  have hlen : (churn_state n).lists.length = 0 := rfl
  simp only [hlen, hloop]
  have hused : bitmap_clr (bitmap_set (bitmap_calloc 64) 0) 0 = bitmap_calloc 64 := by decide
  have hids : ((List.replicate 64 ENTITY_NONE).set 0 ((n + 1) % U64_MOD)).set 0 ENTITY_NONE =
      List.replicate 64 ENTITY_NONE := rfl
  have hnext : ((n + 1) % U64_MOD + 1) % U64_MOD = (n + 1 + 1) % U64_MOD := by
    rw [u64_mod_eq]; omega
  simp only [hused, hids, hnext]
  rfl

theorem churn_handles_succ (n : Nat) :
    churn_handles (n + 1) = churn_handles n ++ [⟨(n + 1) % U64_MOD, 0⟩] := by
  simp [churn_handles, List.range_succ]

/-- The trace of `n` rounds of creating an entity and deleting it again. -/
theorem churn_trace : ∀ n, Trace no_systems [] (churn_state n) (churn_handles n)
  | 0 => Trace.init
  | n + 1 => by
    have h := Trace.delete (Trace.new (churn_trace n)) (ecs_delete_churn n)
    rw [ecs_new_churn_state] at h
    rw [churn_handles_succ]
    exact h

theorem churn_handles_get (n k : Nat) (hk : k < n) :
    (churn_handles n)[k]? = some ⟨(k + 1) % U64_MOD, 0⟩ := by
  simp [churn_handles, List.getElem?_map, List.getElem?_range hk]

theorem churn_handles_length (n : Nat) : (churn_handles n).length = n := by
  simp [churn_handles]


theorem ecs_new_n_trace (sys : Systems) (sizes : List Nat) :
    ∀ k, Trace sys sizes (ecs_new_n k (ecs_init sizes)) (ecs_new_n_handles k (ecs_init sizes))
  | 0 => Trace.init
  | k + 1 => Trace.new (ecs_new_n_trace sys sizes k)

theorem returned_id_of_lt {s : ECS} {hs : List Entity} (h : IdInv s hs)
    (hlen : hs.length < U64_MOD) {k : Nat} {e : Entity} (hk : hs[k]? = some e) :
    e.id = k + 1 := by
  have hklt : k < hs.length := by
    by_contra hge
    rw [List.getElem?_eq_none (by omega)] at hk
    exact Option.noConfusion hk
  rw [h.returned k e hk]
  exact Nat.mod_eq_of_lt (by omega)

/-- C4, amended (identifier uniqueness and monotonicity): along every sequence of calls
from `ecs_init` that contains fewer than `2 ^ 64` calls of `ecs_new`, the `k`-th call of
`ecs_new` returns identifier `k` (the list `hs` is indexed from 0), identifiers are
returned in strictly increasing order, so that none is returned twice, and the
identifiers of the occupied slots of the entity table are pairwise distinct. -/
theorem ecs_new_identifiers {sys : Systems} (hsys : sys.Safe) {sizes : List Nat} {s : ECS}
    {hs : List Entity} (h : Trace sys sizes s hs) (hlen : hs.length < U64_MOD) :
    (∀ (k : Nat) (e : Entity), hs[k]? = some e → e.id = k + 1) ∧
    (∀ (k k' : Nat) (e e' : Entity), k < k' → hs[k]? = some e → hs[k']? = some e' → e.id < e'.id) ∧
    (∀ i j, i ≠ j → bitmap_get s.used i = true → bitmap_get s.used j = true →
      s.ids.getD i 0 ≠ s.ids.getD j 0) := by
  have hinv := h.trace_ids hsys
  refine ⟨fun k e hk => returned_id_of_lt hinv hlen hk, fun k k' e e' hlt hk hk' => ?_,
    fun i j hij hi hj heq => ?_⟩
  · rw [returned_id_of_lt hinv hlen hk, returned_id_of_lt hinv hlen hk']
    exact Nat.succ_lt_succ hlt
  · obtain ⟨ki, hki, -⟩ := hinv.occupied i hi
    obtain ⟨kj, hkj, -⟩ := hinv.occupied j hj
    have h1 : s.ids.getD i 0 = ki + 1 := returned_id_of_lt hinv hlen hki
    have h2 : s.ids.getD j 0 = kj + 1 := returned_id_of_lt hinv hlen hkj
    have hk : ki = kj := Nat.succ_injective (h1.symm.trans (heq.trans h2))
    rw [hk, hkj] at hki
    have : j = i := by
      have := congrArg Entity.index (Option.some.inj hki)
      exact this
    exact hij this.symm

/-- Witness of C4: three creations from the initial state. -/
theorem ecs_new_identifiers_witness :
    (ecs_new_n_handles 3 (ecs_init [2])).length < U64_MOD ∧
    (∀ (k : Nat) (e : Entity), (ecs_new_n_handles 3 (ecs_init [2]))[k]? = some e → e.id = k + 1) ∧
    (∀ (k k' : Nat) (e e' : Entity), k < k' → (ecs_new_n_handles 3 (ecs_init [2]))[k]? = some e →
      (ecs_new_n_handles 3 (ecs_init [2]))[k']? = some e' → e.id < e'.id) ∧
    (∀ i j, i ≠ j → bitmap_get (ecs_new_n 3 (ecs_init [2])).used i = true →
      bitmap_get (ecs_new_n 3 (ecs_init [2])).used j = true →
      (ecs_new_n 3 (ecs_init [2])).ids.getD i 0 ≠ (ecs_new_n 3 (ecs_init [2])).ids.getD j 0) :=
  ⟨by decide,
   ecs_new_identifiers no_systems_safe (ecs_new_n_trace no_systems [2] 3) (by decide)⟩

theorem u64_wrap : (U64_MOD - 1 + 1) % U64_MOD = 0 := by
  rw [u64_mod_eq]

/-- Counterexample to C4 as stated: after `2 ^ 64 - 1` rounds of creating an entity and
deleting it, the `2 ^ 64`-th call of `ecs_new` returns identifier 0 (`ENTITY_NONE`), not
`2 ^ 64`, and the call after it returns identifier 1 a second time. -/
theorem ecs_new_identifier_wraps :
    Trace no_systems [] (churn_state (U64_MOD + 1)) (churn_handles (U64_MOD + 1)) ∧
    (churn_handles (U64_MOD + 1))[U64_MOD - 1]? = some ⟨ENTITY_NONE, 0⟩ ∧
    ENTITY_NONE ≠ U64_MOD - 1 + 1 ∧
    (churn_handles (U64_MOD + 1))[0]? = some ⟨1, 0⟩ ∧
    (churn_handles (U64_MOD + 1))[U64_MOD]? = some ⟨1, 0⟩ := by
  refine ⟨churn_trace _, ?_, ?_, ?_, ?_⟩
  · rw [churn_handles_get _ _ (by rw [u64_mod_eq]; omega), u64_wrap]
    rfl
  · rw [u64_mod_eq]; decide
  · rw [churn_handles_get _ _ (by omega)]
    rfl
  · rw [churn_handles_get _ _ (by omega)]
    have : (U64_MOD + 1) % U64_MOD = 1 := by rw [u64_mod_eq]
    rw [this]

/-- C5, amended (occupancy consistency): in every engine state reached from `ecs_init` by
a sequence of calls with fewer than `2 ^ 64` calls of `ecs_new`, every slot below the
capacity has an entity-table entry, its occupancy bit is set if and only if that entry is
not `ENTITY_NONE`, and the entry of an occupied slot is the identifier returned by the
call of `ecs_new` that allocated the slot last. -/
theorem occupancy_consistent {sys : Systems} (hsys : sys.Safe) {sizes : List Nat} {s : ECS}
    {hs : List Entity} (h : Trace sys sizes s hs) (hlen : hs.length < U64_MOD)
    (i : Nat) (hi : i < s.capacity) :
    ∃ x, s.ids[i]? = some x ∧
      (bitmap_get s.used i = true ↔ x ≠ ENTITY_NONE) ∧
      (bitmap_get s.used i = true →
        ∃ k : Nat, hs[k]? = some (Entity.mk x i) ∧ ∀ (k' : Nat) (e' : Entity), k < k' → hs[k']? = some e' → e'.index ≠ i) := by
  have hinv := h.trace_ids hsys
  have hwf := h.trace_wf hsys
  have hilen : i < s.ids.length := by rw [hwf.ids_length]; exact hi
  have hget : s.ids.getD i 0 = s.ids[i] := by
    rw [List.getD_eq_getElem?_getD, List.getElem?_eq_getElem hilen]
    rfl
  refine ⟨s.ids[i], List.getElem?_eq_getElem hilen, ⟨fun hbit => ?_, fun hne => ?_⟩,
    fun hbit => ?_⟩
  · obtain ⟨k, hk, -⟩ := hinv.occupied i hbit
    have := returned_id_of_lt hinv hlen hk
    simp only at this
    rw [← hget, this]
    exact Nat.succ_ne_zero k
  · by_contra hbit
    have := hinv.free i (by simpa using hbit)
    rw [hget] at this
    exact hne this
  · rw [← hget]
    exact hinv.occupied i hbit

/-- Witness of C5: slot 1 of the engine after three creations. -/
theorem occupancy_consistent_witness :
    ∃ x, (ecs_new_n 3 (ecs_init [2])).ids[1]? = some x ∧
      (bitmap_get (ecs_new_n 3 (ecs_init [2])).used 1 = true ↔ x ≠ ENTITY_NONE) ∧
      (bitmap_get (ecs_new_n 3 (ecs_init [2])).used 1 = true →
        ∃ k : Nat, (ecs_new_n_handles 3 (ecs_init [2]))[k]? = some (Entity.mk x 1) ∧
          ∀ (k' : Nat) (e' : Entity), k < k' → (ecs_new_n_handles 3 (ecs_init [2]))[k']? = some e' →
            e'.index ≠ 1) :=
  occupancy_consistent no_systems_safe (ecs_new_n_trace no_systems [2] 3) (by decide) 1
    (by decide)

/-- Counterexample to C5 as stated: after `2 ^ 64 - 1` rounds of creating an entity and
deleting it, one more call of `ecs_new` leaves slot 0 occupied with the entity-table entry
`ENTITY_NONE`. -/
theorem occupied_slot_holds_none :
    Trace no_systems [] (ecs_new (churn_state (U64_MOD - 1))).1
      (churn_handles (U64_MOD - 1) ++ [(ecs_new (churn_state (U64_MOD - 1))).2]) ∧
    0 < (ecs_new (churn_state (U64_MOD - 1))).1.capacity ∧
    bitmap_get (ecs_new (churn_state (U64_MOD - 1))).1.used 0 = true ∧
    (ecs_new (churn_state (U64_MOD - 1))).1.ids[0]? = some ENTITY_NONE := by
  refine ⟨Trace.new (churn_trace _), ?_, ?_, ?_⟩
  · rw [ecs_new_churn_state]
    show 0 < 64
    decide
  · rw [ecs_new_churn_state]
    show bitmap_get (bitmap_set (bitmap_calloc 64) 0) 0 = true
    decide
  · rw [ecs_new_churn_state, u64_wrap]
    rfl

/-- C6, amended (slot reuse): in a reachable engine state before which fewer than
`2 ^ 64 - 1` identifiers were assigned, if `ecs_delete` of a handle succeeds and leaves its
slot the lowest free slot, the next `ecs_new` returns a handle with that slot index and
an identifier strictly greater than every identifier returned before, in particular
different from the identifier of the deleted entity. -/
theorem slot_reuse {sys : Systems} (hsys : sys.Safe) {sizes : List Nat} {s : ECS}
    {hs : List Entity} (h : Trace sys sizes s hs) (hlen : hs.length + 1 < U64_MOD)
    {e : Entity} {r : ECS × List Call} (hr : ecs_delete sys s e = some r)
    (hlow : ∀ j < e.index, bitmap_get r.1.used j = true) :
    (ecs_new r.1).2.index = e.index ∧
    (∀ e' ∈ hs, e'.id < (ecs_new r.1).2.id) ∧
    (ecs_new r.1).2.id ≠ s.ids.getD e.index 0 := by
  have hinv := h.trace_ids hsys
  have hwf := h.trace_wf hsys
  obtain ⟨hbit, hidx, hcap, hnext, -, hbits, -, -, hwf'⟩ := ecs_delete_spec hsys hwf hr
  have hfree : ∃ i < r.1.capacity, bitmap_get r.1.used i = false :=
    ⟨e.index, by rw [hcap]; exact hidx, by rw [hbits]; simp⟩
  obtain ⟨-, -, h3, h4⟩ := ecs_new_slot_free hwf'.used_bytes hwf'.capacity_words hfree
  have hindex : (ecs_new r.1).2.index = e.index := by
    rw [ecs_new_index]
    by_contra hne
    rcases Nat.lt_or_gt_of_ne hne with hlt | hgt
    · rw [hlow _ hlt] at h3
      exact Bool.noConfusion h3
    · have := h4 e.index hgt
      rw [hbits] at this
      simp at this
  have hid : (ecs_new r.1).2.id = hs.length + 1 := by
    rw [ecs_new_id hwf', hnext, hinv.next]
    exact Nat.mod_eq_of_lt hlen
  have hold : ∀ e' ∈ hs, e'.id < hs.length + 1 := by
    intro e' he'
    obtain ⟨k, hk, hget⟩ := List.getElem_of_mem he'
    have hid' : e'.id = k + 1 :=
      returned_id_of_lt hinv (by omega) (List.getElem?_eq_some.2 ⟨hk, hget⟩)
    rw [hid']
    exact Nat.succ_lt_succ hk
  refine ⟨hindex, fun e' he' => by rw [hid]; exact hold e' he', ?_⟩
  obtain ⟨k, hk, -⟩ := hinv.occupied e.index hbit
  have hlt : s.ids.getD e.index 0 < hs.length + 1 := hold _ (List.getElem?_mem hk)
  rw [hid]
  exact fun heq => Nat.lt_irrefl _ (heq ▸ hlt)


/-- Witness of C6: after three creations the entity in slot 1 is deleted; the next
creation reuses slot 1. -/
theorem slot_reuse_witness :
    (ecs_new demo_hole).2.index = 1 ∧
    (∀ e' ∈ ecs_new_n_handles 3 (ecs_init [2]), e'.id < (ecs_new demo_hole).2.id) ∧
    (ecs_new demo_hole).2.id ≠ (ecs_new_n 3 (ecs_init [2])).ids.getD 1 0 :=
  slot_reuse no_systems_safe (ecs_new_n_trace no_systems [2] 3) (by decide)
    (e := ⟨2, 1⟩)
    (r := (ecs_delete no_systems (ecs_new_n 3 (ecs_init [2])) ⟨2, 1⟩).get (by decide))
    (Option.some_get _).symm
    (fun j hj => by
      have : j = 0 := by
        have : j < 1 := hj
        omega
      rw [this]
      decide)

/-- Counterexample to C6 as stated: after `2 ^ 64 - 2` rounds of creating an entity and
deleting it, the entity created next lives in slot 0 with identifier `2 ^ 64 - 1`; when it
is deleted, slot 0 is the lowest free slot and the next `ecs_new` returns slot 0 with
identifier 0, which is not greater than the identifier 1 returned by the first call. -/
theorem slot_reuse_identifier_wraps :
    Trace no_systems [] (ecs_new (churn_state (U64_MOD - 2))).1
      (churn_handles (U64_MOD - 2) ++ [(ecs_new (churn_state (U64_MOD - 2))).2]) ∧
    bitmap_get (ecs_new (churn_state (U64_MOD - 2))).1.used
      (ecs_new (churn_state (U64_MOD - 2))).2.index = true ∧
    ecs_delete no_systems (ecs_new (churn_state (U64_MOD - 2))).1
      (ecs_new (churn_state (U64_MOD - 2))).2 = some (churn_state (U64_MOD - 2 + 1), []) ∧
    (ecs_new (churn_state (U64_MOD - 2))).2.index = 0 ∧
    bitmap_get (churn_state (U64_MOD - 2 + 1)).used 0 = false ∧
    (ecs_new (churn_state (U64_MOD - 2 + 1))).2 = ⟨0, 0⟩ ∧
    (⟨1, 0⟩ : Entity) ∈
      churn_handles (U64_MOD - 2) ++ [(ecs_new (churn_state (U64_MOD - 2))).2] := by
  refine ⟨Trace.new (churn_trace _), ?_, ecs_delete_churn _, ?_, ?_, ?_, ?_⟩
  · rw [ecs_new_churn_state]
    show bitmap_get (bitmap_set (bitmap_calloc 64) 0) 0 = true
    decide
  · rw [ecs_new_churn_state]
  · show bitmap_get (bitmap_calloc 64) 0 = false
    decide
  · rw [ecs_new_churn_state]
    have : (U64_MOD - 2 + 1 + 1) % U64_MOD = 0 := by rw [u64_mod_eq]
    rw [this]
  · apply List.mem_append_left
    have h := churn_handles_get (U64_MOD - 2) 0 (by rw [u64_mod_eq]; omega)
    have h1 : (0 + 1) % U64_MOD = 1 := by rw [u64_mod_eq]
    rw [h1] at h
    exact List.getElem?_mem h


/-! ## Destroy callbacks -/

/-- The calls that the loop of `ecs_delete` makes: one for every component type in `js`
whose `destroy` callback is bound, whatever the tags are. -/
theorem ecs_delete_loop_calls (sys : Systems) (e : Entity) :
    ∀ (js : List Nat) (r : ECS × List Call),
      (ecs_delete_loop sys e js r).2.map Call.component =
        r.2.map Call.component ++
          (js.filter (fun j => (sys j).destroy.isSome)).map (fun j => ECSCL_GET j e.index) := by
  intro js
  induction js with
  | nil => intro r; simp [ecs_delete_loop]
  | cons j js ih =>
    intro r
    simp only [ecs_delete_loop]
    rw [ih]
    cases hd : (sys j).destroy with
    | none => simp [invoke, List.filter_cons, hd]
    | some g => simp [invoke, List.filter_cons, hd]

/-- C8 (the code at the failing input): component type 0 has a bound `destroy` callback
and the entity in slot 0 holds no component, yet `ecs_delete` invokes that callback once
on the entity's slot of table 0. -/
theorem ecs_delete_destroys_absent_component :
    ecs_has demo_one ⟨1, 0⟩ 0 = false ∧
    (ecs_delete demo_destroy_systems demo_one ⟨1, 0⟩).map
        (fun r => r.2.map (fun call => (call.component, call.entity))) =
      some [(⟨0, 0⟩, ⟨1, 0⟩)] := by
  constructor
  · decide
  · decide

/-- Every call recorded by the loop of `ecs_delete` passes the entity handle and a state
in which the tag of the component is clear. -/
theorem ecs_delete_loop_cleared (sys : Systems) (e : Entity) :
    ∀ (js : List Nat) (r : ECS × List Call),
      (∀ call ∈ r.2, call.entity = e ∧ call.component.index = e.index ∧
        ecs_has call.state call.entity call.component.list = false) →
      ∀ call ∈ (ecs_delete_loop sys e js r).2, call.entity = e ∧
        call.component.index = e.index ∧
        ecs_has call.state call.entity call.component.list = false := by
  intro js
  induction js with
  | nil => intro r h; exact h
  | cons j js ih =>
    intro r h
    simp only [ecs_delete_loop]
    apply ih
    intro call hcall
    cases hd : (sys j).destroy with
    | none =>
      rw [hd] at hcall
      exact h call hcall
    | some g =>
      rw [hd] at hcall
      simp only [invoke, List.mem_append, List.mem_singleton] at hcall
      rcases hcall with hcall | hcall
      · exact h call hcall
      · rw [hcall]
        exact ⟨rfl, rfl, tag_used_tag_clear_used _ _⟩

/-- C9 (clear-then-destroy ordering): every `on_destroy` call made by `ecs_delete` or by
`ecs_remove` receives the entity handle and runs in a state in which the `used` tag of
its component type is already clear at the entity's slot, so that `ecs_has` is false
there. -/
theorem destroy_sees_cleared_tag (sys : Systems) (s : ECS) (e : Entity) (c : Nat)
    (r : ECS × List Call) (call : Call)
    (hr : ecs_delete sys s e = some r ∨ ecs_remove sys s e c = some r)
    (hcall : call ∈ r.2) :
    call.entity = e ∧ call.component.index = e.index ∧
    ecs_has call.state e call.component.list = false := by
  have key : call.entity = e ∧ call.component.index = e.index ∧
      ecs_has call.state call.entity call.component.list = false := by
    rcases hr with hr | hr
    · unfold ecs_delete at hr
      split at hr
      · simp only [Option.some.injEq] at hr
        rw [← hr] at hcall
        exact ecs_delete_loop_cleared sys e _ (s, []) (fun _ h => by simp at h) call hcall
      · exact Option.noConfusion hr
    · unfold ecs_remove at hr
      simp only at hr
      split at hr
      · simp only [Option.some.injEq] at hr
        rw [← hr] at hcall
        cases hd : (sys c).destroy with
        | none =>
          rw [hd] at hcall
          simp [invoke] at hcall
        | some g =>
          rw [hd] at hcall
          simp only [invoke, List.nil_append, List.mem_singleton] at hcall
          rw [hcall]
          exact ⟨rfl, rfl, tag_used_tag_clear_used _ _⟩
      · exact Option.noConfusion hr
  obtain ⟨h1, h2, h3⟩ := key
  rw [h1] at h3
  exact ⟨h1, h2, h3⟩

/-- Witness of C9: the entity in slot 1 holds a component of type 0, whose `destroy`
callback is bound; `ecs_delete` calls it in a state where the tag is clear. -/
theorem destroy_sees_cleared_tag_witness :
    ecs_has demo_tagged ⟨2, 1⟩ 0 = true ∧
    ecs_has (tag_clear_used demo_tagged ⟨0, 1⟩) ⟨2, 1⟩ 0 = false :=
  ⟨by decide,
   (destroy_sees_cleared_tag demo_destroy_systems demo_tagged ⟨2, 1⟩ 0
      ((ecs_delete demo_destroy_systems demo_tagged ⟨2, 1⟩).get (by decide))
      ⟨⟨0, 1⟩, ⟨2, 1⟩, tag_clear_used demo_tagged ⟨0, 1⟩⟩
      (Or.inl (Option.some_get _).symm) (by decide)).2.2⟩


/-! ## Attach and read back -/

theorem memcpy_full (dst src : List Nat) (n : Nat) (hs : src.length = n) (hd : dst.length = n) :
    memcpy dst src n = src := by
  unfold memcpy
  rw [List.take_of_length_le (le_of_eq hs), List.drop_of_length_le (by omega)]
  simp

theorem index_lt_of_live {s : ECS} (hwf : WF s) {i : Nat} (h : bitmap_get s.used i = true) :
    i < s.capacity := by
  by_contra hge
  rw [bitmap_get_out (by have := hwf.used_length; omega)] at h
  exact Bool.noConfusion h

/-- C10 (attach and read back): for a handle of a live entity in a reachable engine state,
a registered component type whose tag is clear at the entity's slot and a value of
`component_size` bytes, `_ecs_add_internal` succeeds when the `init` callback is absent or
leaves the payload alone; afterwards `ecs_has` is true and `ecs_get` returns a pointer to
payload bytes equal to the value. -/
theorem add_get_round_trip {sys : Systems} (hsys : sys.Safe) {sizes : List Nat} {s : ECS}
    (h : Reachable sys sizes s) (e : Entity) (c : Nat) (v : List Nat)
    (hlive : bitmap_get s.used e.index = true) (hc : c < s.lists.length)
    (htag : ecs_has s e c = false) (hv : v.length = table_size s c)
    (hcb : ∀ f, (sys c).init = some f →
      ∀ t, payload_at (f ⟨c, e.index⟩ e t) ⟨c, e.index⟩ = payload_at t ⟨c, e.index⟩) :
    ∃ r, _ecs_add_internal sys s e c (some v) = some r ∧ ecs_has r.1 e c = true ∧
      ∃ p, ecs_get r.1 e c = some p ∧ payload_at r.1 p = v := by
  have hwf := h.reach_wf hsys
  have hidx := index_lt_of_live hwf hlive
  have hin : e.index < table_len s c := by rw [hwf.table_len c hc]; exact hidx
  have hrun : _ecs_add_internal sys s e c (some v) =
      some (invoke (sys c).init ⟨c, e.index⟩ e
        (copy_value (tag_set_used s ⟨c, e.index⟩) ⟨c, e.index⟩ (some v), [])) := by
    unfold _ecs_add_internal
    have : tag_used s (ECSCL_GET c e.index) = false := htag
    simp only [this, Bool.not_false, if_true]
    rfl
  refine ⟨_, hrun, ?_⟩
  obtain ⟨-, -, htags⟩ := ecs_add_internal_spec hsys hwf hrun
  have hhas : ecs_has (invoke (sys c).init ⟨c, e.index⟩ e
      (copy_value (tag_set_used s ⟨c, e.index⟩) ⟨c, e.index⟩ (some v), [])).1 e c = true := by
    unfold ecs_has tag_used
    rw [show ECSCL_GET c e.index = (⟨c, e.index⟩ : ComponentPtr) from rfl, htags]
    have : ((⟨c, e.index⟩ : ComponentPtr) = ⟨c, e.index⟩ ∧
        (⟨c, e.index⟩ : ComponentPtr).index < table_len s (⟨c, e.index⟩ : ComponentPtr).list) :=
      ⟨rfl, hin⟩
    rw [if_pos this]
    simp only [bne_iff_ne, ne_eq]
    exact tag_set_used_bit _
  refine ⟨hhas, ⟨c, e.index⟩, ?_, ?_⟩
  · unfold ecs_get
    rw [hhas]
    rfl
  · have hcopy : payload_at (copy_value (tag_set_used s ⟨c, e.index⟩) ⟨c, e.index⟩ (some v))
        ⟨c, e.index⟩ = v := by
      unfold copy_value payload_at
      rw [slot_at_slot_update]
      have hin1 : (⟨c, e.index⟩ : ComponentPtr).index <
          table_len (tag_set_used s ⟨c, e.index⟩) (⟨c, e.index⟩ : ComponentPtr).list := by
        rw [(tag_set_used_shape s ⟨c, e.index⟩).table_len]
        exact hin
      rw [if_pos ⟨rfl, hin1⟩]
      show memcpy (payload_at (tag_set_used s ⟨c, e.index⟩) ⟨c, e.index⟩) v
        (table_size (tag_set_used s ⟨c, e.index⟩) c) = v
      rw [payload_at_tag_set_used, (tag_set_used_shape s ⟨c, e.index⟩).table_size]
      exact memcpy_full _ _ _ hv (hwf.payload_length c e.index hc hidx)
    cases hinit : (sys c).init with
    | none => simp only [invoke]; exact hcopy
    | some f =>
      simp only [invoke]
      rw [hcb f hinit]
      exact hcopy

theorem demo_position_reachable : Reachable no_systems [16] demo_position :=
  (Reachable.reach_init no_systems [16]).reach_new_n 1

/-- Witness of C10: attaching `Position{1.0, 2.0}` to the entity in slot 0 and reading it
back. -/
theorem add_get_round_trip_witness :
    ∃ r, _ecs_add_internal no_systems demo_position ⟨1, 0⟩ 0 (some position_1_2) = some r ∧
      ecs_has r.1 ⟨1, 0⟩ 0 = true ∧
      ∃ p, ecs_get r.1 ⟨1, 0⟩ 0 = some p ∧ payload_at r.1 p = position_1_2 :=
  add_get_round_trip no_systems_safe demo_position_reachable ⟨1, 0⟩ 0 position_1_2
    (by decide) (by decide) (by decide) (by decide)
    (fun f hf => by simp [no_systems, ECSSystem.none] at hf)


/-! ## Assertions -/

/-- The run of `ecs_delete` on a handle whose occupancy bit is clear aborts at once; on a
handle whose bit is set it returns what `ecs_delete` gives. -/
theorem ecs_delete_run_cases (sys : Systems) (s : ECS) (e : Entity) :
    (bitmap_get s.used e.index = false ∧
      (ecs_delete_run sys e).run (s, []) = Outcome.aborted (s, []) ∧
      ecs_delete sys s e = none) ∨
    (bitmap_get s.used e.index = true ∧
      ∃ r, (ecs_delete_run sys e).run (s, []) = Outcome.returned () r ∧
        ecs_delete sys s e = some r) := by
  unfold ecs_delete
  simp only [ecs_delete_run, bind, Exec.seq, Exec.run, c_assert, c_store]
  by_cases h : bitmap_get s.used e.index = true
  · right
    simp only [h, ↓reduceIte]
    exact ⟨trivial, _, rfl, rfl⟩
  · left
    have h0 : bitmap_get s.used e.index = false := by simpa using h
    simp only [h0, Bool.false_eq_true, ↓reduceIte]
    exact ⟨trivial, trivial, trivial⟩

/-- The run of `_ecs_add_internal` on a slot tagged used aborts at once; on a slot not
tagged used it returns what `_ecs_add_internal` gives. -/
theorem ecs_add_internal_run_cases (sys : Systems) (s : ECS) (e : Entity) (c : Nat)
    (v : Option (List Nat)) :
    (tag_used s (ECSCL_GET c e.index) = true ∧
      (_ecs_add_internal_run sys e c v).run (s, []) = Outcome.aborted (s, []) ∧
      _ecs_add_internal sys s e c v = none) ∨
    (tag_used s (ECSCL_GET c e.index) = false ∧
      ∃ r, (_ecs_add_internal_run sys e c v).run (s, []) = Outcome.returned () r ∧
        _ecs_add_internal sys s e c v = some r) := by
  unfold _ecs_add_internal
  simp only [_ecs_add_internal_run, bind, Exec.seq, Exec.run, c_assert, c_store, c_call]
  by_cases h : tag_used s (ECSCL_GET c e.index) = true
  · left
    simp only [h, Bool.not_true, Bool.false_eq_true, ↓reduceIte]
    exact ⟨trivial, trivial, trivial⟩
  · right
    have h0 : tag_used s (ECSCL_GET c e.index) = false := by simpa using h
    simp only [h0, Bool.not_false, ↓reduceIte]
    exact ⟨trivial, _, rfl, rfl⟩

/-- The run of `ecs_remove` on a slot not tagged used aborts at once; on a slot tagged
used it returns what `ecs_remove` gives. -/
theorem ecs_remove_run_cases (sys : Systems) (s : ECS) (e : Entity) (c : Nat) :
    (tag_used s (ECSCL_GET c e.index) = false ∧
      (ecs_remove_run sys e c).run (s, []) = Outcome.aborted (s, []) ∧
      ecs_remove sys s e c = none) ∨
    (tag_used s (ECSCL_GET c e.index) = true ∧
      ∃ r, (ecs_remove_run sys e c).run (s, []) = Outcome.returned () r ∧
        ecs_remove sys s e c = some r) := by
  unfold ecs_remove
  simp only [ecs_remove_run, bind, Exec.seq, Exec.run, c_assert, c_store, c_call]
  by_cases h : tag_used s (ECSCL_GET c e.index) = true
  · right
    simp only [h, ↓reduceIte]
    exact ⟨trivial, _, rfl, rfl⟩
  · left
    have h0 : tag_used s (ECSCL_GET c e.index) = false := by simpa using h
    simp only [h0, Bool.false_eq_true, ↓reduceIte]
    exact ⟨trivial, trivial, trivial⟩

/-- The run of `ecs_get` aborts at once when `ecs_has` is false and returns the component
pointer, leaving the engine alone, when it is true. -/
theorem ecs_get_run_cases (s : ECS) (e : Entity) (c : Nat) :
    (ecs_has s e c = false ∧
      (ecs_get_run e c).run (s, []) = Outcome.aborted (s, []) ∧ ecs_get s e c = none) ∨
    (ecs_has s e c = true ∧
      (ecs_get_run e c).run (s, []) = Outcome.returned (ECSCL_GET c e.index) (s, []) ∧
      ecs_get s e c = some (ECSCL_GET c e.index)) := by
  unfold ecs_get
  simp only [ecs_get_run, bind, Exec.seq, Exec.run, c_assert, pure, Exec.ret]
  by_cases h : ecs_has s e c = true
  · right
    simp only [h, ↓reduceIte]
    exact ⟨trivial, trivial, trivial⟩
  · left
    have h0 : ecs_has s e c = false := by simpa using h
    simp only [h0, Bool.false_eq_true, ↓reduceIte]
    exact ⟨trivial, trivial, trivial⟩

/-- C11 (precondition violations fail fast): run statement by statement from the engine
`s` with no callback invoked yet, `_ecs_add_internal` aborts exactly when the tag of the
target slot is already used, `ecs_remove` exactly when it is not used, `ecs_get` exactly
when `ecs_has` is false and `ecs_delete` exactly when the occupancy bit of the handle's
index is clear; and the state at the abort is `(s, [])`: the engine is the one the call
started with and no callback has been invoked.  A run that does not abort returns what
the functions `ecs_delete`, `_ecs_add_internal`, `ecs_remove` and `ecs_get` give, and
these are `none` exactly for the aborted runs. -/
theorem precondition_violations (sys : Systems) (s : ECS) (e : Entity) (c : Nat)
    (v : Option (List Nat)) :
    (((∃ st, (_ecs_add_internal_run sys e c v).run (s, []) = Outcome.aborted st) ↔
        tag_used s (ECSCL_GET c e.index) = true) ∧
      ((_ecs_add_internal_run sys e c v).run (s, []) = Outcome.aborted (s, []) ↔
        tag_used s (ECSCL_GET c e.index) = true) ∧
      ((_ecs_add_internal_run sys e c v).run (s, [])).final = _ecs_add_internal sys s e c v) ∧
    (((∃ st, (ecs_remove_run sys e c).run (s, []) = Outcome.aborted st) ↔
        tag_used s (ECSCL_GET c e.index) = false) ∧
      ((ecs_remove_run sys e c).run (s, []) = Outcome.aborted (s, []) ↔
        tag_used s (ECSCL_GET c e.index) = false) ∧
      ((ecs_remove_run sys e c).run (s, [])).final = ecs_remove sys s e c) ∧
    (((∃ st, (ecs_get_run e c).run (s, []) = Outcome.aborted st) ↔ ecs_has s e c = false) ∧
      ((ecs_get_run e c).run (s, []) = Outcome.aborted (s, []) ↔ ecs_has s e c = false) ∧
      ((ecs_get_run e c).run (s, [])).value = ecs_get s e c ∧
      ((ecs_get_run e c).run (s, [])).final = (ecs_get s e c).map (fun _ => (s, []))) ∧
    (((∃ st, (ecs_delete_run sys e).run (s, []) = Outcome.aborted st) ↔
        bitmap_get s.used e.index = false) ∧
      ((ecs_delete_run sys e).run (s, []) = Outcome.aborted (s, []) ↔
        bitmap_get s.used e.index = false) ∧
      ((ecs_delete_run sys e).run (s, [])).final = ecs_delete sys s e) := by
  refine ⟨?_, ?_, ?_, ?_⟩
  · rcases ecs_add_internal_run_cases sys s e c v with ⟨hg, hrun, hop⟩ | ⟨hg, r, hrun, hop⟩
    · rw [hrun, hop, hg]
      exact ⟨⟨fun _ => rfl, fun _ => ⟨_, rfl⟩⟩, ⟨fun _ => rfl, fun _ => rfl⟩, rfl⟩
    · rw [hrun, hop, hg]
      refine ⟨⟨fun h => ?_, fun h => Bool.noConfusion h⟩,
        ⟨fun h => Outcome.noConfusion h, fun h => Bool.noConfusion h⟩, rfl⟩
      obtain ⟨st, hst⟩ := h
      exact Outcome.noConfusion hst
  · rcases ecs_remove_run_cases sys s e c with ⟨hg, hrun, hop⟩ | ⟨hg, r, hrun, hop⟩
    · rw [hrun, hop, hg]
      exact ⟨⟨fun _ => rfl, fun _ => ⟨_, rfl⟩⟩, ⟨fun _ => rfl, fun _ => rfl⟩, rfl⟩
    · rw [hrun, hop, hg]
      refine ⟨⟨fun h => ?_, fun h => Bool.noConfusion h⟩,
        ⟨fun h => Outcome.noConfusion h, fun h => Bool.noConfusion h⟩, rfl⟩
      obtain ⟨st, hst⟩ := h
      exact Outcome.noConfusion hst
  · rcases ecs_get_run_cases s e c with ⟨hg, hrun, hop⟩ | ⟨hg, hrun, hop⟩
    · rw [hrun, hop, hg]
      exact ⟨⟨fun _ => rfl, fun _ => ⟨_, rfl⟩⟩, ⟨fun _ => rfl, fun _ => rfl⟩, rfl, rfl⟩
    · rw [hrun, hop, hg]
      refine ⟨⟨fun h => ?_, fun h => Bool.noConfusion h⟩,
        ⟨fun h => Outcome.noConfusion h, fun h => Bool.noConfusion h⟩, rfl, rfl⟩
      obtain ⟨st, hst⟩ := h
      exact Outcome.noConfusion hst
  · rcases ecs_delete_run_cases sys s e with ⟨hg, hrun, hop⟩ | ⟨hg, r, hrun, hop⟩
    · rw [hrun, hop, hg]
      exact ⟨⟨fun _ => rfl, fun _ => ⟨_, rfl⟩⟩, ⟨fun _ => rfl, fun _ => rfl⟩, rfl⟩
    · rw [hrun, hop, hg]
      refine ⟨⟨fun h => ?_, fun h => Bool.noConfusion h⟩,
        ⟨fun h => Outcome.noConfusion h, fun h => Bool.noConfusion h⟩, rfl⟩
      obtain ⟨st, hst⟩ := h
      exact Outcome.noConfusion hst

/-- Example for C11: a second attach of a component of type 0 to the entity in slot 1 of
`demo_tagged`, which holds one, aborts with the engine unchanged and no callback
invoked, and `_ecs_add_internal` gives `none`. -/
theorem precondition_violations_witness :
    (_ecs_add_internal_run no_systems ⟨2, 1⟩ 0 (some [7, 9])).run (demo_tagged, []) =
      Outcome.aborted (demo_tagged, []) ∧
    _ecs_add_internal no_systems demo_tagged ⟨2, 1⟩ 0 (some [7, 9]) = none :=
  have h := (precondition_violations no_systems demo_tagged ⟨2, 1⟩ 0 (some [7, 9])).1
  have hrun := h.2.1.2 (by decide)
  ⟨hrun, by rw [← h.2.2, hrun]; rfl⟩


/-! ## Post-state of deletion -/

/-- The loop of `ecs_delete` with `destroy` callbacks that leave the engine alone: a
slot of another index keeps its tag and payload in every table. -/
theorem ecs_delete_loop_other {sys : Systems}
    (hcb : ∀ c f, (sys c).destroy = some f → ∀ p e t, f p e t = t) (e : Entity) :
    ∀ (js : List Nat) (r : ECS × List Call) (q : ComponentPtr), q.index ≠ e.index →
      slot_at (ecs_delete_loop sys e js r).1 q = slot_at r.1 q := by
  intro js
  induction js with
  | nil => intro r q _; rfl
  | cons j js ih =>
    intro r q hq
    simp only [ecs_delete_loop]
    rw [ih _ q hq]
    have hne : ¬ (ECSCL_GET j e.index = q ∧ q.index < table_len r.1 q.list) := by
      rintro ⟨h, -⟩
      exact hq (by rw [← h]; rfl)
    have hclear : slot_at (tag_clear_used r.1 (ECSCL_GET j e.index)) q = slot_at r.1 q := by
      unfold tag_clear_used
      rw [slot_at_slot_update, if_neg hne]
    cases hd : (sys j).destroy with
    | none => simp only [invoke]; exact hclear
    | some f =>
      simp only [invoke]
      rw [hcb j f hd]
      exact hclear

/-- The entity table and the bitmap after `ecs_delete`, with callbacks that respect the
frame. -/
theorem ecs_delete_tables {sys : Systems} (hsys : sys.Safe) {s : ECS} {e : Entity}
    {r : ECS × List Call} (hr : ecs_delete sys s e = some r) :
    r.1.ids = s.ids.set e.index ENTITY_NONE ∧ r.1.used = bitmap_clr s.used e.index ∧
    r.1.lists = (ecs_delete_loop sys e (List.range s.lists.length) (s, [])).1.lists := by
  unfold ecs_delete at hr
  split at hr
  · obtain ⟨hshape, -⟩ := ecs_delete_loop_spec hsys e (List.range s.lists.length) (s, [])
    rw [← Option.some.inj hr]
    exact ⟨congrArg (fun l => List.set l e.index ENTITY_NONE) hshape.ids,
      congrArg (fun b => bitmap_clr b e.index) hshape.used, rfl⟩
  · exact Option.noConfusion hr

/-- C13 (post-state of `ecs_delete`): for a handle whose slot `i` is occupied in a
reachable engine state, with `destroy` callbacks absent or leaving the engine alone,
`ecs_delete` succeeds; afterwards the occupancy bit `i` is clear, `ids[i]` is
`ENTITY_NONE` and the tag of slot `i` is clear in every table, while the capacity, the
identifier counter and, for every other slot, the entity-table entry, the occupancy bit
and the tag and payload in every table are unchanged. -/
theorem ecs_delete_post_state {sys : Systems} (hsys : sys.Safe) {sizes : List Nat} {s : ECS}
    (h : Reachable sys sizes s) (e : Entity) (hbit : bitmap_get s.used e.index = true)
    (hcb : ∀ c f, (sys c).destroy = some f → ∀ p e t, f p e t = t) :
    ∃ r, ecs_delete sys s e = some r ∧
      bitmap_get r.1.used e.index = false ∧
      r.1.ids[e.index]? = some ENTITY_NONE ∧
      (∀ c, tag_used r.1 ⟨c, e.index⟩ = false) ∧
      r.1.capacity = s.capacity ∧
      r.1.next_entity_id = s.next_entity_id ∧
      ∀ j, j ≠ e.index →
        r.1.ids[j]? = s.ids[j]? ∧
        bitmap_get r.1.used j = bitmap_get s.used j ∧
        ∀ c, ECS_TAG r.1 ⟨c, j⟩ = ECS_TAG s ⟨c, j⟩ ∧
          payload_at r.1 ⟨c, j⟩ = payload_at s ⟨c, j⟩ := by
  have hwf := h.reach_wf hsys
  have hsome : ∃ r, ecs_delete sys s e = some r := by
    unfold ecs_delete
    rw [if_pos hbit]
    exact ⟨_, rfl⟩
  obtain ⟨r, hr⟩ := hsome
  obtain ⟨-, hidx, hcap, hnext, -, hbits, -, htags, -⟩ := ecs_delete_spec hsys hwf hr
  obtain ⟨hids, -, hlists⟩ := ecs_delete_tables hsys hr
  have hlen : e.index < s.ids.length := by rw [hwf.ids_length]; exact hidx
  refine ⟨r, hr, ?_, ?_, htags, hcap, hnext, fun j hj => ⟨?_, ?_, fun c => ?_⟩⟩
  · rw [hbits]; simp
  · rw [hids, List.getElem?_set]
    simp [hlen]
  · rw [hids, List.getElem?_set]
    have : ¬ e.index = j := fun x => hj x.symm
    simp [this]
  · rw [hbits, if_neg hj]
  · have hslot : slot_at r.1 ⟨c, j⟩ = slot_at s ⟨c, j⟩ := by
      have := ecs_delete_loop_other hcb e (List.range s.lists.length) (s, []) ⟨c, j⟩ hj
      unfold slot_at at this ⊢
      rw [hlists]
      exact this
    unfold ECS_TAG payload_at
    rw [hslot]
    exact ⟨rfl, rfl⟩

/-- Witness of C13: the deletion of the entity in slot 1, which holds a component. -/
theorem ecs_delete_post_state_witness :
    ∃ r, ecs_delete no_systems demo_tagged ⟨2, 1⟩ = some r ∧
      bitmap_get r.1.used 1 = false ∧
      r.1.ids[1]? = some ENTITY_NONE ∧
      (∀ c, tag_used r.1 ⟨c, 1⟩ = false) ∧
      r.1.capacity = demo_tagged.capacity ∧
      r.1.next_entity_id = demo_tagged.next_entity_id ∧
      ∀ j, j ≠ 1 →
        r.1.ids[j]? = demo_tagged.ids[j]? ∧
        bitmap_get r.1.used j = bitmap_get demo_tagged.used j ∧
        ∀ c, ECS_TAG r.1 ⟨c, j⟩ = ECS_TAG demo_tagged ⟨c, j⟩ ∧
          payload_at r.1 ⟨c, j⟩ = payload_at demo_tagged ⟨c, j⟩ :=
  ecs_delete_post_state no_systems_safe demo_tagged_reachable ⟨2, 1⟩ (by decide)
    (fun c f hf => by simp [no_systems, ECSSystem.none] at hf)


/-! ## The `init` callback -/

/-- The engine just before `_ecs_add_internal` calls `init`: the tag is set and the
payload holds the value. -/
theorem copy_value_populated {s : ECS} (hwf : WF s) {e : Entity} {c : Nat} {v : List Nat}
    (hidx : e.index < s.capacity) (hc : c < s.lists.length) (hv : v.length = table_size s c) :
    tag_used (copy_value (tag_set_used s ⟨c, e.index⟩) ⟨c, e.index⟩ (some v)) ⟨c, e.index⟩
      = true ∧
    payload_at (copy_value (tag_set_used s ⟨c, e.index⟩) ⟨c, e.index⟩ (some v)) ⟨c, e.index⟩
      = v := by
  have hin : e.index < table_len s c := by rw [hwf.table_len c hc]; exact hidx
  have hin1 : (⟨c, e.index⟩ : ComponentPtr).index <
      table_len (tag_set_used s ⟨c, e.index⟩) (⟨c, e.index⟩ : ComponentPtr).list := by
    rw [(tag_set_used_shape s ⟨c, e.index⟩).table_len]
    exact hin
  constructor
  · unfold copy_value tag_used ECS_TAG
    rw [slot_at_slot_update, if_pos ⟨rfl, hin1⟩]
    show (ECS_TAG (tag_set_used s ⟨c, e.index⟩) ⟨c, e.index⟩ &&& ECS_TAG_USED != 0) = true
    rw [ECS_TAG_tag_set_used, if_pos ⟨rfl, hin⟩]
    simp only [bne_iff_ne, ne_eq]
    exact tag_set_used_bit _
  · unfold copy_value payload_at
    rw [slot_at_slot_update, if_pos ⟨rfl, hin1⟩]
    show memcpy (payload_at (tag_set_used s ⟨c, e.index⟩) ⟨c, e.index⟩) v
      (table_size (tag_set_used s ⟨c, e.index⟩) c) = v
    rw [payload_at_tag_set_used, (tag_set_used_shape s ⟨c, e.index⟩).table_size]
    exact memcpy_full _ _ _ hv (hwf.payload_length c e.index hc hidx)

/-- C14 (`init` observes populated state): for a valid attach of a value of
`component_size` bytes to a live entity in a reachable engine state, `_ecs_add_internal`
calls a bound `init` callback exactly once, with the entity handle and a state in which
the `used` tag is set and the payload equals the value, and it makes no call when `init`
is not bound. -/
theorem init_sees_populated_state {sys : Systems} (hsys : sys.Safe) {sizes : List Nat}
    {s : ECS} (h : Reachable sys sizes s) (e : Entity) (c : Nat) (v : List Nat)
    (hlive : bitmap_get s.used e.index = true) (hc : c < s.lists.length)
    (htag : ecs_has s e c = false) (hv : v.length = table_size s c) :
    ∃ r, _ecs_add_internal sys s e c (some v) = some r ∧
      (∀ f, (sys c).init = some f →
        ∃ st, r.2 = [⟨⟨c, e.index⟩, e, st⟩] ∧ r.1 = f ⟨c, e.index⟩ e st ∧
          ecs_has st e c = true ∧ payload_at st ⟨c, e.index⟩ = v) ∧
      ((sys c).init = none → r.2 = []) := by
  have hwf := h.reach_wf hsys
  have hidx := index_lt_of_live hwf hlive
  have hrun : _ecs_add_internal sys s e c (some v) =
      some (invoke (sys c).init ⟨c, e.index⟩ e
        (copy_value (tag_set_used s ⟨c, e.index⟩) ⟨c, e.index⟩ (some v), [])) := by
    unfold _ecs_add_internal
    have : tag_used s (ECSCL_GET c e.index) = false := htag
    simp only [this, Bool.not_false, if_true]
    rfl
  obtain ⟨h1, h2⟩ := copy_value_populated hwf hidx hc hv
  refine ⟨_, hrun, fun f hf => ?_, fun hnone => ?_⟩
  · rw [hf]
    exact ⟨_, rfl, rfl, h1, h2⟩
  · rw [hnone]
    rfl

/-- The callbacks of `demo_init_systems` respect the frame. -/
theorem demo_init_systems_safe : demo_init_systems.Safe := by
  intro c f hf
  have : f = fun _ _ s => s := by
    unfold demo_init_systems at hf
    by_cases hc : c = 0
    · simp [hc, ECSSystem.none] at hf
      exact hf.symm
    · simp [hc, ECSSystem.none] at hf
  rw [this]
  intro p e s
  exact Frame.frame_refl s

/-- Witness of C14: the attach of `Position{1.0, 2.0}` with a bound `init` callback. -/
theorem init_sees_populated_state_witness :
    ∃ r, _ecs_add_internal demo_init_systems demo_position ⟨1, 0⟩ 0 (some position_1_2)
        = some r ∧
      (∀ f, (demo_init_systems 0).init = some f →
        ∃ st, r.2 = [⟨⟨0, 0⟩, ⟨1, 0⟩, st⟩] ∧ r.1 = f ⟨0, 0⟩ ⟨1, 0⟩ st ∧
          ecs_has st ⟨1, 0⟩ 0 = true ∧ payload_at st ⟨0, 0⟩ = position_1_2) ∧
      ((demo_init_systems 0).init = none → r.2 = []) :=
  init_sees_populated_state demo_init_systems_safe
    ((Reachable.reach_init demo_init_systems [16]).reach_new_n 1) ⟨1, 0⟩ 0 position_1_2
    (by decide) (by decide) (by decide) (by decide)


/-! ## Frame of attach and detach -/

/-- A store into the slot `p` changes nothing but that slot. -/
theorem slot_update_frame (s : ECS) (p : ComponentPtr) (f : Slot → Slot) :
    (slot_update s p f).capacity = s.capacity ∧
    (slot_update s p f).next_entity_id = s.next_entity_id ∧
    (slot_update s p f).ids = s.ids ∧
    (slot_update s p f).used = s.used ∧
    (slot_update s p f).lists.length = s.lists.length ∧
    (∀ c, c ≠ p.list → (slot_update s p f).lists.getD c default = s.lists.getD c default) ∧
    (∀ q, q ≠ p → slot_at (slot_update s p f) q = slot_at s q) := by
  refine ⟨rfl, rfl, rfl, rfl, slot_update_lists_length s p f, fun c hc => ?_, fun q hq => ?_⟩
  · rw [slot_update_table, if_neg (fun x => hc x.symm)]
  · rw [slot_at_slot_update, if_neg (fun x => hq x.1.symm)]

/-- A successful `ecs_remove` found the tag used. -/
theorem precondition_free_remove (sys : Systems) (s : ECS) (e : Entity) (c : Nat) :
    (∃ r, ecs_remove sys s e c = some r) ↔ tag_used s ⟨c, e.index⟩ = true := by
  unfold ecs_remove
  simp only [ECSCL_GET]
  cases h : tag_used s ⟨c, e.index⟩ <;> simp

theorem tag_set_used_frame (s : ECS) (p : ComponentPtr) :
    (tag_set_used s p).capacity = s.capacity ∧
    (tag_set_used s p).next_entity_id = s.next_entity_id ∧
    (tag_set_used s p).ids = s.ids ∧
    (tag_set_used s p).used = s.used ∧
    (tag_set_used s p).lists.length = s.lists.length ∧
    (∀ c, c ≠ p.list → (tag_set_used s p).lists.getD c default = s.lists.getD c default) ∧
    (∀ q, q ≠ p → slot_at (tag_set_used s p) q = slot_at s q) :=
  slot_update_frame s p _

theorem tag_clear_used_frame (s : ECS) (p : ComponentPtr) :
    (tag_clear_used s p).capacity = s.capacity ∧
    (tag_clear_used s p).next_entity_id = s.next_entity_id ∧
    (tag_clear_used s p).ids = s.ids ∧
    (tag_clear_used s p).used = s.used ∧
    (tag_clear_used s p).lists.length = s.lists.length ∧
    (∀ c, c ≠ p.list → (tag_clear_used s p).lists.getD c default = s.lists.getD c default) ∧
    (∀ q, q ≠ p → slot_at (tag_clear_used s p) q = slot_at s q) :=
  slot_update_frame s p _

theorem copy_value_frame (s : ECS) (p : ComponentPtr) (v : Option (List Nat)) :
    (copy_value s p v).capacity = s.capacity ∧
    (copy_value s p v).next_entity_id = s.next_entity_id ∧
    (copy_value s p v).ids = s.ids ∧
    (copy_value s p v).used = s.used ∧
    (copy_value s p v).lists.length = s.lists.length ∧
    (∀ c, c ≠ p.list → (copy_value s p v).lists.getD c default = s.lists.getD c default) ∧
    (∀ q, q ≠ p → slot_at (copy_value s p v) q = slot_at s q) := by
  cases v with
  | none => exact ⟨rfl, rfl, rfl, rfl, rfl, fun _ _ => rfl, fun _ _ => rfl⟩
  | some w => exact slot_update_frame s p _

/-- C16 (frame of attach and detach): with the callbacks of the component type absent,
`_ecs_add_internal` and `ecs_remove` on a handle with index `i` and type `c` leave the
capacity, the identifier counter, the entity table, the bitmap, every other component
table and every other slot of table `c` unchanged; an attach without value and a detach
also leave the payload of slot `i` unchanged. -/
theorem attach_detach_frame (sys : Systems) (s : ECS) (e : Entity) (c : Nat)
    (v : Option (List Nat)) (r : ECS × List Call)
    (hinit : (sys c).init = none) (hdestroy : (sys c).destroy = none)
    (hr : _ecs_add_internal sys s e c v = some r ∨ ecs_remove sys s e c = some r) :
    r.1.capacity = s.capacity ∧
    r.1.next_entity_id = s.next_entity_id ∧
    r.1.ids = s.ids ∧
    r.1.used = s.used ∧
    r.1.lists.length = s.lists.length ∧
    (∀ c', c' ≠ c → r.1.lists.getD c' default = s.lists.getD c' default) ∧
    (∀ q : ComponentPtr, q ≠ ⟨c, e.index⟩ → slot_at r.1 q = slot_at s q) ∧
    ((v = none ∨ ecs_remove sys s e c = some r) →
      payload_at r.1 ⟨c, e.index⟩ = payload_at s ⟨c, e.index⟩) := by
  have hdetach : ∀ r, ecs_remove sys s e c = some r →
      r.1 = tag_clear_used s ⟨c, e.index⟩ := by
    intro r hr
    unfold ecs_remove at hr
    simp only [ECSCL_GET] at hr
    split at hr
    · rw [hdestroy] at hr
      simp only [invoke, Option.some.injEq] at hr
      rw [← hr]
    · exact Option.noConfusion hr
  rcases hr with hr | hr
  · have hattach : r.1 = copy_value (tag_set_used s ⟨c, e.index⟩) ⟨c, e.index⟩ v ∧
        tag_used s ⟨c, e.index⟩ = false := by
      unfold _ecs_add_internal at hr
      simp only [ECSCL_GET] at hr
      split at hr
      · rename_i htag
        rw [hinit] at hr
        simp only [invoke, Option.some.injEq] at hr
        rw [← hr]
        exact ⟨rfl, by simpa using htag⟩
      · exact Option.noConfusion hr
    obtain ⟨hstate, htag⟩ := hattach
    obtain ⟨h1, h2, h3, h4, h5, h6, h7⟩ := tag_set_used_frame s ⟨c, e.index⟩
    obtain ⟨g1, g2, g3, g4, g5, g6, g7⟩ :=
      copy_value_frame (tag_set_used s ⟨c, e.index⟩) ⟨c, e.index⟩ v
    rw [hstate]
    refine ⟨g1.trans h1, g2.trans h2, g3.trans h3, g4.trans h4, g5.trans h5,
      fun c' hc' => (g6 c' hc').trans (h6 c' hc'),
      fun q hq => (g7 q hq).trans (h7 q hq), fun hv => ?_⟩
    rcases hv with hv | hv
    · rw [hv]
      exact payload_at_tag_set_used s _ _
    · have := ((precondition_free_remove sys s e c).1 ⟨r, hv⟩)
      rw [htag] at this
      exact Bool.noConfusion this
  · rw [hdetach r hr]
    obtain ⟨h1, h2, h3, h4, h5, h6, h7⟩ := tag_clear_used_frame s ⟨c, e.index⟩
    exact ⟨h1, h2, h3, h4, h5, h6, h7, fun _ => payload_at_tag_clear_used s _ _⟩

/-- Witness of C16: the attach of a component without a value to the entity in slot 0
keeps the entity table, the bitmap and the payload of the slot. -/
theorem attach_detach_frame_witness :
    demo_attached.1.ids = demo_position.ids ∧
    demo_attached.1.used = demo_position.used ∧
    payload_at demo_attached.1 ⟨0, 0⟩ = payload_at demo_position ⟨0, 0⟩ :=
  have h := attach_detach_frame no_systems demo_position ⟨1, 0⟩ 0 none demo_attached rfl rfl
    (Or.inl (Option.some_get _).symm)
  ⟨h.2.2.1, h.2.2.2.1, h.2.2.2.2.2.2.2 (Or.inl rfl)⟩


/-! ## The identifier of a handle -/

/-- The loop of `ecs_delete` for two handles with the same index and callbacks that do
not tell them apart: the resulting engines are equal. -/
theorem ecs_delete_loop_same_index {sys : Systems} {e1 e2 : Entity}
    (hidx : e1.index = e2.index)
    (hcb : ∀ c f, ((sys c).init = some f ∨ (sys c).destroy = some f) →
      ∀ p t, f p e1 t = f p e2 t) :
    ∀ (js : List Nat) (r1 r2 : ECS × List Call), r1.1 = r2.1 →
      (ecs_delete_loop sys e1 js r1).1 = (ecs_delete_loop sys e2 js r2).1 := by
  intro js
  induction js with
  | nil => intro r1 r2 h; exact h
  | cons j js ih =>
    intro r1 r2 h
    simp only [ecs_delete_loop]
    apply ih
    rw [hidx, h]
    cases hd : (sys j).destroy with
    | none => rfl
    | some f =>
      simp only [invoke]
      exact hcb j f (Or.inr hd) _ _

/-- C19 (the identifier of a handle is not checked): for two handles with the same index,
whatever their identifiers, `ecs_delete`, `_ecs_add_internal` and `ecs_remove` succeed or
fail alike and `ecs_has` and `ecs_get` give the same result; when no bound callback tells
the two handles apart, the resulting engine states are equal too.  A handle whose slot is
occupied is accepted by `ecs_delete` whether or not its identifier is the one stored in
the slot. -/
theorem handle_id_unchecked (sys : Systems) (s : ECS) (e1 e2 : Entity) (c : Nat)
    (v : Option (List Nat)) (hidx : e1.index = e2.index) :
    (ecs_delete sys s e1).isSome = (ecs_delete sys s e2).isSome ∧
    (_ecs_add_internal sys s e1 c v).isSome = (_ecs_add_internal sys s e2 c v).isSome ∧
    (ecs_remove sys s e1 c).isSome = (ecs_remove sys s e2 c).isSome ∧
    ecs_has s e1 c = ecs_has s e2 c ∧
    ecs_get s e1 c = ecs_get s e2 c ∧
    (bitmap_get s.used e1.index = true → (ecs_delete sys s e1).isSome = true) ∧
    ((∀ c f, ((sys c).init = some f ∨ (sys c).destroy = some f) →
        ∀ p t, f p e1 t = f p e2 t) →
      (ecs_delete sys s e1).map Prod.fst = (ecs_delete sys s e2).map Prod.fst ∧
      (_ecs_add_internal sys s e1 c v).map Prod.fst =
        (_ecs_add_internal sys s e2 c v).map Prod.fst ∧
      (ecs_remove sys s e1 c).map Prod.fst = (ecs_remove sys s e2 c).map Prod.fst) := by
  refine ⟨?_, ?_, ?_, ?_, ?_, ?_, fun hcb => ⟨?_, ?_, ?_⟩⟩
  · unfold ecs_delete
    rw [hidx]
    split <;> rfl
  · unfold _ecs_add_internal
    rw [hidx]
    simp only
    split <;> rfl
  · unfold ecs_remove
    rw [hidx]
    simp only
    split <;> rfl
  · unfold ecs_has
    rw [hidx]
  · unfold ecs_get ecs_has
    rw [hidx]
  · intro hbit
    unfold ecs_delete
    rw [if_pos hbit]
    rfl
  · unfold ecs_delete
    rw [hidx]
    split
    · simp only [Option.map_some']
      rw [ecs_delete_loop_same_index hidx hcb (List.range s.lists.length) (s, []) (s, []) rfl]
    · rfl
  · unfold _ecs_add_internal
    rw [hidx]
    simp only
    split
    · simp only [Option.map_some']
      cases hi : (sys c).init with
      | none => rfl
      | some f =>
        simp only [invoke]
        rw [hcb c f (Or.inl hi)]
    · rfl
  · unfold ecs_remove
    rw [hidx]
    simp only
    split
    · simp only [Option.map_some']
      cases hd : (sys c).destroy with
      | none => rfl
      | some f =>
        simp only [invoke]
        rw [hcb c f (Or.inr hd)]
    · rfl

/-- Witness of C19: slot 1 held the entity with identifier 2 and now holds the entity
with identifier 4; `ecs_delete` with the stale handle removes the current occupant
exactly as with the current handle. -/
theorem handle_id_unchecked_witness :
    demo_refilled.ids[1]? = some 4 ∧
    (ecs_delete no_systems demo_refilled ⟨2, 1⟩).map
        (fun r => (bitmap_get r.1.used 1, r.1.ids[1]?)) = some (false, some ENTITY_NONE) ∧
    (ecs_delete no_systems demo_refilled ⟨2, 1⟩).map Prod.fst =
      (ecs_delete no_systems demo_refilled ⟨4, 1⟩).map Prod.fst :=
  ⟨by decide, by decide,
   ((handle_id_unchecked no_systems demo_refilled ⟨2, 1⟩ ⟨4, 1⟩ 0 none rfl).2.2.2.2.2.2
      (fun c f hf => by simp [no_systems, ECSSystem.none] at hf)).1⟩


/-! ## Event dispatch -/

theorem SameTags.same_used {s t : ECS} (h : SameTags s t) (q : ComponentPtr) :
    tag_used t q = tag_used s q := by
  unfold tag_used
  rw [h.2]

/-- The inner loop of `ecs_event` with a subscriber that keeps the capacity and the tags:
it ends, and it calls the subscriber on the used slots from `j` on, in ascending order. -/
theorem ecs_event_slots_spec {s : ECS} {f : ECSSubscriber}
    (hf : ∀ p e t, (f p e t).capacity = t.capacity ∧ ∀ q, ECS_TAG (f p e t) q = ECS_TAG t q)
    (i : Nat) :
    ∀ (fuel j : Nat) (r : ECS × List Call), SameTags s r.1 → s.capacity ≤ j + fuel →
      (∀ call ∈ r.2, EventHandle call) →
      ∃ r1, ecs_event_slots f i fuel j r = some r1 ∧ SameTags s r1.1 ∧
        (∀ call ∈ r1.2, EventHandle call) ∧
        r1.2.map Call.component = r.2.map Call.component ++
          ((List.range' j (s.capacity - j)).filter (fun k => tag_used s ⟨i, k⟩)).map
            (fun k => ECSCL_GET i k) := by
  intro fuel
  induction fuel with
  | zero =>
    intro j r hsame hfuel hcalls
    refine ⟨r, ?_, hsame, hcalls, ?_⟩
    · simp only [ecs_event_slots]
      rw [if_neg (by rw [hsame.1]; omega)]
    · have : s.capacity - j = 0 := by omega
      rw [this]
      simp
  | succ fuel ih =>
    intro j r hsame hfuel hcalls
    simp only [ecs_event_slots]
    by_cases hj : j < s.capacity
    · rw [if_pos (by rw [hsame.1]; exact hj)]
      have hrange : List.range' j (s.capacity - j) =
          j :: List.range' (j + 1) (s.capacity - (j + 1)) := by
        have : s.capacity - j = (s.capacity - (j + 1)) + 1 := by omega
        rw [this, List.range'_succ]
      rw [hrange, List.filter_cons]
      have hused : tag_used r.1 (ECSCL_GET i j) = tag_used s ⟨i, j⟩ := hsame.same_used _
      by_cases ht : tag_used s ⟨i, j⟩ = true
      · rw [if_pos (hused.trans ht), if_pos ht]
        have hsame1 : SameTags s (invoke (some f) (ECSCL_GET i j)
            ⟨r.1.ids.getD j ENTITY_NONE, j⟩ r).1 := by
          obtain ⟨h1, h2⟩ := hf (ECSCL_GET i j) ⟨r.1.ids.getD j ENTITY_NONE, j⟩ r.1
          exact ⟨h1.trans hsame.1, fun q => (h2 q).trans (hsame.2 q)⟩
        have hcalls1 : ∀ call ∈ (invoke (some f) (ECSCL_GET i j)
            ⟨r.1.ids.getD j ENTITY_NONE, j⟩ r).2, EventHandle call := by
          intro call hcall
          simp only [invoke, List.mem_append, List.mem_singleton] at hcall
          rcases hcall with hcall | hcall
          · exact hcalls call hcall
          · rw [hcall]
            rfl
        obtain ⟨r1, g1, g2, g3, g4⟩ := ih (j + 1) _ hsame1 (by omega) hcalls1
        refine ⟨r1, g1, g2, g3, ?_⟩
        rw [g4]
        simp only [invoke, List.map_append, List.map_cons, List.map_nil, List.append_assoc,
          List.singleton_append]
      · rw [if_neg (fun h => ht (hused.symm.trans h)), if_neg ht]
        exact ih (j + 1) r hsame (by omega) hcalls
    · rw [if_neg (by rw [hsame.1]; exact hj)]
      refine ⟨r, rfl, hsame, hcalls, ?_⟩
      have : s.capacity - j = 0 := by omega
      rw [this]
      simp

/-- The outer loop of `ecs_event` over the component types `js`. -/
theorem ecs_event_lists_spec {sys : Systems} {s : ECS} {event fuel : Nat}
    (hfuel : s.capacity ≤ fuel)
    (hsub : ∀ i f, (sys i).subscribers event = some f →
      ∀ p e t, (f p e t).capacity = t.capacity ∧ ∀ q, ECS_TAG (f p e t) q = ECS_TAG t q) :
    ∀ (js : List Nat) (r : ECS × List Call), SameTags s r.1 →
      (∀ call ∈ r.2, EventHandle call) →
      ∃ r1, ecs_event_lists sys event fuel js r = some r1 ∧ SameTags s r1.1 ∧
        (∀ call ∈ r1.2, EventHandle call) ∧
        r1.2.map Call.component = r.2.map Call.component ++
          js.flatMap (fun i =>
            if ((sys i).subscribers event).isSome then dispatch_slots s i else []) := by
  intro js
  induction js with
  | nil =>
    intro r hsame hcalls
    exact ⟨r, rfl, hsame, hcalls, by simp⟩
  | cons i js ih =>
    intro r hsame hcalls
    simp only [ecs_event_lists, List.flatMap_cons]
    cases hs : (sys i).subscribers event with
    | none =>
      obtain ⟨r1, g1, g2, g3, g4⟩ := ih r hsame hcalls
      exact ⟨r1, g1, g2, g3, by rw [g4]; simp⟩
    | some f =>
      obtain ⟨r2, k1, k2, k3, k4⟩ :=
        ecs_event_slots_spec (hsub i f hs) i fuel 0 r hsame (by omega) hcalls
      obtain ⟨r1, g1, g2, g3, g4⟩ := ih r2 k2 k3
      refine ⟨r1, ?_, g2, g3, ?_⟩
      · simp only [k1]
        exact g1
      · rw [g4, k4]
        simp only [Option.isSome_some, if_true, dispatch_slots, Nat.sub_zero,
          List.range_eq_range', List.append_assoc]

/-- C12 (dispatch completeness and order): with subscribers that change neither tags nor
the capacity and `fuel` of at least the capacity for every inner loop, `ecs_event` ends
and calls subscribers on exactly the component pointers of `dispatch_order`: for every
component type with a subscriber bound to the event, in ascending order of the type, the
slots below the capacity tagged used for that type, each once and in ascending order;
every call passes the handle `{ids[j], j}` of its slot `j`. -/
theorem ecs_event_dispatch (sys : Systems) (s : ECS) (event fuel : Nat)
    (hfuel : s.capacity ≤ fuel)
    (hsub : ∀ i f, (sys i).subscribers event = some f →
      ∀ p e t, (f p e t).capacity = t.capacity ∧ ∀ q, ECS_TAG (f p e t) q = ECS_TAG t q) :
    ∃ r, ecs_event fuel sys s event = some r ∧
      r.2.map Call.component = dispatch_order sys s event ∧
      ∀ call ∈ r.2,
        call.entity = ⟨call.state.ids.getD call.component.index ENTITY_NONE,
          call.component.index⟩ := by
  obtain ⟨r, h1, -, h3, h4⟩ := ecs_event_lists_spec hfuel hsub (List.range s.lists.length)
    (s, []) ⟨rfl, fun _ => rfl⟩ (fun _ h => by simp at h)
  exact ⟨r, h1, by rw [h4]; rfl, h3⟩

theorem demo_event_systems_tags (i : Nat) (f : ECSSubscriber)
    (hf : (demo_event_systems i).subscribers 3 = some f) (p : ComponentPtr) (e : Entity)
    (t : ECS) : (f p e t).capacity = t.capacity ∧ ∀ q, ECS_TAG (f p e t) q = ECS_TAG t q := by
  have hfun : f = fun p _ s => slot_update s p (fun x => ⟨x.tag, x.payload.map (· + 1)⟩) := by
    unfold demo_event_systems at hf
    by_cases hi : i = 0
    · simp [hi] at hf
      exact hf.symm
    · simp [hi, ECSSystem.none] at hf
  rw [hfun]
  refine ⟨rfl, fun q => ?_⟩
  unfold ECS_TAG
  rw [slot_at_slot_update]
  split <;> rfl

/-- Witness of C12: event 3 on the engine in which only the entity in slot 1 holds a
component of type 0, the type that subscribes to the event. -/
theorem ecs_event_dispatch_witness :
    dispatch_order demo_event_systems demo_tagged 3 = [⟨0, 1⟩] ∧
    ∃ r, ecs_event 64 demo_event_systems demo_tagged 3 = some r ∧
      r.2.map Call.component = dispatch_order demo_event_systems demo_tagged 3 ∧
      ∀ call ∈ r.2,
        call.entity = ⟨call.state.ids.getD call.component.index ENTITY_NONE,
          call.component.index⟩ :=
  ⟨by decide,
   ecs_event_dispatch demo_event_systems demo_tagged 3 64 (by decide)
     demo_event_systems_tags⟩


/-! ## Direction lookup -/

theorem ivec3s_eq_iff (d v : ivec3s) : (d.x = v.x ∧ d.y = v.y ∧ d.z = v.z) ↔ d = v := by
  constructor
  · rintro ⟨h1, h2, h3⟩
    cases d
    cases v
    simp only at h1 h2 h3
    rw [h1, h2, h3]
  · rintro rfl
    exact ⟨rfl, rfl, rfl⟩

/-- The loop of `_ivec3s2dir` finds no entry exactly for a vector that is not in the
table. -/
theorem ivec3s2dir_loop_none (v : ivec3s) :
    ∀ (table : List ivec3s) (i : Nat), v ∉ table → _ivec3s2dir_loop v table i = none := by
  intro table
  induction table with
  | nil => intro i _; rfl
  | cons d table ih =>
    intro i hv
    simp only [_ivec3s2dir_loop]
    have hne : ¬ (d.x = v.x ∧ d.y = v.y ∧ d.z = v.z) := by
      rw [ivec3s_eq_iff]
      intro h
      exact hv (by rw [h]; exact List.mem_cons_self _ _)
    rw [if_neg hne]
    exact ih (i + 1) (fun h => hv (List.mem_cons_of_mem _ h))

/-- A vector that is not in the table: with assertions enabled the assertion after the
loop fails, with assertions compiled out the function returns `(enum Direction) -1`. -/
theorem ivec3s2dir_invalid (enum_unsigned : Bool) (v : ivec3s) (hv : v ∉ DIRECTION_IVEC) :
    _ivec3s2dir false enum_unsigned v = none ∧
    _ivec3s2dir true enum_unsigned v = some (enum_Direction enum_unsigned (-1)) := by
  have := ivec3s2dir_loop_none v DIRECTION_IVEC 0 hv
  unfold _ivec3s2dir
  rw [this]
  exact ⟨rfl, rfl⟩

/-- C15 (the code at the failing input): the zero vector is not in `DIRECTION_IVEC`; with
assertions enabled `_ivec3s2dir` does not return -1 for it, as `assert (0 && ...)` after
the loop fails; with assertions compiled out it returns `(enum Direction) -1`, which is
4294967295 where the enumeration is unsigned and -1 where it is signed.  In every build
each of the six table vectors, which are pairwise distinct, is mapped to its direction. -/
theorem ivec3s2dir_asserts :
    (⟨0, 0, 0⟩ : ivec3s) ∉ DIRECTION_IVEC ∧
    _ivec3s2dir false true ⟨0, 0, 0⟩ = none ∧
    _ivec3s2dir false false ⟨0, 0, 0⟩ = none ∧
    _ivec3s2dir true true ⟨0, 0, 0⟩ = some 4294967295 ∧
    _ivec3s2dir true false ⟨0, 0, 0⟩ = some (-1) ∧
    DIRECTION_IVEC.Nodup ∧ DIRECTION_IVEC.length = 6 ∧
    ∀ (ndebug enum_unsigned : Bool) (d : Fin 6),
      (DIRECTION_IVEC[d.val]?).bind (_ivec3s2dir ndebug enum_unsigned) = some (d.val : Int) := by
  refine ⟨by decide, by decide, by decide, by decide, by decide, by decide, rfl, ?_⟩
  decide


/-! ## Memory layout of a component table -/

/-- The payload offset of slot `i` is a multiple of the alignment exactly when the
alignment divides `i * (component_size + tag_size)`. -/
theorem ECSCL_GET_offset_aligned_iff (align tag_size component_size i : Nat) :
    align ∣ ECSCL_GET_offset align tag_size component_size i ↔
      align ∣ i * (component_size + tag_size) := by
  have h : ECSCL_GET_offset align tag_size component_size i =
      align * (i + 1) + i * (component_size + tag_size) := by
    unfold ECSCL_GET_offset ECSCL_ELEMENT_SIZE
    ring
  rw [h]
  exact (Nat.dvd_add_right (Dvd.intro _ rfl))

/-- C17 (the code at the failing input): with `alignof (max_align_t) = 16`, a 4-byte
`ECSTag` and a 16-byte component, the payload of slot 1 lies at byte offset 52, which is
not a multiple of 16 (nor of 8), while slot 0 is aligned; with a 16-byte component the
payload of slot 1 is misaligned for every size of `ECSTag` from 1 to 15 bytes; in general
the offset of slot `i` is aligned only when the alignment divides
`i * (component_size + sizeof (ECSTag))`. -/
theorem payload_offset_misaligned :
    ECSCL_GET_offset 16 4 16 1 = 52 ∧
    ¬ (16 ∣ ECSCL_GET_offset 16 4 16 1) ∧
    ¬ (8 ∣ ECSCL_GET_offset 16 4 16 1) ∧
    16 ∣ ECSCL_GET_offset 16 4 16 0 ∧
    (∀ tag_size : Fin 16, 16 ∣ ECSCL_GET_offset 16 tag_size.val 16 1 ↔ tag_size.val = 0) ∧
    ∀ align tag_size component_size i,
      align ∣ ECSCL_GET_offset align tag_size component_size i ↔
        align ∣ i * (component_size + tag_size) :=
  ⟨by decide, by decide, by decide, by decide, by decide, ECSCL_GET_offset_aligned_iff⟩

/-- C20 (slot regions are disjoint and in bounds): when `sizeof (ECSTag)` is at most
`alignof (max_align_t)`, for slots `i ≠ j` below the capacity `C` the tag range and the
payload range of slot `i` do not overlap each other nor the tag and payload ranges of
slot `j`, and they lie inside the `C * ECSCL_ELEMENT_SIZE` bytes of the table. -/
theorem slot_regions_disjoint (align tag_size component_size capacity i j : Nat)
    (htag : tag_size ≤ align) (hi : i < capacity) (hj : j < capacity) (hij : i ≠ j) :
    ranges_disjoint
      (ECS_PTAG_offset tag_size (ECSCL_GET_offset align tag_size component_size i)) tag_size
      (ECSCL_GET_offset align tag_size component_size i) component_size ∧
    0 ≤ ECS_PTAG_offset tag_size (ECSCL_GET_offset align tag_size component_size i) ∧
    ECS_PTAG_offset tag_size (ECSCL_GET_offset align tag_size component_size i) + tag_size ≤
      (capacity * ECSCL_ELEMENT_SIZE align tag_size component_size : Nat) ∧
    ECSCL_GET_offset align tag_size component_size i + component_size ≤
      capacity * ECSCL_ELEMENT_SIZE align tag_size component_size ∧
    ECSCL_GET_offset align tag_size component_size j + component_size ≤
      capacity * ECSCL_ELEMENT_SIZE align tag_size component_size ∧
    ranges_disjoint
      (ECS_PTAG_offset tag_size (ECSCL_GET_offset align tag_size component_size i)) tag_size
      (ECS_PTAG_offset tag_size (ECSCL_GET_offset align tag_size component_size j)) tag_size ∧
    ranges_disjoint
      (ECS_PTAG_offset tag_size (ECSCL_GET_offset align tag_size component_size i)) tag_size
      (ECSCL_GET_offset align tag_size component_size j) component_size ∧
    ranges_disjoint
      (ECSCL_GET_offset align tag_size component_size i) component_size
      (ECS_PTAG_offset tag_size (ECSCL_GET_offset align tag_size component_size j)) tag_size ∧
    ranges_disjoint
      (ECSCL_GET_offset align tag_size component_size i) component_size
      (ECSCL_GET_offset align tag_size component_size j) component_size := by
  unfold ranges_disjoint ECS_PTAG_offset ECSCL_GET_offset
  generalize hE : ECSCL_ELEMENT_SIZE align tag_size component_size = E
  have hEdef : E = align + component_size + tag_size := by
    rw [← hE]
    rfl
  have hcap : i * E + E ≤ capacity * E := by
    have := Nat.mul_le_mul_right E (Nat.succ_le_of_lt hi)
    rwa [Nat.succ_mul] at this
  have hcapj : j * E + E ≤ capacity * E := by
    have := Nat.mul_le_mul_right E (Nat.succ_le_of_lt hj)
    rwa [Nat.succ_mul] at this
  have hcross : i * E + E ≤ j * E ∨ j * E + E ≤ i * E := by
    rcases Nat.lt_or_gt_of_ne hij with h | h
    · left
      have := Nat.mul_le_mul_right E (Nat.succ_le_of_lt h)
      rwa [Nat.succ_mul] at this
    · right
      have := Nat.mul_le_mul_right E (Nat.succ_le_of_lt h)
      rwa [Nat.succ_mul] at this
  push_cast
  refine ⟨?_, ?_, ?_, ?_, ?_, ?_, ?_, ?_, ?_⟩ <;> omega

/-- Witness of C20: slots 0 and 1 of a table of 16-byte components with a 4-byte tag and
alignment 16. -/
theorem slot_regions_disjoint_witness :
    ranges_disjoint (ECS_PTAG_offset 4 (ECSCL_GET_offset 16 4 16 0)) 4
      (ECSCL_GET_offset 16 4 16 1) 16 ∧
    ECSCL_GET_offset 16 4 16 0 + 16 ≤ 64 * ECSCL_ELEMENT_SIZE 16 4 16 :=
  have h := slot_regions_disjoint 16 4 16 64 0 1 (by decide) (by decide) (by decide)
    (by decide)
  ⟨h.2.2.2.2.2.2.1, h.2.2.2.1⟩


/-! ## Shape of the capacity -/

/-- The capacity of a reachable engine is 64 times a power of two. -/
theorem Trace.trace_capacity {sys : Systems} (hsys : sys.Safe) {sizes : List Nat} {s : ECS}
    {hs : List Entity} (h : Trace sys sizes s hs) : ∃ k, s.capacity = 64 * 2 ^ k := by
  induction h with
  | init => exact ⟨0, rfl⟩
  | @new s hs ht ih =>
    obtain ⟨k, hk⟩ := ih
    have hwf := ht.trace_wf hsys
    by_cases hfree : ∃ i < s.capacity, bitmap_get s.used i = false
    · refine ⟨k, ?_⟩
      rw [ecs_new_capacity, (ecs_new_slot_free hwf.used_bytes hwf.capacity_words hfree).1]
      exact hk
    · have hfull : ∀ i < s.capacity, bitmap_get s.used i = true := by
        intro i hi
        by_contra hne
        exact hfree ⟨i, hi, by simpa using hne⟩
      refine ⟨k + 1, ?_⟩
      rw [(ecs_new_full hwf hfull).1, hk, pow_succ]
      ring
  | delete ht hr ih =>
    obtain ⟨k, hk⟩ := ih
    exact ⟨k, by rw [(ecs_delete_spec hsys (ht.trace_wf hsys) hr).2.2.1]; exact hk⟩
  | add ht _ hr ih =>
    obtain ⟨k, hk⟩ := ih
    exact ⟨k, by
      rw [(ecs_add_internal_spec hsys (ht.trace_wf hsys) hr).2.1.capacity]; exact hk⟩
  | remove _ _ hr ih =>
    obtain ⟨k, hk⟩ := ih
    exact ⟨k, by rw [(ecs_remove_spec hsys hr).2.1.capacity]; exact hk⟩
  | event _ hr ih =>
    obtain ⟨k, hk⟩ := ih
    exact ⟨k, by rw [(ecs_event_frame hsys hr).capacity]; exact hk⟩

/-- C18 (capacity shape): in every reachable engine state the capacity is `64 * 2 ^ k`
for some `k`; hence the word scan of `ecs_new`, which steps by 64, stops at an index that
is at most the capacity, and at the capacity exactly when every occupancy bit below the
capacity is set. -/
theorem capacity_shape {sys : Systems} (hsys : sys.Safe) {sizes : List Nat} {s : ECS}
    (h : Reachable sys sizes s) :
    (∃ k, s.capacity = 64 * 2 ^ k) ∧
    ecs_new_scan_words s.used s.capacity s.capacity 0 ≤ s.capacity ∧
    (ecs_new_scan_words s.used s.capacity s.capacity 0 = s.capacity ↔
      ∀ i < s.capacity, bitmap_get s.used i = true) := by
  obtain ⟨hs, ht⟩ := h
  have hwf := ht.trace_wf hsys
  obtain ⟨-, w2, w3, w4⟩ := ecs_new_scan_words_spec hwf.used_bytes hwf.capacity_words
    s.capacity 0 ⟨0, rfl⟩ (Nat.zero_le _) (by omega)
  refine ⟨ht.trace_capacity hsys, w2, fun heq i hi => ?_, fun hfull => ?_⟩
  · exact w3 i (Nat.zero_le _) (by rw [heq]; exact hi)
  · by_contra hne
    obtain ⟨j, -, hjbit, hjcap⟩ := w4 (Nat.lt_of_le_of_ne w2 hne)
    rw [hfull _ hjcap] at hjbit
    exact Bool.noConfusion hjbit

/-- Witness of C18: the engine with a free slot among three occupied ones. -/
theorem capacity_shape_witness :
    (∃ k, demo_hole.capacity = 64 * 2 ^ k) ∧
    ecs_new_scan_words demo_hole.used demo_hole.capacity demo_hole.capacity 0 ≤
      demo_hole.capacity ∧
    (ecs_new_scan_words demo_hole.used demo_hole.capacity demo_hole.capacity 0 =
        demo_hole.capacity ↔
      ∀ i < demo_hole.capacity, bitmap_get demo_hole.used i = true) :=
  capacity_shape no_systems_safe
    (((Reachable.reach_init no_systems [2]).reach_new_n 3).reach_delete (e := ⟨2, 1⟩)
      (by decide))

end EcsModel
